import Mathlib

/-!
Impala generic type system: binders, structural equality, handles.

A shallow embedding of the type core of `impala/sema`
(`generic.h`, `generic.cpp`, `typeequal.cpp`) and of the scope handling of
`Sema` (`sema.cpp`).

Nodes live in an arena owned by the type table; a pointer is an index into
the arena.  A function of the source that can hit a failed `assert`, read
through a null or dangling pointer, or (in the fuelled definitions) run out
of fuel returns `none`.
-/

set_option autoImplicit false

namespace Impala

/-- A node address: an index into the arena of the type table. -/
abbrev Ptr := Nat

/-- Modelled from the spec: the kind tag of a type node (`type.h` is not part
of the sources).  Section 3 of the specification lists primitives (one kind
per primitive tag), tuples, function types, type variables and the unknown
type. -/
inductive Kind where
  | Primitive (tag : Nat)
  | Tuple
  | Fn
  | TypeVar
  | Unknown
  deriving DecidableEq

/-- A `TypeNode` of the arena.  The last three fields are the members of
`TypeVarNode` and are only meaningful when `kind = Kind.TypeVar`.
`elems`, `bound_vars` and `bounds` hold proxies, given by the address of
their `node_`. -/
structure TypeNode where
  kind : Kind
  elems : List Ptr := []
  bound_vars : List Ptr := []
  representative : Option Ptr := none
  typetable : Nat := 0
  bounds : List Ptr := []
  bound_at : Option Ptr := none
  equiv_var : Option Ptr := none
  deriving DecidableEq

/-- A `TraitInstanceNode`: the trait it instantiates and the actual type
arguments (`var_instances_`), plus the `representative_` of `Unifiable`. -/
structure TraitInstanceNode where
  trait : Ptr
  var_instances : List Ptr := []
  representative : Option Ptr := none
  deriving DecidableEq

/-- The type table: the arena of type nodes, the arena of trait instances and
the set of unified type nodes used for interning. -/
structure TypeTable where
  types : List TypeNode := []
  trait_instances : List TraitInstanceNode := []
  unifiables : List Ptr := []
  deriving DecidableEq

namespace TypeTable

/-- Read the type node at an address. -/
def type (tt : TypeTable) (p : Ptr) : Option TypeNode := tt.types[p]?

/-- Read the trait instance at an address. -/
def inst (tt : TypeTable) (p : Ptr) : Option TraitInstanceNode := tt.trait_instances[p]?

/-- Overwrite the type node at an address. -/
def setType (tt : TypeTable) (p : Ptr) (n : TypeNode) : TypeTable :=
  { tt with types := tt.types.set p n }

end TypeTable

/-! ## Proxies (`generic.h`, class `Proxy`) -/

namespace Proxy

/-- The method `Proxy<TypeNode>::representative()`: `node_->representative()`; the outer
option is the read of `node_`, the inner one is the possibly null result. -/
def representative (tt : TypeTable) (p : Ptr) : Option (Option Ptr) :=
  (tt.type p).map fun n => n.representative

/-- The operator `Proxy<TypeNode>::operator*`: the representative when the node is unified,
the node itself otherwise. -/
def deref (tt : TypeTable) (p : Ptr) : Option Ptr :=
  (tt.type p).map fun n =>
    match n.representative with
    | some r => r
    | none => p

end Proxy

namespace TypeVar

/-- The cast `as<TypeVarNode>()` on a non-null pointer: the cast asserts that the node
is a type variable. -/
def as_TypeVarNode (tt : TypeTable) (p : Ptr) : Option Ptr :=
  match tt.type p with
  | some n => if n.kind = Kind.TypeVar then some p else none
  | none => none

/-- The method `Proxy<TypeVarNode>::representative()`:
`node_->representative()->as<TypeVarNode>()`; a null representative is
passed through. -/
def representative (tt : TypeTable) (p : Ptr) : Option (Option Ptr) :=
  match tt.type p with
  | some n =>
    match n.representative with
    | some r => (as_TypeVarNode tt r).map some
    | none => some none
  | none => none

/-- The operator `Proxy<TypeVarNode>::operator*` (and `operator->`):
`node_->is_unified() ? representative() : node_->as<TypeVarNode>()`. -/
def deref (tt : TypeTable) (p : Ptr) : Option Ptr :=
  match tt.type p with
  | some n =>
    match n.representative with
    | some r => as_TypeVarNode tt r
    | none => as_TypeVarNode tt p
  | none => none

end TypeVar

namespace TraitInstance

/-- The method `Proxy<TraitInstanceNode>::representative()`. -/
def representative (tt : TypeTable) (p : Ptr) : Option (Option Ptr) :=
  (tt.inst p).map fun n => n.representative

end TraitInstance

/-! ## Members of `TypeVarNode` declared in `type.h` -/

namespace TypeVarNode

/-- Modelled from the spec: `TypeVarNode::is_closed` (`type.h` is not part of
the sources).  A type variable is closed exactly when it has a binding site
(section 3, closedness; section 4.3, double binding). -/
def is_closed (tt : TypeTable) (v : Ptr) : Option Bool :=
  (tt.type v).map fun n => n.bound_at.isSome

/-- Modelled from the spec: `TypeVarNode::bind` (`type.h` is not part of the
sources).  Section 4.3: on success `v.bound_at = node`. -/
def bind (tt : TypeTable) (v : Ptr) (e : Ptr) : Option TypeTable :=
  (tt.type v).map fun n => tt.setType v { n with bound_at := some e }

/-- Modelled from the spec: `TypeVarNode::set_equiv_variable` (`type.h` is not
part of the sources) stores the provisional equivalence link. -/
def set_equiv_variable (tt : TypeTable) (v : Ptr) (w : Option Ptr) : Option TypeTable :=
  (tt.type v).map fun n => tt.setType v { n with equiv_var := w }

/-- Modelled from the spec: `TypeVarNode::unset_equiv_variable` (`type.h` is
not part of the sources) removes the provisional equivalence link. -/
def unset_equiv_variable (tt : TypeTable) (v : Ptr) : Option TypeTable :=
  (tt.type v).map fun n => tt.setType v { n with equiv_var := none }

end TypeVarNode

/-! ## `Generic::add_bound_var` (`generic.cpp`) -/

namespace Generic

/-- The method `Generic::add_bound_var(TypeVar v)` called on the node `this`:
```
assert(!v->is_closed() && "Type variables already bound");
v->bind(this);
bound_vars_.push_back(v);
```
The two checks that follow the assertion in the source are commented out. -/
def add_bound_var (tt : TypeTable) (this : Ptr) (v : Ptr) : Option TypeTable := do
  let tv ← TypeVar.deref tt v
  let closed ← TypeVarNode.is_closed tt tv
  if closed then none
  else
    let tt1 ← TypeVarNode.bind tt tv this
    let n ← tt1.type this
    some (tt1.setType this { n with bound_vars := n.bound_vars ++ [v] })

end Generic

/-! ## Structural equality (`typeequal.cpp`) -/

namespace TypeVarNode

/-- Modelled from the spec: `TraitInstanceNodeTableSet` (`trait.h` is not part
of the sources), a set of trait instance nodes keyed by representative
identity (section 4.2).  This is the first loop of `bounds_equal`:
```
for (auto r : trestr) {
    auto p = ttis.insert(r.representative());
    assert(p.second && "hash/equal broken");
}
```
The set reads the node it stores, so a null representative fails. -/
def ttis_insert (tt : TypeTable) : List Ptr → List Ptr → Option (List Ptr)
  | [], ttis => some ttis
  | r :: rs, ttis =>
    match TraitInstance.representative tt r with
    | some (some x) => if x ∈ ttis then none else ttis_insert tt rs (ttis ++ [x])
    | _ => none

/-- The second loop of `bounds_equal`:
```
for (auto r : this->bounds())
    if (ttis.find(r.representative()) == ttis.end())
        return false;
return true;
``` -/
def ttis_find_all (tt : TypeTable) (ttis : List Ptr) : List Ptr → Option Bool
  | [] => some true
  | r :: rs =>
    match TraitInstance.representative tt r with
    | some (some x) => if x ∈ ttis then ttis_find_all tt ttis rs else some false
    | _ => none

/-- The method `TypeVarNode::bounds_equal(const TypeVar other)` on the node
`this`; `other` is a proxy and `other->bounds()` reads through it. -/
def bounds_equal (tt : TypeTable) (this : Ptr) (other : Ptr) : Option Bool := do
  let o ← TypeVar.deref tt other
  let n ← tt.type o
  let tn ← tt.type this
  if tn.bounds.length ≠ n.bounds.length then some false
  else
    let ttis ← ttis_insert tt n.bounds []
    ttis_find_all tt ttis tn.bounds

/-- The loop of `TypeVarNode::equal` that looks for `this` among the bound
variables of its binding site, together with the assertion after it:
```
for (i = 0; (i < bound_at()->num_bound_vars()) && result; ++i) {
    if (bound_at()->bound_var(i).representative() == this) {
        result &= t->bound_at()->bound_var(i).representative() == t;
        break;
    }
}
assert(i < bound_at()->num_bound_vars()); // it should have been found!
```
entered with `result = true`; running off the end fails the assertion. -/
def find_position (tt : TypeTable) (this t : Ptr) : List Ptr → List Ptr → Option Bool
  | v :: vs, w :: ws =>
    match TypeVar.representative tt v with
    | some r =>
      if r = some this then
        (TypeVar.representative tt w).map fun r2 => decide (r2 = some t)
      else find_position tt this t vs ws
    | none => none
  | _, _ => none

/-- The method `TypeVarNode::equal(const TypeNode* other)`; `call` is the virtual
call `bound_at()->equal(t->bound_at())`. -/
def equal (call : TypeTable → Ptr → Ptr → Option (Bool × TypeTable))
    (tt : TypeTable) (this other : Ptr) : Option (Bool × TypeTable) :=
  if this = other then some (true, tt)
  else
    match tt.type other, tt.type this with
    | some o, some t =>
      if o.kind = Kind.TypeVar then
        if t.equiv_var = none ∧ o.equiv_var = none then
          match t.bound_at with
          | none => some (false, tt)
          | some ba =>
            match tt.type ba, o.bound_at with
            | some ban, some tba =>
              match tt.type tba with
              | some tban =>
                let result :=
                  if ban.bound_vars.length = tban.bound_vars.length then
                    find_position tt this other ban.bound_vars tban.bound_vars
                  else if 0 < ban.bound_vars.length then some false
                  else none
                match result with
                | some true => call tt ba tba
                | some false => some (false, tt)
                | none => none
              | none => none
            | _, _ => none
        else some (decide (t.equiv_var = some other ∨ o.equiv_var = some this), tt)
      else some (false, tt)
    | _, _ => none

end TypeVarNode

/-- The virtual call `a->equal(nullptr)`, which the loops over children and
actuals make when the other handle is not unified.  `TypeVarNode::equal` finds
`this != other`, the cast `other->isa<TypeVarNode>()` of the null pointer gives
null, and the method ends at its last `return false;`.  `TypeNode::equal` starts
by reading `other->kind()` through the null pointer. -/
def Generic.equal_null (tt : TypeTable) (this : Ptr) : Option (Bool × TypeTable) :=
  match tt.type this with
  | some n => if n.kind = Kind.TypeVar then some (false, tt) else none
  | none => none

namespace TypeNode

/-- The first loop of `TypeNode::equal`:
```
for (size_t i = 0, e = num_bound_vars(); i != e; ++i)
    this->bound_var(i)->set_equiv_variable(other->bound_var(i).representative());
``` -/
def set_equiv_variables (tt : TypeTable) : List Ptr → List Ptr → Option TypeTable
  | v :: vs, w :: ws => do
    let tv ← TypeVar.deref tt v
    let r ← TypeVar.representative tt w
    let tt1 ← TypeVarNode.set_equiv_variable tt tv r
    set_equiv_variables tt1 vs ws
  | [], _ => some tt
  | _ :: _, [] => none

/-- The second loop of `TypeNode::equal`, entered with `result = true`:
```
for (size_t i = 0, e = num_bound_vars(); i != e && result; ++i)
    result &= this->bound_var(i)->bounds_equal(other->bound_var(i));
``` -/
def bounds_equal_all (tt : TypeTable) : List Ptr → List Ptr → Option Bool
  | v :: vs, w :: ws => do
    let tv ← TypeVar.deref tt v
    let b ← TypeVarNode.bounds_equal tt tv w
    if b then bounds_equal_all tt vs ws else some false
  | [], _ => some true
  | _ :: _, [] => none

/-- The third loop of `TypeNode::equal`, entered with `result = true`:
```
for (size_t i = 0, e = size(); i != e && result; ++i)
    result &= this->elem(i)->equal(other->elem(i).representative());
```
A null representative of the other child is passed on to the callee
(`Generic.equal_null`). -/
def elems_equal (call : TypeTable → Ptr → Ptr → Option (Bool × TypeTable)) :
    TypeTable → List Ptr → List Ptr → Option (Bool × TypeTable)
  | tt, a :: as, b :: bs =>
    match Proxy.deref tt a, Proxy.representative tt b with
    | some ta, some rb =>
      match (match rb with
          | some r => call tt ta r
          | none => Generic.equal_null tt ta) with
      | some (true, tt1) => elems_equal call tt1 as bs
      | some (false, tt1) => some (false, tt1)
      | none => none
    | _, _ => none
  | tt, [], _ => some (true, tt)
  | _, _ :: _, [] => none

/-- The last loop of `TypeNode::equal`:
```
for (size_t i = 0, e = num_bound_vars(); i != e; ++i)
    this->bound_var(i)->unset_equiv_variable();
``` -/
def unset_equiv_variables (tt : TypeTable) : List Ptr → Option TypeTable
  | v :: vs => do
    let tv ← TypeVar.deref tt v
    let tt1 ← TypeVarNode.unset_equiv_variable tt tv
    unset_equiv_variables tt1 vs
  | [] => some tt

/-- The method `TypeNode::equal(const TypeNode* other)`; `call` is the virtual
call `elem(i)->equal(...)`.  The calls only write `equiv_var`, so the lists of
elements and bound variables read on entry are the ones every loop sees. -/
def equal (call : TypeTable → Ptr → Ptr → Option (Bool × TypeTable))
    (tt : TypeTable) (this other : Ptr) : Option (Bool × TypeTable) :=
  match tt.type this, tt.type other with
  | some t, some o =>
    if t.kind = o.kind ∧ t.elems.length = o.elems.length ∧
        t.bound_vars.length = o.bound_vars.length then do
      let tt1 ← set_equiv_variables tt t.bound_vars o.bound_vars
      let result ← bounds_equal_all tt1 t.bound_vars o.bound_vars
      let result2 ← (if result then elems_equal call tt1 t.elems o.elems
                     else some (false, tt1))
      let tt3 ← unset_equiv_variables result2.2 t.bound_vars
      some (result2.1, tt3)
    else some (false, tt)
  | _, _ => none

end TypeNode

namespace Generic

/-- The virtual call `a->equal(b)` on type nodes: `TypeVarNode::equal` when the
receiver is a type variable, `TypeNode::equal` otherwise.  Each call uses one
unit of fuel. -/
def equal : Nat → TypeTable → Ptr → Ptr → Option (Bool × TypeTable)
  | 0, _, _, _ => none
  | fuel + 1, tt, this, other =>
    match tt.type this with
    | some n =>
      if n.kind = Kind.TypeVar then TypeVarNode.equal (equal fuel) tt this other
      else TypeNode.equal (equal fuel) tt this other
    | none => none

end Generic

namespace TraitInstanceNode

/-- The loop of `TraitInstanceNode::equal`:
```
for (size_t i = 0; i < var_instances_.size(); ++i)
    if (! var_instances_[i].representative()->equal(other->var_instances_[i].representative()))
        return false;
return true;
```
A null representative of the other actual is passed on to the callee
(`Generic.equal_null`); a null representative of the own actual is the
receiver of the call. -/
def var_instances_equal (call : TypeTable → Ptr → Ptr → Option (Bool × TypeTable)) :
    TypeTable → List Ptr → List Ptr → Option (Bool × TypeTable)
  | tt, a :: as, b :: bs =>
    match Proxy.representative tt a, Proxy.representative tt b with
    | some (some ra), some rb =>
      match (match rb with
          | some r => call tt ra r
          | none => Generic.equal_null tt ra) with
      | some (true, tt1) => var_instances_equal call tt1 as bs
      | some (false, tt1) => some (false, tt1)
      | none => none
    | _, _ => none
  | tt, [], _ => some (true, tt)
  | _, _ :: _, [] => none

/-- The method `TraitInstanceNode::equal(const TraitInstanceNode* other)`:
```
if (trait_ != other->trait_)
    return false;
assert(var_instances_.size() == other->var_instances_.size());
```
followed by the loop over the actuals. -/
def equal (fuel : Nat) (tt : TypeTable) (this other : Ptr) : Option (Bool × TypeTable) :=
  match tt.inst this, tt.inst other with
  | some t, some o =>
    if t.trait ≠ o.trait then some (false, tt)
    else if t.var_instances.length ≠ o.var_instances.length then none
    else var_instances_equal (Generic.equal fuel) tt t.var_instances o.var_instances
  | _, _ => none

end TraitInstanceNode

/-! ## Occurrence of a type variable -/

/-- Modelled from the spec: `v` occurs inside the node `p` (section 3,
invariant 5), followed through the structural children to depth `fuel`.  The
source check `v->is_subtype(this)` of `add_bound_var` is commented out and
`is_subtype` is not part of the sources. -/
def occurs (tt : TypeTable) (v : Ptr) : Nat → Ptr → Bool
  | 0, _ => false
  | fuel + 1, p =>
    match Proxy.deref tt p, tt.type p with
    | some r, some n => decide (r = v) || n.elems.any (occurs tt v fuel)
    | _, _ => false

/-- The field `bound_at` read through a type variable handle: `v->bound_at()`. -/
def TypeVar.bound_at (tt : TypeTable) (v : Ptr) : Option (Option Ptr) :=
  match TypeVar.deref tt v with
  | some tv => (tt.type tv).map fun n => n.bound_at
  | none => none

/-- The list `bound_vars()` of the node at an address. -/
def Generic.bound_vars (tt : TypeTable) (p : Ptr) : Option (List Ptr) :=
  (tt.type p).map fun n => n.bound_vars

/-- The fields of a node that the proxies read: its kind and its
representative. -/
def TypeNode.link (n : TypeNode) : Kind × Option Ptr := (n.kind, n.representative)

/-! ## Example tables -/

/-- The table holding a free type variable `A` (address 0), `int` (address 1)
and `fn(int)` (address 2), as in `test_type_sanity1`. -/
def table_fn_int : TypeTable :=
  { types := [
      { kind := Kind.TypeVar },
      { kind := Kind.Primitive 0, representative := some 1 },
      { kind := Kind.Fn, elems := [1], representative := some 2 } ] }

/-- The table holding `A` (address 0), `f = fn<A>(A)` (address 1), a free `B`
(address 2) and `g = fn(A, B)` (address 3), as in `test_type_sanity4`. -/
def table_double : TypeTable :=
  { types := [
      { kind := Kind.TypeVar, bound_at := some 1 },
      { kind := Kind.Fn, elems := [0], bound_vars := [0] },
      { kind := Kind.TypeVar },
      { kind := Kind.Fn, elems := [0, 2] } ] }

/-- The table holding two free type variables `A` (address 0) and `B`
(address 1), `B` carrying one bound. -/
def table_free : TypeTable :=
  { types := [ { kind := Kind.TypeVar }, { kind := Kind.TypeVar, bounds := [0] } ],
    trait_instances := [ { trait := 0, representative := some 0 } ] }

/-! ## Handle equality (`generic.h`, `Proxy::operator==`) -/

namespace Proxy

/-- The operator `Proxy::operator==` on two handles (`none` is the empty
handle):
```
assert(node_ != nullptr);
assert(&node()->typetable() == &other.node()->typetable());
unify(node()->typetable(), *this);
unify(node()->typetable(), other);
return representative() == other.representative();
```
`unify` is `TypeTable::unify` (`typetable.cpp`, not part of the sources), taken
as a parameter: it maps the table before the call to the table after it.  The
two representatives are compared as pointers. -/
def op_eq (unify : TypeTable → Ptr → Option TypeTable) (tt : TypeTable)
    (this other : Option Ptr) : Option (Bool × TypeTable) :=
  match this, other with
  | some p, some q =>
    match tt.type p, tt.type q with
    | some pn, some qn =>
      if pn.typetable = qn.typetable then
        match unify tt p with
        | some tt1 =>
          match unify tt1 q with
          | some tt2 =>
            match representative tt2 p, representative tt2 q with
            | some rp, some rq => some (decide (rp = rq), tt2)
            | _, _ => none
          | none => none
        | none => none
      else none
    | _, _ => none
  | _, _ => none

/-- The operator `Proxy::operator!=`:
`assert(node_ != nullptr); return !(*this == other);`. -/
def op_ne (unify : TypeTable → Ptr → Option TypeTable) (tt : TypeTable)
    (this other : Option Ptr) : Option (Bool × TypeTable) :=
  match this with
  | some p => (op_eq unify tt (some p) other).map fun r => (!r.1, r.2)
  | none => none

end Proxy

/-! ## The table up to the provisional links -/

/-- A node with its provisional link removed. -/
def TypeNode.erase (n : TypeNode) : TypeNode := { n with equiv_var := none }

/-- The table with every provisional link removed: all that structural
equality never writes. -/
def TypeTable.skel (tt : TypeTable) : TypeTable :=
  { tt with types := tt.types.map TypeNode.erase }

/-- The table is at rest: no node has `equiv_var` set (section 4.6 of the
specification). -/
def TypeTable.at_rest (tt : TypeTable) : Prop := ∀ n ∈ tt.types, n.equiv_var = none

instance (tt : TypeTable) : Decidable tt.at_rest := by
  unfold TypeTable.at_rest
  infer_instance

/-- The table `tt'` differs from `tt` at most in provisional links, and every
link still set in `tt'` was already set, to the same value, in `tt`. -/
def TypeTable.frame (tt tt' : TypeTable) : Prop :=
  tt'.skel = tt.skel ∧
    ∀ p n', tt'.type p = some n' → n'.equiv_var ≠ none → tt.type p = some n'

/-- The table holding `int` (address 0) and `bool` (address 1), both unified,
and the trait instances `S<int>` (0), a second `S<int>` (1), `T<int>` (2) and
`S<bool>` (3) of the traits `S` (address 0) and `T` (address 1). -/
def table_traits : TypeTable :=
  { types := [
      { kind := Kind.Primitive 0, representative := some 0 },
      { kind := Kind.Primitive 1, representative := some 1 } ],
    trait_instances := [
      { trait := 0, var_instances := [0], representative := some 0 },
      { trait := 0, var_instances := [0], representative := some 0 },
      { trait := 1, var_instances := [0], representative := some 2 },
      { trait := 0, var_instances := [1], representative := some 3 } ] }

/-- The actuals `x` and `y` of two trait instances agree: the representative
of `x` compares equal to the representative of `y`
(`x.representative()->equal(y.representative())` returns true). -/
def TraitInstanceNode.actuals_agree (fuel : Nat) (tt : TypeTable) (x y : Ptr) : Prop :=
  ∃ rx ry, Proxy.representative tt x = some (some rx) ∧
    Proxy.representative tt y = some (some ry) ∧
    Generic.equal fuel tt rx ry = some (true, tt)

/-- The bounds `bounds` of a type variable are unified trait instances with
the representatives `reps`, in the same order. -/
def TypeVarNode.bound_reps (tt : TypeTable) (bounds reps : List Ptr) : Prop :=
  List.Forall₂ (fun b r => TraitInstance.representative tt b = some (some r)) bounds reps

/-- The table of `simple_tests`: the instances `Clonable` (address 0) and
`Equality` (address 1), both unified, and the type variables
`C : Clonable + Equality` (address 0), `E : Equality + Clonable` (address 1). -/
def table_bounds : TypeTable :=
  { types := [
      { kind := Kind.TypeVar, bounds := [0, 1] },
      { kind := Kind.TypeVar, bounds := [1, 0] } ],
    trait_instances := [
      { trait := 0, representative := some 0 },
      { trait := 1, representative := some 1 } ] }

/-! ## Well-formed unified types -/

/-- The node `r` is a well-formed unified type of the table whose binders stay
clear of the type variables `S`: it is a type variable, or a node over finitely
many unified children (followed through their representatives), each of them
well formed, whose bound-variable handles read type variables outside `S` with
unified bounds of pairwise different representatives. -/
inductive TypeTable.well_formed (tt : TypeTable) (S : List Ptr) : Ptr → Prop
  | var (r : Ptr) (n : TypeNode) :
      tt.type r = some n → n.kind = Kind.TypeVar → TypeTable.well_formed tt S r
  | node (r : Ptr) (n : TypeNode) :
      tt.type r = some n → n.kind ≠ Kind.TypeVar →
      (∀ w ∈ n.bound_vars, ∃ tw nw reps, TypeVar.deref tt w = some tw ∧ tw ∉ S ∧
        tt.type tw = some nw ∧ TypeVarNode.bound_reps tt nw.bounds reps ∧ reps.Nodup) →
      (∀ e ∈ n.elems, ∃ r', Proxy.representative tt e = some (some r')) →
      (∀ e ∈ n.elems, ∀ r', Proxy.representative tt e = some (some r') →
        TypeTable.well_formed tt S r') →
      TypeTable.well_formed tt S r

/-- The children `a` of `P` and `b` of `Q` at one position, for polytypes with
the bound variables `vs` and `ws`: either `a` is the i-th bound variable of
`P` and `b` the i-th bound variable of `Q`, or `a` and `b` are the same
unified, well-formed child. -/
def TypeNode.alpha_child (tt : TypeTable) (vs ws S : List Ptr) (a b : Ptr) : Prop :=
  (a, b) ∈ vs.zip ws ∨
    (a = b ∧ ∃ r, Proxy.representative tt a = some (some r) ∧ tt.well_formed S r)

/-- The children `a` of `P` and `b` of `Q` at one position are identical
except that every occurrence of a bound variable of `P` is replaced by the
bound variable of `Q` at the same index (`vs` and `ws` are the bound variables
of `P` and `Q`, `S` the type variables that the handles `vs` read):
* `a` is the i-th bound variable of `P` and `b` the i-th bound variable of `Q`;
* or `a` and `b` are handles of one and the same unified, well-formed child
  (they have the same representative);
* or `a` and `b` are unified nodes of the same kind, not type variables, with
  the same list of bound variables (staying clear of `S`, with unified bounds)
  and equally many children, which are related in the same way, position by
  position. -/
inductive TypeNode.alpha_tree (tt : TypeTable) (vs ws S : List Ptr) : Ptr → Ptr → Prop
  | bound (a b : Ptr) : (a, b) ∈ vs.zip ws → TypeNode.alpha_tree tt vs ws S a b
  | same (a b r : Ptr) :
      Proxy.representative tt a = some (some r) → Proxy.representative tt b = some (some r) →
      tt.well_formed S r → TypeNode.alpha_tree tt vs ws S a b
  | node (a b ta rb : Ptr) (na nb : TypeNode) :
      Proxy.deref tt a = some ta → Proxy.representative tt b = some (some rb) →
      tt.type ta = some na → tt.type rb = some nb →
      na.kind = nb.kind → na.kind ≠ Kind.TypeVar →
      na.elems.length = nb.elems.length →
      na.bound_vars = nb.bound_vars →
      (∀ w ∈ na.bound_vars, ∃ tw nw reps, TypeVar.deref tt w = some tw ∧ tw ∉ S ∧
        tt.type tw = some nw ∧ TypeVarNode.bound_reps tt nw.bounds reps ∧ reps.Nodup) →
      (∀ x y, (x, y) ∈ na.elems.zip nb.elems → TypeNode.alpha_tree tt vs ws S x y) →
      TypeNode.alpha_tree tt vs ws S a b

/-- The table of `test_unification2` extended by `int`: `A` (address 0) bound at
`f = fn<A>(A, int)` (address 2), `B` (address 1) bound at `g = fn<B>(B, int)`
(address 3), `int` (address 4); all unified, each its own representative. -/
def table_alpha : TypeTable :=
  { types := [
      { kind := Kind.TypeVar, bound_at := some 2, representative := some 0 },
      { kind := Kind.TypeVar, bound_at := some 3, representative := some 1 },
      { kind := Kind.Fn, elems := [0, 4], bound_vars := [0], representative := some 2 },
      { kind := Kind.Fn, elems := [1, 4], bound_vars := [1], representative := some 3 },
      { kind := Kind.Primitive 0, representative := some 4 } ] }

/-! ## Interning (`generic.h`, `UniEqual`; `TypeTable::unify`) -/

/-- The functor `UniEqual` of `generic.h` on two type handles:
```
(t1->is_unified() && t2->is_unified()) ? t1 == t2 : t1->equal(*t2)
```
When both are unified, `t1 == t2` finds both handles unified and compares
their representatives. -/
def UniEqual (fuel : Nat) (tt : TypeTable) (t1 t2 : Ptr) : Option (Bool × TypeTable) :=
  match Proxy.deref tt t1, Proxy.deref tt t2 with
  | some d1, some d2 =>
    match tt.type d1, tt.type d2 with
    | some n1, some n2 =>
      if n1.representative.isSome ∧ n2.representative.isSome then
        match Proxy.representative tt t1, Proxy.representative tt t2 with
        | some r1, some r2 => some (decide (r1 = r2), tt)
        | _, _ => none
      else Generic.equal fuel tt d1 d2
    | _, _ => none
  | _, _ => none

namespace TypeTable

/-- Modelled from the spec: the factory `typevar()` (`typetable.cpp` is not part
of the sources), section 4.1: a fresh, free type variable, not interned.  The
new node sits at the end of the arena; its address is returned. -/
def typevar (tt : TypeTable) : Ptr × TypeTable :=
  (tt.types.length, { tt with types := tt.types ++ [{ kind := Kind.TypeVar }] })

/-- Modelled from the spec: the factory `fntype(params)` (`typetable.cpp` is not
part of the sources), section 4.1: a fresh function type node over the given
parameters, unified only by a later `unify`. -/
def fntype (tt : TypeTable) (params : List Ptr) : Ptr × TypeTable :=
  (tt.types.length, { tt with types := tt.types ++ [{ kind := Kind.Fn, elems := params }] })

/-- Modelled from the spec: step 4 of `unify` (section 4.2), the lookup of the
node `n` among the already unified nodes, by structural equality (`UniEqual`).
The stored node is the receiver of `equal`: `TypeVarNode::equal` asserts that
its receiver is the representative of one of the bound variables of its
binding site, which holds for stored nodes only.  The hash, which only narrows
the candidates, is left out. -/
def lookup (fuel : Nat) (n : Ptr) : TypeTable → List Ptr → Option (Option Ptr × TypeTable)
  | tt, [] => some (none, tt)
  | tt, m :: ms =>
    match UniEqual fuel tt m n with
    | some (true, tt1) => some (some m, tt1)
    | some (false, tt1) => lookup fuel n tt1 ms
    | none => none

/-- Write the representative of the node at `p`. -/
def set_representative (tt : TypeTable) (p : Ptr) (r : Option Ptr) : Option TypeTable :=
  (tt.type p).map fun n => tt.setType p { n with representative := r }

/-- Modelled from the spec: on a match `m` for the polytype `n`, the bound
variables of `n` are mapped to the representatives of the bound variables of
`m`, index by index (section 8, scenario 2: the inner variable of each is
mapped to the same representative type variable). -/
def map_bound_vars : TypeTable → List Ptr → List Ptr → Option TypeTable
  | tt, v :: vs, w :: ws =>
    match TypeVar.representative tt w with
    | some r =>
      match set_representative tt v r with
      | some tt1 => map_bound_vars tt1 vs ws
      | none => none
    | none => none
  | tt, [], _ => some tt
  | _, _ :: _, [] => none

/-- Run `call` over a list of handles, threading the table. -/
def unify_all (call : TypeTable → Ptr → Option TypeTable) : TypeTable → List Ptr → Option TypeTable
  | tt, [] => some tt
  | tt, p :: ps =>
    match call tt p with
    | some tt1 => unify_all call tt1 ps
    | none => none

/-- Modelled from the spec: `TypeTable::unify` (`typetable.cpp` is not part of
the sources), section 4.2:
1. if the representative of `n` is set, return;
2. recursively unify each structural child and each bound variable;
3. and 4. look `n` up among the unified nodes by structural equality;
5. on a match `m`, set the representative of `n` to `m` (and map the bound
   variables, see `map_bound_vars`); otherwise install `n` as its own
   representative and insert it into the set. -/
def unify : Nat → TypeTable → Ptr → Option TypeTable
  | 0, _, _ => none
  | fuel + 1, tt, n =>
    match tt.type n with
    | none => none
    | some node =>
      if node.representative.isSome then some tt
      else
        match unify_all (unify fuel) tt (node.elems ++ node.bound_vars) with
        | none => none
        | some tt1 =>
          match lookup fuel n tt1 tt1.unifiables with
          | none => none
          | some (some m, tt2) =>
            match tt2.type m, set_representative tt2 n (some m) with
            | some mn, some tt3 => map_bound_vars tt3 node.bound_vars mn.bound_vars
            | _, _ => none
          | some (none, tt2) =>
            (set_representative tt2 n (some n)).map fun tt3 =>
              { tt3 with unifiables := tt3.unifiables ++ [n] }

end TypeTable

/-- The scenario of `test_unification2`, run on the empty table:
`A = typevar(); f = fntype({A}); f->add_bound_var(A); unify(f);`
`B = typevar(); g = fntype({B}); g->add_bound_var(B); unify(g);`.
The result is the final table with the addresses of `A`, `f`, `B`, `g`. -/
def test_unification2 (fuel : Nat) : Option (TypeTable × Ptr × Ptr × Ptr × Ptr) := do
  let (A, tt1) := TypeTable.typevar {}
  let (f, tt2) := tt1.fntype [A]
  let tt3 ← Generic.add_bound_var tt2 f A
  let tt4 ← tt3.unify fuel f
  let (B, tt5) := tt4.typevar
  let (g, tt6) := tt5.fntype [B]
  let tt7 ← Generic.add_bound_var tt6 g B
  let tt8 ← tt7.unify fuel g
  some (tt8, A, f, B, g)

/-- The table reached by `test_unification2`: `A` (address 0) bound at
`f = fn<A>(A)` (address 1), `B` (address 2) bound at `g = fn<B>(B)`
(address 3); `f` and `A` are representatives, `g` is represented by `f` and
`B` by `A`. -/
def table_unification2 : TypeTable :=
  { types := [
      { kind := Kind.TypeVar, representative := some 0, bound_at := some 1 },
      { kind := Kind.Fn, elems := [0], bound_vars := [0], representative := some 1 },
      { kind := Kind.TypeVar, representative := some 0, bound_at := some 3 },
      { kind := Kind.Fn, elems := [2], bound_vars := [2], representative := some 1 } ],
    unifiables := [0, 1, 2] }

/-! ## `add_bound_var` with the table at the end of the call -/

/-- The method `Generic::add_bound_var` as in `Generic.add_bound_var`, keeping
the table at the point where the call ends: the flag tells whether the call ran
to its end (`true`) or stopped at the assertion or at a read (`false`). -/
def Generic.add_bound_var_exit (tt : TypeTable) (this : Ptr) (v : Ptr) : Bool × TypeTable :=
  match TypeVar.deref tt v with
  | none => (false, tt)
  | some tv =>
    match TypeVarNode.is_closed tt tv with
    | some false =>
      match TypeVarNode.bind tt tv this with
      | some tt1 =>
        match tt1.type this with
        | some n => (true, tt1.setType this { n with bound_vars := n.bound_vars ++ [v] })
        | none => (false, tt1)
      | none => (false, tt)
    | _ => (false, tt)

/-- The tables reached from `tt0` by calls `N.add_bound_var(v)`, successful or
failed, on nodes `N` and type variables `v` of the table. -/
inductive Generic.reachable (tt0 : TypeTable) : TypeTable → Prop
  | start : Generic.reachable tt0 tt0
  | call (tt : TypeTable) (N v : Ptr) (n nv : TypeNode) :
      Generic.reachable tt0 tt → tt.type N = some n → tt.type v = some nv →
      nv.kind = Kind.TypeVar →
      Generic.reachable tt0 (Generic.add_bound_var_exit tt N v).2

/-- A table with no bound variables: every list `bound_vars` is empty, no
`bound_at` is set, and every type variable is its own handle target, not
unified or its own representative (free type variables are not interned,
section 4.1 of the specification). -/
def TypeTable.no_bound_vars (tt : TypeTable) : Prop :=
  ∀ p n, tt.type p = some n → n.bound_vars = [] ∧ n.bound_at = none ∧
    (n.kind = Kind.TypeVar → n.representative = none ∨ n.representative = some p)

/-- The single binding site invariant of a table: every list `bound_vars` is
free of duplicates, `v` is listed in `N.bound_vars` exactly when
`v.bound_at = N`, and every type variable is its own handle target. -/
def TypeTable.single_binding_site (tt : TypeTable) : Prop :=
  (∀ N n, tt.type N = some n → n.bound_vars.Nodup) ∧
  (∀ N n v, tt.type N = some n →
    (v ∈ n.bound_vars ↔ ∃ nv, tt.type v = some nv ∧ nv.bound_at = some N)) ∧
  (∀ p n, tt.type p = some n → n.kind = Kind.TypeVar →
    n.representative = none ∨ n.representative = some p)

/-- The table holding two free type variables `A` (address 0), `B` (address 1)
and `fn(A, B)` (address 2), nothing bound and nothing unified. -/
def table_unbound : TypeTable :=
  { types := [
      { kind := Kind.TypeVar },
      { kind := Kind.TypeVar },
      { kind := Kind.Fn, elems := [0, 1] } ] }

/-! ## Specialization and instantiation (`generic.cpp`, `generic.h`) -/

/-- The type `SpecializeMapping` (`thorin::HashMap<const Generic*, Generic*>`):
the entries in insertion order, each key at most once. -/
abbrev SpecializeMapping := List (Ptr × Ptr)

namespace SpecializeMapping

/-- The lookup `thorin::find(map, key)` / `map.find(key)`: the mapped node, if
any. -/
def find (m : SpecializeMapping) (key : Ptr) : Option Ptr :=
  match m with
  | [] => none
  | (k, x) :: rest => if k = key then some x else find rest key

/-- The test `map.contains(key)`. -/
def contains (m : SpecializeMapping) (key : Ptr) : Bool := (m.find key).isSome

/-- The assignment `map[key] = x`. -/
def assign (m : SpecializeMapping) (key x : Ptr) : SpecializeMapping :=
  match m with
  | [] => [(key, x)]
  | (k, y) :: rest => if k = key then (k, x) :: rest else (k, y) :: assign rest key x

end SpecializeMapping

/-- What a specialization returns: the resulting node, the table and the
mapping (passed by reference in the source) after the call. -/
abbrev Specialized := Ptr × TypeTable × SpecializeMapping

namespace Generic

/-- The method `Generic::ginstantiate(var_instances)`:
```
assert(var_instances.size() == num_bound_vars());
return vspecialize(var_instances);
```
`vspecialize` is the pure virtual method implemented in `type.cpp` (not part
of the sources), taken as a parameter. -/
def ginstantiate (vspecialize : TypeTable → Ptr → SpecializeMapping → Option Specialized)
    (tt : TypeTable) (this : Ptr) (var_instances : SpecializeMapping) : Option Specialized :=
  match tt.type this with
  | some n =>
    if var_instances.length = n.bound_vars.length then vspecialize tt this var_instances
    else none
  | none => none

/-- The method `Unifiable<T>::instantiate(var_instances)`:
`return Proxy<T>(ginstantiate(var_instances)->as<T>());`.  No `unify` is
called (`we can not unify yet because it could be that this type is not closed
yet`); the cast reads the returned node. -/
def instantiate (vspecialize : TypeTable → Ptr → SpecializeMapping → Option Specialized)
    (tt : TypeTable) (this : Ptr) (var_instances : SpecializeMapping) : Option Specialized :=
  match ginstantiate vspecialize tt this var_instances with
  | some (t, tt1, m1) =>
    match tt1.type t with
    | some _ => some (t, tt1, m1)
    | none => none
  | none => none

/-- The first loop of `Generic::gspecialize`:
```
for (auto v : bound_vars()) {
    assert(!map.contains(v.representative()));
    v->clone(map);
}
```
`clone` is `TypeVarNode::clone` (not part of the sources), a parameter. -/
def clone_bound_vars (clone : TypeTable → Ptr → SpecializeMapping → Option (TypeTable × SpecializeMapping)) :
    TypeTable → SpecializeMapping → List Ptr → Option (TypeTable × SpecializeMapping)
  | tt, m, [] => some (tt, m)
  | tt, m, v :: vs =>
    match TypeVar.representative tt v with
    | some r =>
      if (match r with
          | some x => m.contains x
          | none => false) then none
      else
        match TypeVar.deref tt v with
        | some tv =>
          match clone tt tv m with
          | some (tt1, m1) => clone_bound_vars clone tt1 m1 vs
          | none => none
        | none => none
    | none => none

/-- The second loop of `Generic::gspecialize`, on the node `t` returned by
`vspecialize`:
```
for (auto v : bound_vars()) {
    assert(map.find(v.representative()) != map.end());
    t->add_bound_var(TypeVar(map[v.representative()]->as<TypeVarNode>()));
}
``` -/
def bind_clones (m : SpecializeMapping) (t : Ptr) : TypeTable → List Ptr → Option TypeTable
  | tt, [] => some tt
  | tt, v :: vs =>
    match TypeVar.representative tt v with
    | some (some r) =>
      match m.find r with
      | some c =>
        match TypeVar.as_TypeVarNode tt c with
        | some c1 =>
          match add_bound_var tt t c1 with
          | some tt1 => bind_clones m t tt1 vs
          | none => none
        | none => none
      | none => none
    | _ => none

/-- The method `Generic::gspecialize(map)`:
```
if (auto result = thorin::find(map, this))
    return result;
```
then the loop cloning the bound variables, `Generic* t = vspecialize(map);`,
the loop binding the clones at `t`, and `return t;`.  The bound variables of
`this` are read again for the second loop. -/
def gspecialize (clone : TypeTable → Ptr → SpecializeMapping → Option (TypeTable × SpecializeMapping))
    (vspecialize : TypeTable → Ptr → SpecializeMapping → Option Specialized)
    (tt : TypeTable) (this : Ptr) (map : SpecializeMapping) : Option Specialized :=
  match map.find this with
  | some result => some (result, tt, map)
  | none =>
    match tt.type this with
    | some n =>
      match clone_bound_vars clone tt map n.bound_vars with
      | some (tt1, m1) =>
        match vspecialize tt1 this m1 with
        | some (t, tt2, m2) =>
          match tt2.type this with
          | some n2 =>
            match bind_clones m2 t tt2 n2.bound_vars with
            | some tt3 => some (t, tt3, m2)
            | none => none
          | none => none
        | none => none
      | none => none
    | none => none

end Generic

/-- Modelled from the spec: `TypeVarNode::clone(map)` (`type.cpp` is not part of
the sources), section 4.5: a binder is cloned into a fresh type variable, which
keeps the bounds of the original, and the mapping records the clone for the
original. -/
def TypeVarNode.clone (tt : TypeTable) (this : Ptr) (map : SpecializeMapping) :
    Option (TypeTable × SpecializeMapping) :=
  (tt.type this).map fun n =>
    ({ tt with types := tt.types ++ [{ kind := Kind.TypeVar, bounds := n.bounds }] },
      map.assign this tt.types.length)

/-- The children of a composite node specialized one after the other
(`elem->specialize(map)`), threading the table and the mapping. -/
def TypeNode.specialize_elems
    (specialize : TypeTable → Ptr → SpecializeMapping → Option Specialized) :
    TypeTable → SpecializeMapping → List Ptr → Option (List Ptr × TypeTable × SpecializeMapping)
  | tt, m, [] => some ([], tt, m)
  | tt, m, e :: es =>
    match Proxy.deref tt e with
    | some te =>
      match specialize tt te m with
      | some (x, tt1, m1) =>
        match specialize_elems specialize tt1 m1 es with
        | some (xs, tt2, m2) => some (x :: xs, tt2, m2)
        | none => none
      | none => none
    | none => none

/-- Modelled from the spec: `vspecialize` on type nodes (`type.cpp` is not part
of the sources), section 4.5: a node without children (a type variable outside
the mapping, a primitive) is returned as it is; a composite node gives a fresh
node of the same kind over its specialized children, without bound variables
and not unified. -/
def TypeNode.vspecialize
    (specialize : TypeTable → Ptr → SpecializeMapping → Option Specialized)
    (tt : TypeTable) (this : Ptr) (map : SpecializeMapping) : Option Specialized :=
  match tt.type this with
  | some n =>
    if n.elems = [] then some (this, tt, map)
    else
      match TypeNode.specialize_elems specialize tt map n.elems with
      | some (xs, tt1, m1) =>
        some (tt1.types.length,
          { tt1 with types := tt1.types ++ [{ kind := n.kind, elems := xs }] }, m1)
      | none => none
  | none => none

/-- The method `Unifiable<T>::specialize(mapping)`
(`Proxy<T>(gspecialize(mapping)->as<T>())`) with the modelled `clone` and
`vspecialize`; each level of nesting uses one unit of fuel. -/
def Generic.specialize : Nat → TypeTable → Ptr → SpecializeMapping → Option Specialized
  | 0, _, _, _ => none
  | fuel + 1, tt, this, map =>
    Generic.gspecialize TypeVarNode.clone (TypeNode.vspecialize (Generic.specialize fuel))
      tt this map

/-- The method `TraitInstanceNode::hash()`: `return trait_->hash();`.  The hash
of traits (`trait.h`, not part of the sources) is the parameter `trait_hash`. -/
def TraitInstanceNode.hash (trait_hash : Ptr → Nat) (tt : TypeTable) (this : Ptr) : Option Nat :=
  (tt.inst this).map fun n => trait_hash n.trait

/-- The table of scenario 7: two free type variables `A` (address 0) and `B`
(address 1), `f = fn(A)` (address 2) and `g = fn(B)` (address 3), nothing
bound, every node unified and its own representative. -/
def table_rigid : TypeTable :=
  { types := [
      { kind := Kind.TypeVar, representative := some 0 },
      { kind := Kind.TypeVar, representative := some 1 },
      { kind := Kind.Fn, elems := [0], representative := some 2 },
      { kind := Kind.Fn, elems := [1], representative := some 3 } ],
    unifiables := [0, 2, 1, 3] }

/-- The table of scenario 7 before any `unify`: `A`, `B`, `f = fn(A)` and
`g = fn(B)` as the factories return them. -/
def table_rigid_fresh : TypeTable :=
  { types := [
      { kind := Kind.TypeVar },
      { kind := Kind.TypeVar },
      { kind := Kind.Fn, elems := [0] },
      { kind := Kind.Fn, elems := [1] } ] }

/-- The table holding the unified type variables `A`, `B`, `C`, `D` (addresses
0 to 3), `P = fn<A, B>(A, B)` (address 4), `Q = fn<C, D>(C, D)` (address 5) and
`Q'` (address 6), which is `fn(C, D)` with the binders added `D` then `C`. -/
def table_binders : TypeTable :=
  { types := [
      { kind := Kind.TypeVar, representative := some 0, bound_at := some 4 },
      { kind := Kind.TypeVar, representative := some 1, bound_at := some 4 },
      { kind := Kind.TypeVar, representative := some 2, bound_at := some 5 },
      { kind := Kind.TypeVar, representative := some 3, bound_at := some 5 },
      { kind := Kind.Fn, elems := [0, 1], bound_vars := [0, 1] },
      { kind := Kind.Fn, elems := [2, 3], bound_vars := [2, 3] },
      { kind := Kind.Fn, elems := [2, 3], bound_vars := [3, 2] } ] }

/-! ## Checking the bounds of an instantiation (`generic.cpp`) -/

namespace Generic

/-- The inner loop of `Generic::verify_instantiation`, for the instance `inst`
of one bound variable:
```
for (auto bound : v->bounds()) {
    SpecializeMap m(map); // copy the map
    Trait spec_bound = Trait(bound->specialize(m)->as<TraitNode>());
    spec_bound->typetable().unify(spec_bound);
    assert(instance->implements(spec_bound));
}
```
The specialization of a bound, `unify` and `implements` are not part of the
sources and are parameters; the copy `m` of the mapping is dropped. -/
def verify_bounds (specialize : TypeTable → Ptr → SpecializeMapping → Option Specialized)
    (unify : TypeTable → Ptr → Option TypeTable)
    (implements : TypeTable → Ptr → Ptr → Option Bool)
    (map : SpecializeMapping) (inst : Ptr) : TypeTable → List Ptr → Option TypeTable
  | tt, [] => some tt
  | tt, bound :: bs =>
    match specialize tt bound map with
    | some (spec_bound, tt1, _) =>
      match unify tt1 spec_bound with
      | some tt2 =>
        match implements tt2 inst spec_bound with
        | some true => verify_bounds specialize unify implements map inst tt2 bs
        | _ => none
      | none => none
    | none => none

/-- The outer loop of `Generic::verify_instantiation`:
```
for (auto v : bound_vars()) {
    auto it = map.find(*v);
    assert(it != map.end());
    Type instance = Type(it->second->as<TypeNode>());
    ... the loop over v->bounds() ...
}
``` -/
def verify_bound_vars (specialize : TypeTable → Ptr → SpecializeMapping → Option Specialized)
    (unify : TypeTable → Ptr → Option TypeTable)
    (implements : TypeTable → Ptr → Ptr → Option Bool)
    (map : SpecializeMapping) : TypeTable → List Ptr → Option TypeTable
  | tt, [] => some tt
  | tt, v :: vs =>
    match TypeVar.deref tt v with
    | some tv =>
      match map.find tv, tt.type tv with
      | some inst, some n =>
        match verify_bounds specialize unify implements map inst tt n.bounds with
        | some tt1 => verify_bound_vars specialize unify implements map tt1 vs
        | none => none
      | _, _ => none
    | none => none

/-- The method `Generic::verify_instantiation(map)`:
`assert(map.size() == num_bound_vars());` followed by the loop over the bound
variables.  The result is the table after a successful check. -/
def verify_instantiation (specialize : TypeTable → Ptr → SpecializeMapping → Option Specialized)
    (unify : TypeTable → Ptr → Option TypeTable)
    (implements : TypeTable → Ptr → Ptr → Option Bool)
    (tt : TypeTable) (this : Ptr) (map : SpecializeMapping) : Option TypeTable :=
  match tt.type this with
  | some n =>
    if map.length = n.bound_vars.length then
      verify_bound_vars specialize unify implements map tt n.bound_vars
    else none
  | none => none

end Generic

/-- The table holding the trait instances `Clonable` (address 0) and `Equality`
(address 1), `int` (address 0), the type variable `C : Clonable + Equality`
(address 1) and `fn<C>(C)` (address 2). -/
def table_verify : TypeTable :=
  { types := [
      { kind := Kind.Primitive 0, representative := some 0 },
      { kind := Kind.TypeVar, bounds := [0, 1], bound_at := some 2 },
      { kind := Kind.Fn, elems := [1], bound_vars := [1] } ],
    trait_instances := [
      { trait := 0, representative := some 0 },
      { trait := 1, representative := some 1 } ] }

/-- The table holding `A` (address 0), `int` (address 1) and `f = fn<A>(A, int)`
(address 2) right after `f->add_bound_var(A)`: `A` is bound at `f`, nothing is
unified yet. -/
def table_fresh_binder : TypeTable :=
  { types := [
      { kind := Kind.TypeVar, bound_at := some 2 },
      { kind := Kind.Primitive 0 },
      { kind := Kind.Fn, elems := [0, 1], bound_vars := [0] } ] }

/-- A `Symbol`: an interned name, compared by identity. -/
abbrev Symbol := Nat

/-- The members of a `Decl` that `Sema` reads and writes (`ast.h` is not part
of the sources): `symbol()`, and the fields `shadows_` and `depth_` that
`Sema::insert` assigns and `shadows()`, `depth()` return.  A declaration is
addressed by its index in the list of declarations of the program; `none` is
the null pointer. -/
structure Decl where
  symbol : Symbol
  shadows : Option Ptr := none
  depth : Nat := 0
  deriving DecidableEq

/-- The map `Sym2Decl` (`boost::unordered_map<Symbol, const Decl*>`): the
entries, each symbol at most once; a mapped value may be the null pointer. -/
abbrev Sym2Decl := List (Symbol × Option Ptr)

namespace Sym2Decl

/-- The lookup `sym2decl_.find(sym)`: the mapped value when there is an entry. -/
def find (m : Sym2Decl) (sym : Symbol) : Option (Option Ptr) :=
  match m with
  | [] => none
  | (k, x) :: rest => if k = sym then some x else find rest sym

/-- The assignment `sym2decl_[sym] = x`. -/
def assign (m : Sym2Decl) (sym : Symbol) (x : Option Ptr) : Sym2Decl :=
  match m with
  | [] => [(sym, x)]
  | (k, y) :: rest => if k = sym then (k, x) :: rest else (k, y) :: assign rest sym x

end Sym2Decl

/-- The state of a `Sema` that the scope functions use: the declarations of
the program (owned by the AST), `sym2decl_`, `decl_stack_`, `levels_` and
`result_`. -/
structure Sema where
  decls : List Decl := []
  sym2decl : Sym2Decl := []
  decl_stack : List Ptr := []
  levels : List Nat := []
  result : Bool := true
  deriving DecidableEq

namespace Sema

/-- Read the declaration at an address. -/
def decl (s : Sema) (p : Ptr) : Option Decl := s.decls[p]?

/-- The method `Sema::depth()`: `return levels_.size();`. -/
def depth (s : Sema) : Nat := s.levels.length

/-- The method `Sema::lookup(sym)`:
```
auto i = sym2decl_.find(sym);
return i != sym2decl_.end() ? i->second : 0;
``` -/
def lookup (s : Sema) (sym : Symbol) : Option Ptr :=
  match s.sym2decl.find sym with
  | some x => x
  | none => none

/-- The method `Sema::clash(symbol)`:
```
Sym2Decl::const_iterator i = sym2decl_.find(symbol);
if (i == sym2decl_.end())
    return 0;
const Decl* decl = i->second;
return (decl && decl->depth() == depth()) ? decl : 0;
```
The outer option is the read of `decl->depth()`. -/
def clash (s : Sema) (symbol : Symbol) : Option (Option Ptr) :=
  match s.sym2decl.find symbol with
  | none => some none
  | some none => some none
  | some (some d) => (s.decl d).map fun n => if n.depth = s.depth then some d else none

/-- The method `Sema::error(n)`: `result_ = false; return n->error();`; the
text written to the returned stream is not modelled. -/
def error (s : Sema) (n : Ptr) : Option Sema :=
  (s.decl n).map fun _ => { s with result := false }

/-- The method `Sema::insert(decl)`:
```
if (const Decl* other = clash(decl->symbol())) {
    error(decl) << "symbol '" << decl->symbol() << "' already defined\n";
    error(other) << "previous location here\n";
    return;
}
Symbol symbol = decl->symbol();
assert(clash(symbol) == 0 && "must not be found");
auto i = sym2decl_.find(symbol);
decl->shadows_ = i != sym2decl_.end() ? i->second : 0;
decl->depth_ = depth();
decl_stack_.push_back(decl);
sym2decl_[symbol] = decl;
```
The assertion repeats the test of the guard on the unchanged state. -/
def insert (s : Sema) (d : Ptr) : Option Sema :=
  match s.decl d with
  | none => none
  | some n =>
    match s.clash n.symbol with
    | none => none
    | some (some other) =>
      match s.error d with
      | some s1 => s1.error other
      | none => none
    | some none =>
      some { s with
        decls := s.decls.set d { n with shadows := s.lookup n.symbol, depth := s.depth },
        decl_stack := s.decl_stack ++ [d],
        sym2decl := s.sym2decl.assign n.symbol (some d) }

/-- The method `Sema::push_scope()`: `levels_.push_back(decl_stack_.size());`. -/
def push_scope (s : Sema) : Sema := { s with levels := s.levels ++ [s.decl_stack.length] }

/-- The loop of `Sema::pop_scope` over the declarations above `level`:
```
for (size_t i = level, e = decl_stack_.size(); i != e; ++i) {
    const Decl* decl = decl_stack_[i];
    sym2decl_[decl->symbol()] = decl->shadows();
}
``` -/
def pop_restore (decls : List Decl) : Sym2Decl → List Ptr → Option Sym2Decl
  | m, [] => some m
  | m, d :: ds =>
    match decls[d]? with
    | some n => pop_restore decls (m.assign n.symbol n.shadows) ds
    | none => none

/-- The method `Sema::pop_scope()`:
```
size_t level = levels_.back();
... the loop ...
decl_stack_.resize(level);
levels_.pop_back();
```
With no open scope `levels_.back()` has no value, and with `level` above the
size of the declaration stack the loop index never meets its end. -/
def pop_scope (s : Sema) : Option Sema :=
  match s.levels.getLast? with
  | none => none
  | some level =>
    if level ≤ s.decl_stack.length then
      match pop_restore s.decls s.sym2decl (s.decl_stack.drop level) with
      | some m =>
        some { s with sym2decl := m, decl_stack := s.decl_stack.take level,
                      levels := s.levels.dropLast }
      | none => none
    else none

/-- A sequence of calls `insert(d)`, one after the other. -/
def insert_all : Sema → List Ptr → Option Sema
  | s, [] => some s
  | s, d :: ds =>
    match s.insert d with
    | some s1 => insert_all s1 ds
    | none => none

end Sema

/-- A `Sema` at depth 0 in which `x` (symbol 7, address 0) is defined, and a
second declaration of the symbol 7 (address 1) and a declaration `y` (symbol 8,
address 2) that are not inserted yet. -/
def sema_global : Sema :=
  { decls := [ { symbol := 7 }, { symbol := 7 }, { symbol := 8 } ],
    sym2decl := [(7, some 0)],
    decl_stack := [0] }

/-- The table holding `A : Clonable` (address 0) bound at `f = fn<A>(A)`
(address 2) and `B : Equality` (address 1) bound at `g = fn<B>(B)` (address 3),
with the trait instances `Clonable` (0) and `Equality` (1); everything unified
and its own representative. -/
def table_bound_mismatch : TypeTable :=
  { types := [
      { kind := Kind.TypeVar, bounds := [0], bound_at := some 2, representative := some 0 },
      { kind := Kind.TypeVar, bounds := [1], bound_at := some 3, representative := some 1 },
      { kind := Kind.Fn, elems := [0], bound_vars := [0], representative := some 2 },
      { kind := Kind.Fn, elems := [1], bound_vars := [1], representative := some 3 } ],
    trait_instances := [
      { trait := 0, representative := some 0 },
      { trait := 1, representative := some 1 } ] }

/-! ## Hashing (`typeequal.cpp`) -/

namespace TypeNode

/-- The loop of `TypeNode::hash` over the children:
```
for (auto elem : elems_)
    seed = hash_combine(seed, elem->hash());
```
`call` is the virtual call `hash()` on the node that the handle reads. -/
def hash_elems (hash_combine : Nat → Nat → Nat) (call : Ptr → Option Nat) (tt : TypeTable) :
    Nat → List Ptr → Option Nat
  | seed, [] => some seed
  | seed, e :: es =>
    match Proxy.deref tt e with
    | some d =>
      match call d with
      | some h => hash_elems hash_combine call tt (hash_combine seed h) es
      | none => none
    | none => none

/-- The method `TypeNode::hash()`:
```
size_t seed = hash_combine(hash_value((int) kind()), size());
seed = hash_combine(seed, num_bound_vars());
... the loop over elems_ ...
return seed;
```
`hash_value` (on the kind tag) and `hash_combine` come from
`thorin/util/hash.h` and are parameters.  The sources define no other `hash`
for type nodes, so the call `elem->hash()` is this method again; each call uses
one unit of fuel. -/
def hash (hash_value : Kind → Nat) (hash_combine : Nat → Nat → Nat) :
    Nat → TypeTable → Ptr → Option Nat
  | 0, _, _ => none
  | fuel + 1, tt, this =>
    match tt.type this with
    | some n =>
      hash_elems hash_combine (hash hash_value hash_combine fuel tt) tt
        (hash_combine (hash_combine (hash_value n.kind) n.elems.length) n.bound_vars.length)
        n.elems
    | none => none

end TypeNode

/-- Type variables are leaves: a type variable node has no children and binds
no type variable (section 3 of the specification: only composite nodes ever
have a nonempty list of bound variables). -/
def TypeTable.typevars_are_leaves (tt : TypeTable) : Prop :=
  ∀ p n, tt.type p = some n → n.kind = Kind.TypeVar → n.elems = [] ∧ n.bound_vars = []

/-! ## `Generic::unify_bound_vars` (`generic.cpp`) -/

namespace Generic

/-- The method `Generic::num_bound_vars()`: `return bound_vars_.size();`. -/
def num_bound_vars (tt : TypeTable) (this : Ptr) : Option Nat :=
  (tt.type this).map fun n => n.bound_vars.length

/-- The method `Generic::is_generic()`: `return !bound_vars_.empty();`. -/
def is_generic (tt : TypeTable) (this : Ptr) : Option Bool :=
  (tt.type this).map fun n => !n.bound_vars.isEmpty

/-- The method `Generic::unify_bound_vars(other_vars)`:
```
if (num_bound_vars() == other_vars.size())
    return !is_generic(); // TODO enable unification of generic elements!
return false;
``` -/
def unify_bound_vars (tt : TypeTable) (this : Ptr) (other_vars : List Ptr) : Option Bool :=
  match num_bound_vars tt this with
  | some k =>
    if k = other_vars.length then (is_generic tt this).map fun g => !g
    else some false
  | none => none

end Generic

/-- The state `st` is reached from `s` by `push_scope()` followed by calls of
`insert`, of which those for the declarations `new` went through: the new
scope is on top of the levels, `new` is on top of the declaration stack, no
symbol of a declaration changed, every declaration of `new` is the current
definition of its symbol, sits at the current depth and shadows what its symbol
meant in `s`, every other symbol means what it meant in `s`, and every mapped
declaration exists. -/
def Sema.scope_inv (s st : Sema) (new : List Ptr) : Prop :=
  st.levels = s.levels ++ [s.decl_stack.length] ∧
  st.decl_stack = s.decl_stack ++ new ∧
  (∀ p, (st.decl p).map Decl.symbol = (s.decl p).map Decl.symbol) ∧
  (∀ d ∈ new, ∃ n, st.decl d = some n ∧ n.shadows = s.lookup n.symbol ∧
    n.depth = st.depth ∧ st.lookup n.symbol = some d) ∧
  (∀ x, (∀ d ∈ new, (s.decl d).map Decl.symbol ≠ some x) → st.lookup x = s.lookup x) ∧
  (∀ x e, st.lookup x = some e → ∃ m, st.decl e = some m)

/-- The table holding `A` (address 0) and `B` (address 1), `fn(A)` (address 2)
and `fn(B)` (address 3), `P = fn<A>(fn(A))` (address 4) and `Q = fn<B>(fn(B))`
(address 5); all unified, each its own representative.  The bound variable
occurs one level below the polytype. -/
def table_nested : TypeTable :=
  { types := [
      { kind := Kind.TypeVar, bound_at := some 4, representative := some 0 },
      { kind := Kind.TypeVar, bound_at := some 5, representative := some 1 },
      { kind := Kind.Fn, elems := [0], representative := some 2 },
      { kind := Kind.Fn, elems := [1], representative := some 3 },
      { kind := Kind.Fn, elems := [2], bound_vars := [0], representative := some 4 },
      { kind := Kind.Fn, elems := [3], bound_vars := [1], representative := some 5 } ] }

/-- The table holding the type variables `X` (address 0), `A` (address 1) and
`B` (address 2), `f = fn(A)` (address 3) and `g = fn(B)` (address 4), all
unified and their own representatives, before any binding. -/
def table_binder_var_start : TypeTable :=
  { types := [
      { kind := Kind.TypeVar, representative := some 0 },
      { kind := Kind.TypeVar, representative := some 1 },
      { kind := Kind.TypeVar, representative := some 2 },
      { kind := Kind.Fn, elems := [1], representative := some 3 },
      { kind := Kind.Fn, elems := [2], representative := some 4 } ] }

/-- The table `table_binder_var_start` after `A.add_bound_var(X)`,
`f.add_bound_var(A)` and `g.add_bound_var(B)`: the type variable `A` binds
`X`, and `f = fn<A>(A)`, `g = fn<B>(B)`. -/
def table_binder_var : TypeTable :=
  { types := [
      { kind := Kind.TypeVar, representative := some 0, bound_at := some 1 },
      { kind := Kind.TypeVar, representative := some 1, bound_vars := [0], bound_at := some 3 },
      { kind := Kind.TypeVar, representative := some 2, bound_at := some 4 },
      { kind := Kind.Fn, elems := [1], bound_vars := [1], representative := some 3 },
      { kind := Kind.Fn, elems := [2], bound_vars := [2], representative := some 4 } ] }

/-! ## Basic facts about the arena -/

theorem TypeTable.type_setType_self {tt : TypeTable} {p : Ptr} {n0 : TypeNode}
    (n : TypeNode) (h : tt.type p = some n0) : (tt.setType p n).type p = some n := by
  unfold TypeTable.type at h
  have hlt : p < tt.types.length := by
    by_contra hc
    rw [List.getElem?_eq_none (Nat.le_of_not_lt hc)] at h
    cases h
  simp [TypeTable.type, TypeTable.setType, List.getElem?_set_self hlt]

theorem TypeTable.type_setType_ne {tt : TypeTable} {p q : Ptr} (n : TypeNode)
    (h : p ≠ q) : (tt.setType p n).type q = tt.type q := by
  simp [TypeTable.type, TypeTable.setType, List.getElem?_set_ne h]

theorem TypeTable.type_setType {tt : TypeTable} {p q : Ptr} {n0 : TypeNode}
    (n : TypeNode) (h : tt.type p = some n0) :
    (tt.setType p n).type q = if p = q then some n else tt.type q := by
  by_cases hpq : p = q
  · subst hpq
    simp [TypeTable.type_setType_self n h]
  · simp [hpq, TypeTable.type_setType_ne n hpq]

theorem TypeVar.as_TypeVarNode_eq_some {tt : TypeTable} {p q : Ptr}
    (h : TypeVar.as_TypeVarNode tt p = some q) :
    q = p ∧ ∃ n, tt.type p = some n ∧ n.kind = Kind.TypeVar := by
  unfold TypeVar.as_TypeVarNode at h
  split at h
  · rename_i n hn
    split at h
    · rename_i hk
      cases h
      exact ⟨rfl, n, hn, hk⟩
    · cases h
  · cases h

theorem TypeVar.deref_eq_some {tt : TypeTable} {v tv : Ptr}
    (h : TypeVar.deref tt v = some tv) :
    ∃ nv n, tt.type v = some nv ∧ tt.type tv = some n ∧ n.kind = Kind.TypeVar ∧
      tv = (match nv.representative with | some r => r | none => v) := by
  unfold TypeVar.deref at h
  split at h
  · rename_i nv hnv
    split at h
    · rename_i r hr
      obtain ⟨he, n, hn, hk⟩ := TypeVar.as_TypeVarNode_eq_some h
      exact ⟨nv, n, hnv, he ▸ hn, hk, by simp [hr, he]⟩
    · rename_i hr
      obtain ⟨he, n, hn, hk⟩ := TypeVar.as_TypeVarNode_eq_some h
      exact ⟨nv, n, hnv, he ▸ hn, hk, by simp [hr, he]⟩
  · cases h

/-! ## Proxies only read `kind` and `representative` -/

theorem TypeVar.as_TypeVarNode_congr {tt tt' : TypeTable}
    (h : ∀ p, (tt'.type p).map TypeNode.link = (tt.type p).map TypeNode.link) (p : Ptr) :
    TypeVar.as_TypeVarNode tt' p = TypeVar.as_TypeVarNode tt p := by
  have hp := h p
  unfold TypeVar.as_TypeVarNode
  cases h1 : tt.type p <;> cases h2 : tt'.type p <;>
    simp [h1, h2, TypeNode.link] at hp ⊢
  rw [hp.1]

theorem TypeVar.deref_congr {tt tt' : TypeTable}
    (h : ∀ p, (tt'.type p).map TypeNode.link = (tt.type p).map TypeNode.link) (v : Ptr) :
    TypeVar.deref tt' v = TypeVar.deref tt v := by
  have hv := h v
  unfold TypeVar.deref
  cases h1 : tt.type v <;> cases h2 : tt'.type v <;>
    simp [h1, h2, TypeNode.link] at hv ⊢
  rename_i n n'
  rw [hv.2]
  cases n.representative <;> simp [TypeVar.as_TypeVarNode_congr h]

theorem TypeVar.representative_congr {tt tt' : TypeTable}
    (h : ∀ p, (tt'.type p).map TypeNode.link = (tt.type p).map TypeNode.link) (v : Ptr) :
    TypeVar.representative tt' v = TypeVar.representative tt v := by
  have hv := h v
  unfold TypeVar.representative
  cases h1 : tt.type v <;> cases h2 : tt'.type v <;>
    simp [h1, h2, TypeNode.link] at hv ⊢
  rename_i n n'
  rw [hv.2]
  cases n.representative <;> simp [TypeVar.as_TypeVarNode_congr h]

theorem Proxy.type_deref_congr {tt tt' : TypeTable}
    (h : ∀ p, (tt'.type p).map TypeNode.link = (tt.type p).map TypeNode.link) (v : Ptr) :
    Proxy.deref tt' v = Proxy.deref tt v := by
  have hv := h v
  unfold Proxy.deref
  cases h1 : tt.type v <;> cases h2 : tt'.type v <;>
    simp [h1, h2, TypeNode.link] at hv ⊢
  rw [hv.2]

theorem Proxy.type_representative_congr {tt tt' : TypeTable}
    (h : ∀ p, (tt'.type p).map TypeNode.link = (tt.type p).map TypeNode.link) (v : Ptr) :
    Proxy.representative tt' v = Proxy.representative tt v := by
  have hv := h v
  unfold Proxy.representative
  cases h1 : tt.type v <;> cases h2 : tt'.type v <;>
    simp [h1, h2, TypeNode.link] at hv ⊢
  rw [hv.2]

/-- Overwriting a node by one with the same kind and representative keeps
what the proxies read. -/
theorem TypeTable.link_setType {tt : TypeTable} {p : Ptr} {n0 : TypeNode} (n : TypeNode)
    (h : tt.type p = some n0) (hl : n.link = n0.link) (q : Ptr) :
    ((tt.setType p n).type q).map TypeNode.link = (tt.type q).map TypeNode.link := by
  rw [TypeTable.type_setType n h]
  by_cases hpq : p = q
  · subst hpq
    simp [h, hl]
  · simp [hpq]

/-! ## `add_bound_var` -/

/-- What a successful `add_bound_var` did: the handle `v` reads a free type
variable `tv`, which is bound at `this`, and `v` is pushed on `this`. -/
theorem Generic.add_bound_var_eq_some {tt tt' : TypeTable} {this v : Ptr}
    (h : Generic.add_bound_var tt this v = some tt') :
    ∃ tv nv n1, TypeVar.deref tt v = some tv ∧ tt.type tv = some nv ∧
      nv.bound_at = none ∧
      (tt.setType tv { nv with bound_at := some this }).type this = some n1 ∧
      tt' = (tt.setType tv { nv with bound_at := some this }).setType this
        { n1 with bound_vars := n1.bound_vars ++ [v] } := by
  unfold Generic.add_bound_var at h
  cases hd : TypeVar.deref tt v with
  | none => simp [hd] at h
  | some tv =>
    cases hn : tt.type tv with
    | none => simp [hd, TypeVarNode.is_closed, hn] at h
    | some nv =>
      cases hb : nv.bound_at with
      | some b => simp [hd, TypeVarNode.is_closed, hn, hb] at h
      | none =>
        simp only [hd, TypeVarNode.is_closed, hn, hb, TypeVarNode.bind, Option.map_some',
          Option.bind_eq_bind, Option.some_bind, Option.isSome_none, Bool.false_eq_true,
          ↓reduceIte] at h
        cases h1 : (tt.setType tv { nv with bound_at := some this }).type this with
        | none => simp [h1] at h
        | some n1 =>
          simp only [h1, Option.some_bind, Option.some.injEq] at h
          exact ⟨tv, nv, n1, rfl, hn, hb, h1, h.symm⟩

/-- A free type variable can always be bound: the call succeeds with the
table described in `add_bound_var_eq_some`. -/
theorem Generic.add_bound_var_of_free {tt : TypeTable} {this v tv : Ptr}
    {nv n : TypeNode} (hd : TypeVar.deref tt v = some tv) (hn : tt.type tv = some nv)
    (hb : nv.bound_at = none) (ht : tt.type this = some n) :
    ∃ n1, (tt.setType tv { nv with bound_at := some this }).type this = some n1 ∧
      Generic.add_bound_var tt this v =
        some ((tt.setType tv { nv with bound_at := some this }).setType this
          { n1 with bound_vars := n1.bound_vars ++ [v] }) := by
  have h1 : ∃ n1, (tt.setType tv { nv with bound_at := some this }).type this = some n1 := by
    rw [TypeTable.type_setType _ hn]
    by_cases hc : tv = this
    · exact ⟨{ nv with bound_at := some this }, by simp [hc]⟩
    · exact ⟨n, by simp [hc, ht]⟩
  obtain ⟨n1, h1⟩ := h1
  refine ⟨n1, h1, ?_⟩
  unfold Generic.add_bound_var
  simp [hd, TypeVarNode.is_closed, hn, hb, TypeVarNode.bind, h1]


/-- The effect of a successful `add_bound_var` on the binding site read
through the handle and on the list of bound variables. -/
theorem Generic.add_bound_var_effect (tt tt' : TypeTable) (N v : Ptr)
    (h : Generic.add_bound_var tt N v = some tt') :
    TypeVar.bound_at tt' v = some (some N) ∧
    ∃ old, Generic.bound_vars tt N = some old ∧
      Generic.bound_vars tt' N = some (old ++ [v]) := by
  obtain ⟨tv, nv, n1, hd, hn, hb, h1, rfl⟩ := Generic.add_bound_var_eq_some h
  have hl1 : ∀ p, ((tt.setType tv { nv with bound_at := some N }).type p).map TypeNode.link =
      (tt.type p).map TypeNode.link := by
    intro p
    apply TypeTable.link_setType _ hn
    rfl
  have hl2 : ∀ p, (((tt.setType tv { nv with bound_at := some N }).setType N
      { n1 with bound_vars := n1.bound_vars ++ [v] }).type p).map TypeNode.link =
      (tt.type p).map TypeNode.link := by
    intro p
    rw [← hl1 p]
    apply TypeTable.link_setType _ h1
    rfl
  have hN : ((tt.setType tv { nv with bound_at := some N }).setType N
      { n1 with bound_vars := n1.bound_vars ++ [v] }).type N =
      some { n1 with bound_vars := n1.bound_vars ++ [v] } :=
    TypeTable.type_setType_self _ h1
  rw [TypeTable.type_setType _ hn] at h1
  constructor
  · simp only [TypeVar.bound_at, TypeVar.deref_congr hl2, hd]
    by_cases hc : tv = N
    · subst hc
      simp only [if_true, Option.some.injEq] at h1
      subst h1
      simp [hN]
    · rw [TypeTable.type_setType_ne _ (Ne.symm hc), TypeTable.type_setType_self _ hn]
      simp
  · unfold Generic.bound_vars
    rw [hN]
    by_cases hc : tv = N
    · subst hc
      simp only [if_true, Option.some.injEq] at h1
      subst h1
      exact ⟨nv.bound_vars, by simp [hn], by simp⟩
    · simp only [hc, if_false] at h1
      exact ⟨n1.bound_vars, by simp [h1], by simp⟩

/-- C7: when `N.add_bound_var(v)` succeeds, the handle `v` afterwards reads a
variable bound at `N`, and `N.bound_vars` is the previous list with `v`
appended at the end. -/
theorem add_bound_var_postcondition (tt tt' : TypeTable) (N v : Ptr)
    (h : Generic.add_bound_var tt N v = some tt') :
    TypeVar.bound_at tt' v = some (some N) ∧
    ∃ old, Generic.bound_vars tt N = some old ∧
      Generic.bound_vars tt' N = some (old ++ [v]) :=
  Generic.add_bound_var_effect tt tt' N v h

/-- Witness for C7: binding the free `A` at `fn(int)` in `table_fn_int`. -/
theorem add_bound_var_postcondition_witness :
    TypeVar.bound_at
      ((table_fn_int.setType 0 { kind := Kind.TypeVar, bound_at := some 2 }).setType 2
        { kind := Kind.Fn, elems := [1], bound_vars := [0], representative := some 2 }) 0
      = some (some 2) ∧
    ∃ old, Generic.bound_vars table_fn_int 2 = some old ∧
      Generic.bound_vars
        ((table_fn_int.setType 0 { kind := Kind.TypeVar, bound_at := some 2 }).setType 2
          { kind := Kind.Fn, elems := [1], bound_vars := [0], representative := some 2 }) 2
        = some (old ++ [0]) :=
  add_bound_var_postcondition table_fn_int _ 2 0 (by decide)

/-- C8: a type variable that is already bound cannot be bound again:
`N.add_bound_var(v)` fails on the assertion `!v->is_closed()`. -/
theorem add_bound_var_double_binding (tt : TypeTable) (N v b : Ptr)
    (h : TypeVar.bound_at tt v = some (some b)) :
    Generic.add_bound_var tt N v = none := by
  unfold TypeVar.bound_at at h
  unfold Generic.add_bound_var
  cases hd : TypeVar.deref tt v with
  | none => simp
  | some tv =>
    rw [hd] at h
    cases hn : tt.type tv with
    | none => simp [TypeVarNode.is_closed, hn]
    | some nv =>
      simp only [hn, Option.map_some', Option.some.injEq] at h
      simp [TypeVarNode.is_closed, hn, h]

/-- Witness for C8: `g = fn(A, B)` cannot bind `A`, which is bound at
`f = fn<A>(A)` (`test_type_sanity4`). -/
theorem add_bound_var_double_binding_witness :
    TypeVar.bound_at table_double 0 = some (some 1) ∧
    Generic.add_bound_var table_double 3 0 = none :=
  ⟨by decide, add_bound_var_double_binding table_double 3 0 1 (by decide)⟩

/-- Counterexample to C9: `A` does not occur in `fn(int)`, yet
`fn(int).add_bound_var(A)` succeeds and leaves `A` bound at `fn(int)`. -/
theorem add_bound_var_vacuous_counterexample :
    TypeVar.bound_at table_fn_int 0 = some none ∧
    occurs table_fn_int 0 8 2 = false ∧
    ∃ tt', Generic.add_bound_var table_fn_int 2 0 = some tt' ∧
      TypeVar.bound_at tt' 0 = some (some 2) ∧
      Generic.bound_vars tt' 2 = some [0] := by
  refine ⟨by decide, by decide, _, rfl, by decide, by decide⟩

/-- C9 (amended): vacuous binding is not rejected.  For every node `N` and
every free type variable `v`, whether or not `v` occurs in the children of
`N`, `N.add_bound_var(v)` succeeds and afterwards `v` is bound at `N`. -/
theorem add_bound_var_free_succeeds (tt : TypeTable) (N v : Ptr) (n : TypeNode)
    (hN : tt.type N = some n) (hfree : TypeVar.bound_at tt v = some none) :
    ∃ tt', Generic.add_bound_var tt N v = some tt' ∧
      TypeVar.bound_at tt' v = some (some N) := by
  unfold TypeVar.bound_at at hfree
  cases hd : TypeVar.deref tt v with
  | none => simp [hd] at hfree
  | some tv =>
    rw [hd] at hfree
    cases hn : tt.type tv with
    | none => simp [hn] at hfree
    | some nv =>
      simp only [hn, Option.map_some', Option.some.injEq] at hfree
      obtain ⟨n1, _, h2⟩ := Generic.add_bound_var_of_free hd hn hfree hN
      exact ⟨_, h2, (Generic.add_bound_var_effect tt _ N v h2).1⟩

/-- Witness for C9 (amended): `fn(int)` binds the free `A` of `table_fn_int`. -/
theorem add_bound_var_free_succeeds_witness :
    ∃ tt', Generic.add_bound_var table_fn_int 2 0 = some tt' ∧
      TypeVar.bound_at tt' 0 = some (some 2) :=
  add_bound_var_free_succeeds table_fn_int 2 0 _ (by rfl) (by decide)

/-- Counterexample to C10: for the free variable `A` of `table_free`,
`A.add_bound_var(A)` succeeds; afterwards `A` is bound at itself and closed. -/
theorem add_bound_var_self_counterexample :
    TypeVar.bound_at table_free 0 = some none ∧
    ∃ tt', Generic.add_bound_var table_free 0 0 = some tt' ∧
      TypeVar.bound_at tt' 0 = some (some 0) ∧
      TypeVarNode.is_closed tt' 0 = some true := by
  refine ⟨by decide, _, rfl, by decide, by decide⟩

/-- C10 (amended): self-binding is not rejected.  For every free type
variable `A` (read through its handle `a`), `A.add_bound_var(A)` succeeds;
afterwards `A` is bound at itself, is closed, and is the last of its own bound
variables. -/
theorem add_bound_var_self_succeeds (tt : TypeTable) (a tv : Ptr)
    (hd : TypeVar.deref tt a = some tv) (hfree : TypeVar.bound_at tt a = some none) :
    ∃ tt', Generic.add_bound_var tt tv a = some tt' ∧
      TypeVar.bound_at tt' a = some (some tv) ∧
      TypeVarNode.is_closed tt' tv = some true ∧
      ∃ old, Generic.bound_vars tt tv = some old ∧
        Generic.bound_vars tt' tv = some (old ++ [a]) := by
  obtain ⟨nv, n, _, hn, _, _⟩ := TypeVar.deref_eq_some hd
  have hb : n.bound_at = none := by
    simpa [TypeVar.bound_at, hd, hn] using hfree
  obtain ⟨n1, _, h2⟩ := Generic.add_bound_var_of_free hd hn hb hn
  have hpost := Generic.add_bound_var_effect tt _ tv a h2
  refine ⟨_, h2, hpost.1, ?_, hpost.2⟩
  have h3 := hpost.1
  simp only [TypeVar.bound_at] at h3
  have hl : ∀ p, (((tt.setType tv { n with bound_at := some tv }).setType tv
      { n1 with bound_vars := n1.bound_vars ++ [a] }).type p).map TypeNode.link =
      (tt.type p).map TypeNode.link := by
    intro p
    have e1 : ((tt.setType tv { n with bound_at := some tv }).type p).map TypeNode.link =
        (tt.type p).map TypeNode.link := by
      apply TypeTable.link_setType _ hn
      rfl
    rw [← e1]
    apply TypeTable.link_setType _ (by assumption)
    rfl
  rw [TypeVar.deref_congr hl, hd] at h3
  unfold TypeVarNode.is_closed
  cases hq : ((tt.setType tv { n with bound_at := some tv }).setType tv
      { n1 with bound_vars := n1.bound_vars ++ [a] }).type tv with
  | none => simp [hq] at h3
  | some m =>
    simp only [hq, Option.map_some', Option.some.injEq] at h3
    simp [h3]

/-- Witness for C10 (amended): the free `A` of `table_free`. -/
theorem add_bound_var_self_succeeds_witness :
    ∃ tt', Generic.add_bound_var table_free 0 0 = some tt' ∧
      TypeVar.bound_at tt' 0 = some (some 0) ∧
      TypeVarNode.is_closed tt' 0 = some true ∧
      ∃ old, Generic.bound_vars table_free 0 = some old ∧
        Generic.bound_vars tt' 0 = some (old ++ [0]) :=
  add_bound_var_self_succeeds table_free 0 0 (by decide) (by decide)

/-- C3: a free type variable `a` with no provisional link compared with a
type variable `b` with no provisional link: `a.equal(b)` returns true exactly
when `a` and `b` are the same node, whatever the bounds, and leaves the table
as it was. -/
theorem TypeVarNode_equal_free_rigid (tt : TypeTable) (a b : Ptr) (na nb : TypeNode)
    (ha : tt.type a = some na) (hb : tt.type b = some nb)
    (hka : na.kind = Kind.TypeVar) (hkb : nb.kind = Kind.TypeVar)
    (hfree : na.bound_at = none)
    (hea : na.equiv_var = none) (heb : nb.equiv_var = none) (fuel : Nat) :
    Generic.equal (fuel + 1) tt a b = some (decide (a = b), tt) := by
  unfold Generic.equal
  simp only [ha, hka, if_true]
  unfold TypeVarNode.equal
  by_cases hab : a = b
  · simp [hab]
  · simp [hab, ha, hb, hkb, hea, heb, hfree]

/-- Witness for C3: the two free variables of `table_free`, one with a bound,
are unequal, and each equals itself. -/
theorem TypeVarNode_equal_free_rigid_witness :
    Generic.equal 1 table_free 0 1 = some (false, table_free) ∧
    Generic.equal 1 table_free 0 0 = some (true, table_free) :=
  ⟨TypeVarNode_equal_free_rigid table_free 0 1 _ _ (by rfl) (by rfl) (by rfl) (by rfl)
      (by rfl) (by rfl) (by rfl) 0,
   by decide⟩

/-! ## The table up to provisional links: basic facts -/

theorem TypeTable.skel_type (tt : TypeTable) (p : Ptr) :
    tt.skel.type p = (tt.type p).map TypeNode.erase := by
  simp [TypeTable.skel, TypeTable.type, List.getElem?_map]

theorem TypeTable.erase_type_of_skel {tt tt' : TypeTable} (h : tt'.skel = tt.skel) (p : Ptr) :
    (tt'.type p).map TypeNode.erase = (tt.type p).map TypeNode.erase := by
  rw [← TypeTable.skel_type, ← TypeTable.skel_type, h]

theorem TypeTable.link_of_skel {tt tt' : TypeTable} (h : tt'.skel = tt.skel) (p : Ptr) :
    (tt'.type p).map TypeNode.link = (tt.type p).map TypeNode.link := by
  have e := congrArg (Option.map TypeNode.link) (TypeTable.erase_type_of_skel h p)
  simpa [Option.map_map, Function.comp_def, TypeNode.link, TypeNode.erase] using e

/-- A node of `tt` reappears in a table with the same skeleton, up to its
provisional link. -/
theorem TypeTable.type_of_skel {tt tt' : TypeTable} (h : tt'.skel = tt.skel) {p : Ptr}
    {n : TypeNode} (hn : tt.type p = some n) :
    ∃ e, tt'.type p = some { n with equiv_var := e } := by
  have e := TypeTable.erase_type_of_skel h p
  rw [hn] at e
  cases h' : tt'.type p with
  | none => simp [h'] at e
  | some n' =>
    simp only [h', Option.map_some', Option.some.injEq, TypeNode.erase] at e
    refine ⟨n'.equiv_var, ?_⟩
    cases n
    cases n'
    simp_all

theorem TypeTable.skel_setType_equiv {tt : TypeTable} {p : Ptr} {n : TypeNode}
    (h : tt.type p = some n) (e : Option Ptr) :
    (tt.setType p { n with equiv_var := e }).skel = tt.skel := by
  unfold TypeTable.type at h
  simp only [TypeTable.skel, TypeTable.setType]
  congr 1
  apply List.ext_getElem?
  intro i
  rw [List.getElem?_map, List.getElem?_map, List.getElem?_set]
  by_cases hi : p = i
  · subst hi
    have hlt : p < tt.types.length := by
      by_contra hc
      rw [List.getElem?_eq_none (Nat.le_of_not_lt hc)] at h
      cases h
    simp [hlt, h, TypeNode.erase]
  · simp [hi]

theorem TypeTable.skel_of_at_rest {tt : TypeTable} (h : tt.at_rest) : tt.skel = tt := by
  unfold TypeTable.skel
  have : tt.types.map TypeNode.erase = tt.types := by
    conv_rhs => rw [← List.map_id tt.types]
    apply List.map_congr_left
    intro n hn
    have := h n hn
    cases n
    simp_all [TypeNode.erase]
  rw [this]

theorem TypeTable.frame_refl (tt : TypeTable) : tt.frame tt :=
  ⟨rfl, fun _ _ h _ => h⟩

theorem TypeTable.frame_trans {a b c : TypeTable} (h1 : a.frame b) (h2 : b.frame c) :
    a.frame c :=
  ⟨h2.1.trans h1.1, fun p n hn he => h1.2 p n (h2.2 p n hn he) he⟩

/-- From a table at rest, a frame leads back to the same table. -/
theorem TypeTable.eq_of_frame_at_rest {tt tt' : TypeTable} (h : tt.at_rest)
    (hf : tt.frame tt') : tt' = tt := by
  have hr : tt'.at_rest := by
    intro n' hn'
    by_contra hc
    obtain ⟨p, hp, hget⟩ := List.getElem_of_mem hn'
    have h1 : tt'.type p = some n' := by
      unfold TypeTable.type
      rw [List.getElem?_eq_getElem hp, hget]
    have h2 := hf.2 p n' h1 hc
    unfold TypeTable.type at h2
    exact hc (h n' (List.getElem?_mem h2))
  rw [← TypeTable.skel_of_at_rest hr, hf.1, TypeTable.skel_of_at_rest h]

/-! ## Frame of the loops of `TypeNode::equal` -/

theorem TypeVarNode.set_equiv_variable_eq_some {tt tt1 : TypeTable} {v : Ptr} {w : Option Ptr}
    (h : TypeVarNode.set_equiv_variable tt v w = some tt1) :
    ∃ n, tt.type v = some n ∧ tt1 = tt.setType v { n with equiv_var := w } := by
  unfold TypeVarNode.set_equiv_variable at h
  cases hn : tt.type v with
  | none => simp [hn] at h
  | some n =>
    simp only [hn, Option.map_some', Option.some.injEq] at h
    exact ⟨n, rfl, h.symm⟩

theorem TypeVarNode.unset_equiv_variable_eq_some {tt tt1 : TypeTable} {v : Ptr}
    (h : TypeVarNode.unset_equiv_variable tt v = some tt1) :
    ∃ n, tt.type v = some n ∧ tt1 = tt.setType v { n with equiv_var := none } := by
  unfold TypeVarNode.unset_equiv_variable at h
  cases hn : tt.type v with
  | none => simp [hn] at h
  | some n =>
    simp only [hn, Option.map_some', Option.some.injEq] at h
    exact ⟨n, rfl, h.symm⟩

/-- The first loop keeps the skeleton and only writes the nodes read through
the handles it walks. -/
theorem TypeNode.set_equiv_variables_frame :
    ∀ (vs ws : List Ptr) (tt tt1 : TypeTable),
      TypeNode.set_equiv_variables tt vs ws = some tt1 →
      tt1.skel = tt.skel ∧
        ∀ p, (∀ v ∈ vs, TypeVar.deref tt v ≠ some p) → tt1.type p = tt.type p := by
  intro vs
  induction vs with
  | nil =>
    intro ws tt tt1 h
    simp only [TypeNode.set_equiv_variables, Option.some.injEq] at h
    subst h
    exact ⟨rfl, fun _ _ => rfl⟩
  | cons v vs ih =>
    intro ws tt tt1 h
    cases ws with
    | nil => simp [TypeNode.set_equiv_variables] at h
    | cons w ws =>
      simp only [TypeNode.set_equiv_variables, Option.bind_eq_bind, Option.bind_eq_some] at h
      obtain ⟨tv, hd, r, _, tta, hs, hrest⟩ := h
      obtain ⟨n, hn, rfl⟩ := TypeVarNode.set_equiv_variable_eq_some hs
      have hsk := TypeTable.skel_setType_equiv hn r
      obtain ⟨ih1, ih2⟩ := ih ws _ tt1 hrest
      refine ⟨ih1.trans hsk, ?_⟩
      intro p hp
      have hne : tv ≠ p := fun e => hp v (List.mem_cons_self _ _) (e ▸ hd)
      rw [ih2 p, TypeTable.type_setType_ne _ hne]
      intro v' hv'
      rw [TypeVar.deref_congr (TypeTable.link_of_skel hsk)]
      exact hp v' (List.mem_cons_of_mem _ hv')

/-- The last loop keeps the skeleton, only writes the nodes read through the
handles it walks, and leaves each of them without a provisional link. -/
theorem TypeNode.unset_equiv_variables_frame :
    ∀ (vs : List Ptr) (tt tt1 : TypeTable),
      TypeNode.unset_equiv_variables tt vs = some tt1 →
      tt1.skel = tt.skel ∧
        (∀ p, (∀ v ∈ vs, TypeVar.deref tt v ≠ some p) → tt1.type p = tt.type p) ∧
        ∀ p n, (∃ v ∈ vs, TypeVar.deref tt v = some p) → tt1.type p = some n →
          n.equiv_var = none := by
  intro vs
  induction vs with
  | nil =>
    intro tt tt1 h
    simp only [TypeNode.unset_equiv_variables, Option.some.injEq] at h
    subst h
    exact ⟨rfl, fun _ _ => rfl, fun _ _ h => by simp at h⟩
  | cons v vs ih =>
    intro tt tt1 h
    simp only [TypeNode.unset_equiv_variables, Option.bind_eq_bind, Option.bind_eq_some] at h
    obtain ⟨tv, hd, tta, hs, hrest⟩ := h
    obtain ⟨n, hn, rfl⟩ := TypeVarNode.unset_equiv_variable_eq_some hs
    have hsk := TypeTable.skel_setType_equiv hn none
    have hdc := fun v' => TypeVar.deref_congr (TypeTable.link_of_skel hsk) v'
    obtain ⟨ih1, ih2, ih3⟩ := ih _ tt1 hrest
    refine ⟨ih1.trans hsk, ?_, ?_⟩
    · intro p hp
      have hne : tv ≠ p := fun e => hp v (List.mem_cons_self _ _) (e ▸ hd)
      rw [ih2 p, TypeTable.type_setType_ne _ hne]
      intro v' hv'
      rw [hdc]
      exact hp v' (List.mem_cons_of_mem _ hv')
    · intro p m hex hm
      by_cases hin : ∃ v' ∈ vs, TypeVar.deref tt v' = some p
      · obtain ⟨v', hv', hd'⟩ := hin
        exact ih3 p m ⟨v', hv', by rw [hdc]; exact hd'⟩ hm
      · have hall : ∀ v' ∈ vs, TypeVar.deref tt v' ≠ some p := by
          intro v' hv' hc
          exact hin ⟨v', hv', hc⟩
        obtain ⟨v0, hv0, hd0⟩ := hex
        have hv0' : v0 = v := by
          rcases List.mem_cons.mp hv0 with e | e
          · exact e
          · exact absurd hd0 (hall v0 e)
        subst hv0'
        have hp : tv = p := by
          rw [hd] at hd0
          exact Option.some.inj hd0
        subst hp
        rw [ih2 tv (by intro v' hv'; rw [hdc]; exact hall v' hv'),
          TypeTable.type_setType_self _ hn] at hm
        cases hm
        rfl

/-! ## Structural equality only touches provisional links -/

theorem Generic.equal_null_eq_some {tt tt' : TypeTable} {a : Ptr} {r : Bool}
    (h : Generic.equal_null tt a = some (r, tt')) : r = false ∧ tt' = tt := by
  unfold Generic.equal_null at h
  split at h
  · split at h
    · simp only [Option.some.injEq, Prod.mk.injEq] at h
      exact ⟨h.1.symm, h.2.symm⟩
    · cases h
  · cases h

/-- The call made for one pair of children, with the other child's
representative null or not, changes at most provisional links. -/
theorem Generic.call_or_null_frame
    {call : TypeTable → Ptr → Ptr → Option (Bool × TypeTable)}
    (hcall : ∀ tt a b r tt', call tt a b = some (r, tt') → tt.frame tt')
    {tt tt' : TypeTable} {ta : Ptr} {rb : Option Ptr} {r : Bool}
    (h : (match rb with
          | some x => call tt ta x
          | none => Generic.equal_null tt ta) = some (r, tt')) : tt.frame tt' := by
  cases rb with
  | some x => exact hcall _ _ _ _ _ h
  | none =>
    obtain ⟨-, he⟩ := Generic.equal_null_eq_some h
    rw [he]
    exact TypeTable.frame_refl tt

theorem TypeNode.elems_equal_frame
    {call : TypeTable → Ptr → Ptr → Option (Bool × TypeTable)}
    (hcall : ∀ tt a b r tt', call tt a b = some (r, tt') → tt.frame tt') :
    ∀ (as bs : List Ptr) (tt tt' : TypeTable) (r : Bool),
      TypeNode.elems_equal call tt as bs = some (r, tt') → tt.frame tt' := by
  intro as
  induction as with
  | nil =>
    intro bs tt tt' r h
    simp only [TypeNode.elems_equal, Option.some.injEq, Prod.mk.injEq] at h
    rw [← h.2]
    exact TypeTable.frame_refl tt
  | cons a as ih =>
    intro bs tt tt' r h
    cases bs with
    | nil => simp [TypeNode.elems_equal] at h
    | cons b bs =>
      unfold TypeNode.elems_equal at h
      split at h
      · rename_i ta rb _ _
        split at h
        · rename_i tt1 hc
          exact TypeTable.frame_trans (Generic.call_or_null_frame hcall hc) (ih bs tt1 tt' r h)
        · rename_i tt1 hc
          simp only [Option.some.injEq, Prod.mk.injEq] at h
          rw [← h.2]
          exact Generic.call_or_null_frame hcall hc
        · cases h
      · cases h

theorem TypeVarNode.equal_frame_var
    {call : TypeTable → Ptr → Ptr → Option (Bool × TypeTable)}
    (hcall : ∀ tt a b r tt', call tt a b = some (r, tt') → tt.frame tt')
    (tt tt' : TypeTable) (a b : Ptr) (r : Bool)
    (h : TypeVarNode.equal call tt a b = some (r, tt')) : tt.frame tt' := by
  unfold TypeVarNode.equal at h
  have hrefl : ∀ x : Bool, some (x, tt) = some (r, tt') → tt.frame tt' := by
    intro x hx
    simp only [Option.some.injEq, Prod.mk.injEq] at hx
    rw [← hx.2]
    exact TypeTable.frame_refl tt
  split at h
  · exact hrefl _ h
  · split at h
    · split at h
      · split at h
        · split at h
          · exact hrefl _ h
          · split at h
            · split at h
              · simp only at h
                split at h
                · exact hcall _ _ _ _ _ h
                · exact hrefl _ h
                · cases h
              · cases h
            · cases h
        · exact hrefl _ h
      · exact hrefl _ h
    · cases h

theorem TypeNode.equal_frame_node
    {call : TypeTable → Ptr → Ptr → Option (Bool × TypeTable)}
    (hcall : ∀ tt a b r tt', call tt a b = some (r, tt') → tt.frame tt')
    (tt tt' : TypeTable) (a b : Ptr) (r : Bool)
    (h : TypeNode.equal call tt a b = some (r, tt')) : tt.frame tt' := by
  unfold TypeNode.equal at h
  split at h
  · rename_i t o ht ho
    split at h
    · simp only [Option.bind_eq_bind, Option.bind_eq_some] at h
      obtain ⟨tt1, hset, res, _, ⟨r2, tt2⟩, hel, tt3, hun, hfin⟩ := h
      simp only [Option.some.injEq, Prod.mk.injEq] at hfin
      obtain ⟨_, rfl⟩ := hfin
      simp only at hun
      obtain ⟨s1, s2⟩ := TypeNode.set_equiv_variables_frame _ _ _ _ hset
      obtain ⟨u1, u2, u3⟩ := TypeNode.unset_equiv_variables_frame _ _ _ hun
      have hmid : tt1.frame tt2 := by
        split at hel
        · exact TypeNode.elems_equal_frame hcall _ _ _ _ _ hel
        · simp only [Option.some.injEq, Prod.mk.injEq] at hel
          rw [← hel.2]
          exact TypeTable.frame_refl tt1
      have hd12 : ∀ v, TypeVar.deref tt2 v = TypeVar.deref tt v := by
        intro v
        exact TypeVar.deref_congr (TypeTable.link_of_skel (hmid.1.trans s1)) v
      refine ⟨u1.trans (hmid.1.trans s1), ?_⟩
      intro p n hn he
      by_cases hin : ∃ v ∈ t.bound_vars, TypeVar.deref tt v = some p
      · obtain ⟨v, hv, hd⟩ := hin
        exact absurd (u3 p n ⟨v, hv, by rw [hd12]; exact hd⟩ hn) he
      · have hall : ∀ v ∈ t.bound_vars, TypeVar.deref tt v ≠ some p := by
          intro v hv hc
          exact hin ⟨v, hv, hc⟩
        rw [u2 p (by intro v hv; rw [hd12]; exact hall v hv)] at hn
        rw [← s2 p hall]
        exact hmid.2 p n hn he
    · simp only [Option.some.injEq, Prod.mk.injEq] at h
      rw [← h.2]
      exact TypeTable.frame_refl tt
  · cases h

/-- A comparison that returns leaves the table as it was, except that
provisional links may have been removed. -/
theorem Generic.equal_frame :
    ∀ (fuel : Nat) (tt : TypeTable) (a b : Ptr) (r : Bool) (tt' : TypeTable),
      Generic.equal fuel tt a b = some (r, tt') → tt.frame tt' := by
  intro fuel
  induction fuel with
  | zero =>
    intro tt a b r tt' h
    simp [Generic.equal] at h
  | succ fuel ih =>
    intro tt a b r tt' h
    unfold Generic.equal at h
    split at h
    · split at h
      · exact TypeVarNode.equal_frame_var (fun tt a b r tt' => ih tt a b r tt') _ _ _ _ _ h
      · exact TypeNode.equal_frame_node (fun tt a b r tt' => ih tt a b r tt') _ _ _ _ _ h
    · cases h

/-- In a table at rest a comparison that returns leaves the table unchanged. -/
theorem Generic.equal_at_rest {fuel : Nat} {tt tt' : TypeTable} {a b : Ptr} {r : Bool}
    (hr : tt.at_rest) (h : Generic.equal fuel tt a b = some (r, tt')) : tt' = tt :=
  TypeTable.eq_of_frame_at_rest hr (Generic.equal_frame fuel tt a b r tt' h)

/-! ## `TraitInstanceNode::equal` -/

theorem TraitInstanceNode.var_instances_equal_iff {fuel : Nat} {tt : TypeTable}
    (hr : tt.at_rest) :
    ∀ (as bs : List Ptr), as.length = bs.length →
      (TraitInstanceNode.var_instances_equal (Generic.equal fuel) tt as bs = some (true, tt) ↔
        List.Forall₂ (TraitInstanceNode.actuals_agree fuel tt) as bs) := by
  intro as
  induction as with
  | nil =>
    intro bs hl
    cases bs with
    | nil => simp [TraitInstanceNode.var_instances_equal]
    | cons b bs => simp at hl
  | cons a as ih =>
    intro bs hl
    cases bs with
    | nil => simp at hl
    | cons b bs =>
      have hl' : as.length = bs.length := by simpa using hl
      unfold TraitInstanceNode.var_instances_equal
      rw [List.forall₂_cons, ← ih bs hl']
      constructor
      · intro h
        split at h
        · rename_i ra rb hra hrb
          cases rb with
          | none =>
            simp only at h
            split at h
            · rename_i tt1 hc
              exact absurd (Generic.equal_null_eq_some hc).1 (by simp)
            · simp at h
            · cases h
          | some rb =>
            simp only at h
            split at h
            · rename_i tt1 hc
              have e := Generic.equal_at_rest hr hc
              subst e
              exact ⟨⟨ra, rb, hra, hrb, hc⟩, h⟩
            · simp at h
            · cases h
        · cases h
      · rintro ⟨⟨ra, rb, hra, hrb, hc⟩, h⟩
        simp only [hra, hrb, hc]
        exact h

/-- C5: `TraitInstanceNode::equal(a, b)`.  When the two instances name
different traits the call returns false at once, for every fuel (also none)
and whatever the actuals are, and the table is untouched.  With the same number
of actuals and the table at rest, it returns true exactly when the traits are
the same and, index by index, the representative of the actual of `a` compares
equal to the representative of the actual of `b`. -/
theorem TraitInstanceNode_equal_iff (tt : TypeTable) (a b : Ptr)
    (ta tb : TraitInstanceNode) (ha : tt.inst a = some ta) (hb : tt.inst b = some tb) :
    (ta.trait ≠ tb.trait → ∀ fuel, TraitInstanceNode.equal fuel tt a b = some (false, tt)) ∧
    (ta.var_instances.length = tb.var_instances.length → tt.at_rest → ∀ fuel,
      (TraitInstanceNode.equal fuel tt a b = some (true, tt) ↔
        ta.trait = tb.trait ∧
          List.Forall₂ (TraitInstanceNode.actuals_agree fuel tt)
            ta.var_instances tb.var_instances)) := by
  constructor
  · intro hne fuel
    simp [TraitInstanceNode.equal, ha, hb, hne]
  · intro hlen hr fuel
    unfold TraitInstanceNode.equal
    simp only [ha, hb]
    by_cases ht : ta.trait = tb.trait
    · simp only [ht, ne_eq, not_true_eq_false, if_false, hlen, true_and]
      exact TraitInstanceNode.var_instances_equal_iff hr _ _ hlen
    · simp [ht]

/-- Witness for C5: in `table_traits`, `S<int>` differs from `T<int>` and
equals the second `S<int>`. -/
theorem TraitInstanceNode_equal_iff_witness :
    TraitInstanceNode.equal 0 table_traits 0 2 = some (false, table_traits) ∧
    (TraitInstanceNode.equal 2 table_traits 0 1 = some (true, table_traits) ↔
      (0 : Ptr) = 0 ∧ List.Forall₂ (TraitInstanceNode.actuals_agree 2 table_traits) [0] [0]) ∧
    TraitInstanceNode.equal 2 table_traits 0 1 = some (true, table_traits) :=
  ⟨(TraitInstanceNode_equal_iff table_traits 0 2
      { trait := 0, var_instances := [0], representative := some 0 }
      { trait := 1, var_instances := [0], representative := some 2 }
      (by rfl) (by rfl)).1 (by decide) 0,
   (TraitInstanceNode_equal_iff table_traits 0 1
      { trait := 0, var_instances := [0], representative := some 0 }
      { trait := 0, var_instances := [0], representative := some 0 }
      (by rfl) (by rfl)).2 (by rfl) (by decide) 2,
   by decide⟩

/-! ## Handle equality -/

/-- C6: for two non-empty handles `p` and `q` of the same type table, `p == q`
unifies `p`, then `q`, and returns true exactly when the two representatives
read afterwards are the same node; `p != q` returns the negation.  `unify` is
any function under which both handles are unified after the two calls. -/
theorem Proxy_eq_representative (unify : TypeTable → Ptr → Option TypeTable)
    (tt tt1 tt2 : TypeTable) (p q rp rq : Ptr) (pn qn : TypeNode)
    (hp : tt.type p = some pn) (hq : tt.type q = some qn)
    (htt : pn.typetable = qn.typetable)
    (h1 : unify tt p = some tt1) (h2 : unify tt1 q = some tt2)
    (hrp : Proxy.representative tt2 p = some (some rp))
    (hrq : Proxy.representative tt2 q = some (some rq)) :
    Proxy.op_eq unify tt (some p) (some q) = some (decide (rp = rq), tt2) ∧
    Proxy.op_ne unify tt (some p) (some q) = some (!decide (rp = rq), tt2) := by
  have h : Proxy.op_eq unify tt (some p) (some q) = some (decide (rp = rq), tt2) := by
    simp [Proxy.op_eq, hp, hq, htt, h1, h2, hrp, hrq]
  exact ⟨h, by simp [Proxy.op_ne, h]⟩

/-- Witness for C6: in `table_fn_int` the unified handles `int` and `fn(int)`
are different, with a `unify` that leaves unified nodes alone. -/
theorem Proxy_eq_representative_witness :
    Proxy.op_eq (fun tt _ => some tt) table_fn_int (some 1) (some 2)
      = some (decide ((1 : Ptr) = 2), table_fn_int) ∧
    Proxy.op_ne (fun tt _ => some tt) table_fn_int (some 1) (some 2)
      = some (!decide ((1 : Ptr) = 2), table_fn_int) :=
  Proxy_eq_representative (fun tt _ => some tt) table_fn_int table_fn_int table_fn_int
    1 2 1 2 _ _ (by rfl) (by rfl) (by rfl) (by rfl) (by rfl) (by rfl) (by rfl)

/-! ## `TypeVarNode::bounds_equal` -/

theorem TypeVarNode.bound_reps_length {tt : TypeTable} {bs rs : List Ptr}
    (h : TypeVarNode.bound_reps tt bs rs) : bs.length = rs.length :=
  List.Forall₂.length_eq h

theorem TypeVarNode.ttis_insert_spec {tt : TypeTable} :
    ∀ (bs rs acc : List Ptr), TypeVarNode.bound_reps tt bs rs → (acc ++ rs).Nodup →
      TypeVarNode.ttis_insert tt bs acc = some (acc ++ rs) := by
  intro bs rs acc h
  induction h generalizing acc with
  | nil =>
    intro _
    simp [TypeVarNode.ttis_insert]
  | @cons b r bs rs hbr _ ih =>
    intro hnd
    have hr : r ∉ acc := by
      intro hc
      rw [List.nodup_append] at hnd
      exact hnd.2.2 hc (List.mem_cons_self _ _)
    have hnd' : ((acc ++ [r]) ++ rs).Nodup := by simpa using hnd
    simp only [TypeVarNode.ttis_insert, hbr, hr, if_false]
    rw [ih _ hnd']
    simp

theorem TypeVarNode.ttis_find_all_spec {tt : TypeTable} (ttis : List Ptr) :
    ∀ (bs rs : List Ptr), TypeVarNode.bound_reps tt bs rs →
      TypeVarNode.ttis_find_all tt ttis bs = some (decide (∀ x ∈ rs, x ∈ ttis)) := by
  intro bs rs h
  induction h with
  | nil => simp [TypeVarNode.ttis_find_all]
  | @cons b r bs rs hbr _ ih =>
    simp only [TypeVarNode.ttis_find_all, hbr]
    by_cases hr : r ∈ ttis
    · simp [hr, ih]
    · simp [hr]

/-- Two duplicate-free lists have the same length and the first is included
in the second exactly when they have the same elements. -/
theorem TypeVarNode.same_set_iff {rv rw : List Ptr} (hv : rv.Nodup) (hw : rw.Nodup) :
    (rv.length = rw.length ∧ ∀ x ∈ rv, x ∈ rw) ↔ rv.toFinset = rw.toFinset := by
  constructor
  · rintro ⟨hl, hs⟩
    have hsp : rv.Subperm rw := List.subperm_of_subset hv hs
    exact List.toFinset_eq_of_perm _ _ (hsp.perm_of_length_le (le_of_eq hl.symm))
  · intro h
    constructor
    · rw [← List.toFinset_card_of_nodup hv, ← List.toFinset_card_of_nodup hw, h]
    · intro x hx
      have : x ∈ rv.toFinset := List.mem_toFinset.mpr hx
      rw [h] at this
      exact List.mem_toFinset.mp this

/-- The result of `bounds_equal` on variables whose bounds are unified and
have pairwise different representatives. -/
theorem TypeVarNode.bounds_equal_spec {tt : TypeTable} {v wp w : Ptr} {nv nw : TypeNode}
    {rv rw : List Ptr}
    (hv : tt.type v = some nv) (hd : TypeVar.deref tt wp = some w) (hw : tt.type w = some nw)
    (hrv : TypeVarNode.bound_reps tt nv.bounds rv)
    (hrw : TypeVarNode.bound_reps tt nw.bounds rw)
    (hnv : rv.Nodup) (hnw : rw.Nodup) :
    TypeVarNode.bounds_equal tt v wp = some (decide (rv.toFinset = rw.toFinset)) := by
  unfold TypeVarNode.bounds_equal
  simp only [hd, hw, hv, Option.bind_eq_bind, Option.some_bind]
  have hlv := TypeVarNode.bound_reps_length hrv
  have hlw := TypeVarNode.bound_reps_length hrw
  have hiff := TypeVarNode.same_set_iff hnv hnw
  by_cases hl : rv.length = rw.length
  · have hins := TypeVarNode.ttis_insert_spec nw.bounds rw [] hrw (by simpa using hnw)
    simp only [hlv, hlw, hl, ne_eq, not_true_eq_false, if_false, hins, Option.some_bind,
      List.nil_append]
    rw [TypeVarNode.ttis_find_all_spec rw _ _ hrv]
    congr 1
    simp only [decide_eq_decide]
    rw [← hiff]
    simp [hl]
  · have hne : ¬ rv.toFinset = rw.toFinset := fun e => hl (hiff.mpr e).1
    simp [hlv, hlw, hl, hne]

/-- C4: trait bounds are compared as sets.  For type variables `v` and `w`
(read through the handles `vp`, `wp`) whose bounds are unified trait
instances, no two bounds of one variable sharing a representative,
`v.bounds_equal(w)` returns true exactly when the two sets of representatives
are equal; so the order of the bounds does not matter, and
`w.bounds_equal(v)` returns the same. -/
theorem bounds_equal_as_sets (tt : TypeTable) (vp v wp w : Ptr) (nv nw : TypeNode)
    (rv rw : List Ptr)
    (hdv : TypeVar.deref tt vp = some v) (hv : tt.type v = some nv)
    (hdw : TypeVar.deref tt wp = some w) (hw : tt.type w = some nw)
    (hrv : TypeVarNode.bound_reps tt nv.bounds rv)
    (hrw : TypeVarNode.bound_reps tt nw.bounds rw)
    (hnv : rv.Nodup) (hnw : rw.Nodup) :
    TypeVarNode.bounds_equal tt v wp = some (decide (rv.toFinset = rw.toFinset)) ∧
    TypeVarNode.bounds_equal tt w vp = TypeVarNode.bounds_equal tt v wp := by
  have h1 := TypeVarNode.bounds_equal_spec hv hdw hw hrv hrw hnv hnw
  have h2 := TypeVarNode.bounds_equal_spec hw hdv hv hrw hrv hnw hnv
  refine ⟨h1, ?_⟩
  rw [h1, h2]
  congr 1
  simp only [decide_eq_decide]
  exact eq_comm

/-- Witness for C4: `C : Clonable + Equality` against `E : Equality + Clonable`
gives true, in both directions. -/
theorem bounds_equal_as_sets_witness :
    (TypeVarNode.bounds_equal table_bounds 0 1
        = some (decide (([0, 1] : List Ptr).toFinset = ([1, 0] : List Ptr).toFinset)) ∧
      TypeVarNode.bounds_equal table_bounds 1 0 = TypeVarNode.bounds_equal table_bounds 0 1) ∧
    TypeVarNode.bounds_equal table_bounds 0 1 = some true :=
  ⟨bounds_equal_as_sets table_bounds 0 0 1 1
      { kind := Kind.TypeVar, bounds := [0, 1] } { kind := Kind.TypeVar, bounds := [1, 0] }
      [0, 1] [1, 0] (by rfl) (by rfl) (by rfl) (by rfl)
      (by
        show List.Forall₂ _ [0, 1] [0, 1]
        exact List.Forall₂.cons rfl (List.Forall₂.cons rfl List.Forall₂.nil))
      (by
        show List.Forall₂ _ [1, 0] [1, 0]
        exact List.Forall₂.cons rfl (List.Forall₂.cons rfl List.Forall₂.nil))
      (by decide) (by decide),
   by decide⟩

/-! ## Reading handles, and `bounds_equal` up to provisional links -/

theorem TypeVar.representative_of_deref {tt : TypeTable} {v tv : Ptr}
    (h : TypeVar.deref tt v = some tv) : ∃ r, TypeVar.representative tt v = some r := by
  unfold TypeVar.deref at h
  unfold TypeVar.representative
  cases hn : tt.type v with
  | none => simp [hn] at h
  | some n =>
    simp only [hn] at h ⊢
    cases hr : n.representative with
    | none => exact ⟨none, rfl⟩
    | some r =>
      simp only [hr] at h ⊢
      exact ⟨some tv, by simp [h]⟩

theorem TypeVar.deref_of_representative {tt : TypeTable} {w r : Ptr}
    (h : TypeVar.representative tt w = some (some r)) :
    TypeVar.deref tt w = some r ∧ Proxy.representative tt w = some (some r) ∧
      ∃ n, tt.type r = some n ∧ n.kind = Kind.TypeVar := by
  unfold TypeVar.representative at h
  unfold TypeVar.deref Proxy.representative
  cases hn : tt.type w with
  | none => simp [hn] at h
  | some n =>
    simp only [hn] at h ⊢
    cases hr : n.representative with
    | none => simp [hr] at h
    | some x =>
      simp only [hr, Option.map_eq_some', Option.some.injEq] at h ⊢
      obtain ⟨y, hy, rfl⟩ := h
      obtain ⟨rfl, m, hm, hk⟩ := TypeVar.as_TypeVarNode_eq_some hy
      exact ⟨hy, by simp [hr], m, hm, hk⟩

theorem Proxy.deref_of_typevar_deref {tt : TypeTable} {v tv : Ptr}
    (h : TypeVar.deref tt v = some tv) : Proxy.deref tt v = some tv := by
  obtain ⟨nv, n, hnv, _, _, he⟩ := TypeVar.deref_eq_some h
  unfold Proxy.deref
  simp only [hnv, Option.map_some', Option.some.injEq]
  exact he.symm

theorem TraitInstance.representative_of_skel {tt tt' : TypeTable} (h : tt'.skel = tt.skel)
    (b : Ptr) : TraitInstance.representative tt' b = TraitInstance.representative tt b := by
  have e : tt'.trait_instances = tt.trait_instances := by
    have := congrArg TypeTable.trait_instances h
    simpa [TypeTable.skel] using this
  simp [TraitInstance.representative, TypeTable.inst, e]

theorem TypeVarNode.ttis_insert_congr {tt tt' : TypeTable}
    (h : ∀ b, TraitInstance.representative tt' b = TraitInstance.representative tt b) :
    ∀ (bs acc : List Ptr), TypeVarNode.ttis_insert tt' bs acc = TypeVarNode.ttis_insert tt bs acc := by
  intro bs
  induction bs with
  | nil => intro acc; simp [TypeVarNode.ttis_insert]
  | cons b bs ih =>
    intro acc
    simp only [TypeVarNode.ttis_insert, h b]
    split
    · split
      · rfl
      · exact ih _
    · rfl

theorem TypeVarNode.ttis_find_all_congr {tt tt' : TypeTable}
    (h : ∀ b, TraitInstance.representative tt' b = TraitInstance.representative tt b)
    (ttis : List Ptr) :
    ∀ (bs : List Ptr), TypeVarNode.ttis_find_all tt' ttis bs = TypeVarNode.ttis_find_all tt ttis bs := by
  intro bs
  induction bs with
  | nil => simp [TypeVarNode.ttis_find_all]
  | cons b bs ih =>
    simp only [TypeVarNode.ttis_find_all, h b]
    split
    · split
      · exact ih
      · rfl
    · rfl

theorem TypeTable.bounds_of_skel {tt tt' : TypeTable} (h : tt'.skel = tt.skel) (p : Ptr) :
    (tt'.type p).map (fun n => n.bounds) = (tt.type p).map (fun n => n.bounds) := by
  have e := congrArg (Option.map (fun n : TypeNode => n.bounds)) (TypeTable.erase_type_of_skel h p)
  simpa [Option.map_map, Function.comp_def, TypeNode.erase] using e

/-- The comparison of bounds does not read provisional links. -/
theorem TypeVarNode.bounds_equal_congr {tt tt' : TypeTable} (h : tt'.skel = tt.skel)
    (v w : Ptr) : TypeVarNode.bounds_equal tt' v w = TypeVarNode.bounds_equal tt v w := by
  have hi := TraitInstance.representative_of_skel h
  unfold TypeVarNode.bounds_equal
  rw [TypeVar.deref_congr (TypeTable.link_of_skel h)]
  cases TypeVar.deref tt w with
  | none => rfl
  | some o =>
    simp only [Option.bind_eq_bind, Option.some_bind]
    have ho := TypeTable.bounds_of_skel h o
    have hv := TypeTable.bounds_of_skel h v
    cases h1 : tt.type o <;> cases h2 : tt'.type o <;> simp [h1, h2] at ho ⊢
    cases h3 : tt.type v <;> cases h4 : tt'.type v <;> simp [h3, h4] at hv ⊢
    rw [ho, hv]
    simp only [TypeVarNode.ttis_insert_congr hi, TypeVarNode.ttis_find_all_congr hi]

theorem TypeNode.bounds_equal_all_congr {tt tt' : TypeTable} (h : tt'.skel = tt.skel) :
    ∀ (vs ws : List Ptr),
      TypeNode.bounds_equal_all tt' vs ws = TypeNode.bounds_equal_all tt vs ws := by
  intro vs
  induction vs with
  | nil => intro ws; simp [TypeNode.bounds_equal_all]
  | cons v vs ih =>
    intro ws
    cases ws with
    | nil => simp [TypeNode.bounds_equal_all]
    | cons w ws =>
      simp only [TypeNode.bounds_equal_all, TypeVar.deref_congr (TypeTable.link_of_skel h),
        TypeVarNode.bounds_equal_congr h, ih]

/-! ## The loops of `TypeNode::equal` run to completion -/

theorem TypeNode.set_equiv_variables_ok :
    ∀ (vs ws : List Ptr) (tt : TypeTable), vs.length = ws.length →
      (∀ v ∈ vs, ∃ tv, TypeVar.deref tt v = some tv) →
      (∀ w ∈ ws, ∃ r, TypeVar.representative tt w = some r) →
      ∃ tt1, TypeNode.set_equiv_variables tt vs ws = some tt1 := by
  intro vs
  induction vs with
  | nil =>
    intro ws tt _ _ _
    exact ⟨tt, by simp [TypeNode.set_equiv_variables]⟩
  | cons v vs ih =>
    intro ws tt hl hv hw
    cases ws with
    | nil => simp at hl
    | cons w ws =>
      obtain ⟨tv, hd⟩ := hv v (List.mem_cons_self _ _)
      obtain ⟨r, hr⟩ := hw w (List.mem_cons_self _ _)
      obtain ⟨_, n, _, hn, _, _⟩ := TypeVar.deref_eq_some hd
      have hsk := TypeTable.skel_setType_equiv hn r
      have hlink := TypeTable.link_of_skel hsk
      obtain ⟨tt1, h1⟩ := ih ws (tt.setType tv { n with equiv_var := r })
        (by simpa using hl)
        (fun v' hv' => by
          rw [TypeVar.deref_congr hlink]
          exact hv v' (List.mem_cons_of_mem _ hv'))
        (fun w' hw' => by
          rw [TypeVar.representative_congr hlink]
          exact hw w' (List.mem_cons_of_mem _ hw'))
      refine ⟨tt1, ?_⟩
      simp [TypeNode.set_equiv_variables, hd, hr, TypeVarNode.set_equiv_variable, hn, h1]

theorem TypeNode.unset_equiv_variables_ok :
    ∀ (vs : List Ptr) (tt : TypeTable),
      (∀ v ∈ vs, ∃ tv, TypeVar.deref tt v = some tv) →
      ∃ tt1, TypeNode.unset_equiv_variables tt vs = some tt1 := by
  intro vs
  induction vs with
  | nil =>
    intro tt _
    exact ⟨tt, by simp [TypeNode.unset_equiv_variables]⟩
  | cons v vs ih =>
    intro tt hv
    obtain ⟨tv, hd⟩ := hv v (List.mem_cons_self _ _)
    obtain ⟨_, n, _, hn, _, _⟩ := TypeVar.deref_eq_some hd
    have hsk := TypeTable.skel_setType_equiv hn none
    have hlink := TypeTable.link_of_skel hsk
    obtain ⟨tt1, h1⟩ := ih (tt.setType tv { n with equiv_var := none })
      (fun v' hv' => by
        rw [TypeVar.deref_congr hlink]
        exact hv v' (List.mem_cons_of_mem _ hv'))
    refine ⟨tt1, ?_⟩
    simp [TypeNode.unset_equiv_variables, hd, TypeVarNode.unset_equiv_variable, hn, h1]

/-- After the first loop, when the handles of `this` read pairwise different
variables, each of them carries the representative of its partner. -/
theorem TypeNode.set_equiv_variables_value :
    ∀ (vs ws : List Ptr) (tt tt1 : TypeTable),
      TypeNode.set_equiv_variables tt vs ws = some tt1 →
      (vs.map (TypeVar.deref tt)).Nodup →
      ∀ v w, (v, w) ∈ vs.zip ws → ∀ tv r, TypeVar.deref tt v = some tv →
        TypeVar.representative tt w = some r →
        ∃ n, tt1.type tv = some n ∧ n.equiv_var = r := by
  intro vs
  induction vs with
  | nil =>
    intro ws tt tt1 _ _ v w hm
    simp at hm
  | cons v0 vs ih =>
    intro ws tt tt1 h hnd v w hm tv r hd hr
    cases ws with
    | nil => simp at hm
    | cons w0 ws =>
      simp only [TypeNode.set_equiv_variables, Option.bind_eq_bind, Option.bind_eq_some] at h
      obtain ⟨tv0, hd0, r0, hr0, tta, hs, hrest⟩ := h
      obtain ⟨n, hn, rfl⟩ := TypeVarNode.set_equiv_variable_eq_some hs
      have hsk := TypeTable.skel_setType_equiv hn r0
      have hlink := TypeTable.link_of_skel hsk
      have hmap : vs.map (TypeVar.deref (tt.setType tv0 { n with equiv_var := r0 })) =
          vs.map (TypeVar.deref tt) :=
        List.map_congr_left (fun x _ => TypeVar.deref_congr hlink x)
      simp only [List.map_cons, List.nodup_cons] at hnd
      simp only [List.zip_cons_cons, List.mem_cons, Prod.mk.injEq] at hm
      rcases hm with ⟨rfl, rfl⟩ | hm
      · have e1 : tv0 = tv := by
          rw [hd0] at hd
          exact Option.some.inj hd
        have e2 : r0 = r := by
          rw [hr0] at hr
          exact Option.some.inj hr
        subst e1 e2
        have hfr := (TypeNode.set_equiv_variables_frame _ _ _ _ hrest).2 tv0 (by
          intro v' hv' hc
          rw [TypeVar.deref_congr hlink] at hc
          apply hnd.1
          rw [hd0, ← hc]
          exact List.mem_map_of_mem _ hv')
        rw [hfr, TypeTable.type_setType_self _ hn]
        exact ⟨_, rfl, rfl⟩
      · exact ih ws _ tt1 hrest (by rw [hmap]; exact hnd.2) v w hm tv r
          (by rw [TypeVar.deref_congr hlink]; exact hd)
          (by rw [TypeVar.representative_congr hlink]; exact hr)

/-- The loop over the children returns true when every call does, threading an
invariant of the table through the calls. -/
theorem TypeNode.elems_equal_ok
    (call : TypeTable → Ptr → Ptr → Option (Bool × TypeTable)) (Inv : TypeTable → Prop)
    (as bs : List Ptr)
    (h : List.Forall₂ (fun a b => ∀ tt1, Inv tt1 → ∃ ta rb tt2,
      Proxy.deref tt1 a = some ta ∧ Proxy.representative tt1 b = some (some rb) ∧
      call tt1 ta rb = some (true, tt2) ∧ Inv tt2) as bs) :
    ∀ tt1, Inv tt1 → ∃ tt2, TypeNode.elems_equal call tt1 as bs = some (true, tt2) ∧ Inv tt2 := by
  induction h with
  | nil =>
    intro tt1 hi
    exact ⟨tt1, by simp [TypeNode.elems_equal], hi⟩
  | @cons a b as bs hab _ ih =>
    intro tt1 hi
    obtain ⟨ta, rb, tt2, hd, hr, hc, hi2⟩ := hab tt1 hi
    obtain ⟨tt3, h3, hi3⟩ := ih tt2 hi2
    exact ⟨tt3, by simp [TypeNode.elems_equal, hd, hr, hc, h3], hi3⟩

/-- A bound that depends on the element of a list, monotonically, can be chosen
for the whole list. -/
theorem List.exists_common_bound {α : Type} (P : α → Nat → Prop)
    (hmono : ∀ a N M, N ≤ M → P a N → P a M) :
    ∀ (l : List α), (∀ a ∈ l, ∃ N, P a N) → ∃ N, ∀ a ∈ l, P a N := by
  intro l
  induction l with
  | nil => intro _; exact ⟨0, by simp⟩
  | cons a l ih =>
    intro h
    obtain ⟨N1, h1⟩ := h a (List.mem_cons_self _ _)
    obtain ⟨N2, h2⟩ := ih (fun x hx => h x (List.mem_cons_of_mem _ hx))
    refine ⟨max N1 N2, ?_⟩
    intro x hx
    rcases List.mem_cons.mp hx with rfl | hx
    · exact hmono _ _ _ (le_max_left _ _) h1
    · exact hmono _ _ _ (le_max_right _ _) (h2 x hx)

theorem TypeNode.bounds_equal_all_refl {tt : TypeTable} :
    ∀ (vs : List Ptr),
      (∀ w ∈ vs, ∃ tw nw reps, TypeVar.deref tt w = some tw ∧ tt.type tw = some nw ∧
        TypeVarNode.bound_reps tt nw.bounds reps ∧ reps.Nodup) →
      TypeNode.bounds_equal_all tt vs vs = some true := by
  intro vs
  induction vs with
  | nil => intro _; simp [TypeNode.bounds_equal_all]
  | cons v vs ih =>
    intro h
    obtain ⟨tw, nw, reps, hd, hn, hb, hnd⟩ := h v (List.mem_cons_self _ _)
    have hbe := TypeVarNode.bounds_equal_spec hn hd hn hb hb hnd hnd
    simp only [decide_True] at hbe
    simp [TypeNode.bounds_equal_all, hd, hbe, ih (fun w hw => h w (List.mem_cons_of_mem _ hw))]

/-! ## A well-formed unified type equals itself -/

theorem Proxy.type_deref_of_representative {tt : TypeTable} {e r : Ptr}
    (h : Proxy.representative tt e = some (some r)) : Proxy.deref tt e = some r := by
  unfold Proxy.representative at h
  unfold Proxy.deref
  cases hn : tt.type e with
  | none => simp [hn] at h
  | some n =>
    simp only [hn, Option.map_some', Option.some.injEq] at h ⊢
    simp [h]

/-- Comparing a well-formed unified type with itself returns true, for every
large enough fuel and whatever provisional links are set, and leaves the
variables of `S` as they are. -/
theorem Generic.equal_refl_of_well_formed {tt : TypeTable} {S : List Ptr} {r : Ptr}
    (h : tt.well_formed S r) :
    ∃ N, ∀ fuel, N ≤ fuel → ∀ tt1 : TypeTable, tt1.skel = tt.skel →
      ∃ tt2, Generic.equal fuel tt1 r r = some (true, tt2) ∧ tt2.skel = tt.skel ∧
        ∀ s ∈ S, tt2.type s = tt1.type s := by
  induction h with
  | var r n hn hk =>
    refine ⟨1, ?_⟩
    intro fuel hf tt1 hsk
    obtain ⟨f, rfl⟩ : ∃ f, fuel = f + 1 := ⟨fuel - 1, by omega⟩
    obtain ⟨e, h1⟩ := TypeTable.type_of_skel hsk hn
    refine ⟨tt1, ?_, hsk, fun _ _ => rfl⟩
    unfold Generic.equal
    simp only [h1, hk, if_true]
    unfold TypeVarNode.equal
    simp
  | node r n hn hk hbv hex hwf ih =>
    obtain ⟨N, hN⟩ := List.exists_common_bound
      (fun (e : Ptr) (N : Nat) => ∀ r', Proxy.representative tt e = some (some r') →
        ∀ fuel, N ≤ fuel → ∀ tt1 : TypeTable, tt1.skel = tt.skel →
        ∃ tt2, Generic.equal fuel tt1 r' r' = some (true, tt2) ∧ tt2.skel = tt.skel ∧
          ∀ s ∈ S, tt2.type s = tt1.type s)
      (fun a N M hNM hP r' hr fuel hf => hP r' hr fuel (le_trans hNM hf))
      n.elems
      (fun e he => by
        obtain ⟨r0, hr0⟩ := hex e he
        obtain ⟨N0, hN0⟩ := ih e he r0 hr0
        refine ⟨N0, ?_⟩
        intro r' hr'
        rw [hr0] at hr'
        cases hr'
        exact hN0)
    refine ⟨N + 1, ?_⟩
    intro fuel hf tt1 hsk
    obtain ⟨f, rfl⟩ : ∃ f, fuel = f + 1 := ⟨fuel - 1, by omega⟩
    have hfN : N ≤ f := by omega
    obtain ⟨e, h1⟩ := TypeTable.type_of_skel hsk hn
    have hd : ∀ (t : TypeTable), t.skel = tt.skel → ∀ w ∈ n.bound_vars,
        ∃ tw, TypeVar.deref t w = some tw ∧ tw ∉ S := by
      intro t ht w hw
      obtain ⟨tw, _, _, a, b, _⟩ := hbv w hw
      exact ⟨tw, by rw [TypeVar.deref_congr (TypeTable.link_of_skel ht)]; exact a, b⟩
    have hnotS : ∀ (t : TypeTable), t.skel = tt.skel → ∀ s ∈ S,
        ∀ v ∈ n.bound_vars, TypeVar.deref t v ≠ some s := by
      intro t ht s hs v hv hc
      obtain ⟨tw, a, b⟩ := hd t ht v hv
      rw [a] at hc
      cases hc
      exact b hs
    obtain ⟨tta, hset⟩ := TypeNode.set_equiv_variables_ok n.bound_vars n.bound_vars tt1 rfl
      (fun w hw => by obtain ⟨tw, a, _⟩ := hd tt1 hsk w hw; exact ⟨tw, a⟩)
      (fun w hw => by
        obtain ⟨tw, a, _⟩ := hd tt1 hsk w hw
        exact TypeVar.representative_of_deref a)
    obtain ⟨hska, hfra⟩ := TypeNode.set_equiv_variables_frame _ _ _ _ hset
    have hskA : tta.skel = tt.skel := hska.trans hsk
    have hbounds : TypeNode.bounds_equal_all tta n.bound_vars n.bound_vars = some true := by
      rw [TypeNode.bounds_equal_all_congr hskA]
      exact TypeNode.bounds_equal_all_refl _ (fun w hw => by
        obtain ⟨tw, nw, reps, a, _, b, c, d⟩ := hbv w hw
        exact ⟨tw, nw, reps, a, b, c, d⟩)
    obtain ⟨tt2, hel, hsk2, hS2⟩ := TypeNode.elems_equal_ok (Generic.equal f)
      (fun t => t.skel = tt.skel ∧ ∀ s ∈ S, t.type s = tta.type s)
      n.elems n.elems
      (List.forall₂_same.mpr (fun x hx t ht => by
        obtain ⟨r0, hr0⟩ := hex x hx
        have hr0' : Proxy.representative t x = some (some r0) := by
          rw [Proxy.type_representative_congr (TypeTable.link_of_skel ht.1)]
          exact hr0
        obtain ⟨t2, hc, hs2, hS⟩ := hN x hx r0 hr0 f hfN t ht.1
        exact ⟨r0, r0, t2, Proxy.type_deref_of_representative hr0', hr0', hc, hs2,
          fun s hs => (hS s hs).trans (ht.2 s hs)⟩))
      tta ⟨hskA, fun _ _ => rfl⟩
    obtain ⟨tt3, hun⟩ := TypeNode.unset_equiv_variables_ok n.bound_vars tt2
      (fun w hw => by obtain ⟨tw, a, _⟩ := hd tt2 hsk2 w hw; exact ⟨tw, a⟩)
    obtain ⟨hsk3, hfr3, _⟩ := TypeNode.unset_equiv_variables_frame _ _ _ hun
    refine ⟨tt3, ?_, hsk3.trans hsk2, ?_⟩
    · unfold Generic.equal
      have hk' : ¬ ({ n with equiv_var := e } : TypeNode).kind = Kind.TypeVar := hk
      simp only [h1, hk', if_false]
      unfold TypeNode.equal
      simp [h1, hset, hbounds, hel, hun]
    · intro s hs
      rw [hfr3 s (hnotS tt2 hsk2 s hs), hS2 s hs, hfra s (hnotS tt1 hsk s hs)]

/-! ## Alpha-equivalence of `TypeNode::equal` -/

theorem TypeNode.bounds_equal_all_no_bounds {tt : TypeTable} :
    ∀ (vs ws : List Ptr), vs.length = ws.length →
      (∀ v ∈ vs, ∃ tv, TypeVar.deref tt v = some tv ∧
        (tt.type tv).map (fun n => n.bounds) = some []) →
      (∀ w ∈ ws, ∃ tw, TypeVar.deref tt w = some tw ∧
        (tt.type tw).map (fun n => n.bounds) = some []) →
      TypeNode.bounds_equal_all tt vs ws = some true := by
  intro vs
  induction vs with
  | nil => intro ws _ _ _; simp [TypeNode.bounds_equal_all]
  | cons v vs ih =>
    intro ws hl hv hw
    cases ws with
    | nil => simp at hl
    | cons w ws =>
      obtain ⟨tv, hdv, hbv⟩ := hv v (List.mem_cons_self _ _)
      obtain ⟨tw, hdw, hbw⟩ := hw w (List.mem_cons_self _ _)
      cases hnv : tt.type tv with
      | none => simp [hnv] at hbv
      | some nv =>
        cases hnw : tt.type tw with
        | none => simp [hnw] at hbw
        | some nw =>
          simp only [hnv, hnw, Option.map_some', Option.some.injEq] at hbv hbw
          have hbe := @TypeVarNode.bounds_equal_spec tt tv w tw nv nw [] [] hnv hdw hnw
            (by rw [hbv]; exact List.Forall₂.nil) (by rw [hbw]; exact List.Forall₂.nil)
            List.nodup_nil List.nodup_nil
          simp only [decide_True] at hbe
          simp [TypeNode.bounds_equal_all, hdv, hbe,
            ih ws (by simpa using hl) (fun x hx => hv x (List.mem_cons_of_mem _ hx))
              (fun x hx => hw x (List.mem_cons_of_mem _ hx))]

/-- The comparison of the i-th bound variable of `this` with the
representative of the i-th bound variable of `other`, once the provisional
link is set: true, and the table is not touched. -/
theorem TypeVarNode.equal_of_equiv_var {tt : TypeTable} {tv rw : Ptr} {n m : TypeNode}
    (hn : tt.type tv = some n) (hk : n.kind = Kind.TypeVar) (he : n.equiv_var = some rw)
    (hm : tt.type rw = some m) (hmk : m.kind = Kind.TypeVar) (f : Nat) :
    Generic.equal (f + 1) tt tv rw = some (true, tt) := by
  unfold Generic.equal
  simp only [hn, hk, if_true]
  unfold TypeVarNode.equal
  by_cases hc : tv = rw
  · simp [hc]
  · simp [hc, hn, hm, hmk, he]

/-- The bound needed by the comparisons of the identical children can be
chosen for all children at once. -/
theorem TypeNode.alpha_child_bound {tt : TypeTable} {vs ws S : List Ptr} {as bs : List Ptr}
    (h : List.Forall₂ (TypeNode.alpha_child tt vs ws S) as bs) :
    ∃ N, List.Forall₂ (fun a b => (a, b) ∈ vs.zip ws ∨
      (a = b ∧ ∃ r, Proxy.representative tt a = some (some r) ∧
        ∀ fuel, N ≤ fuel → ∀ tt1 : TypeTable, tt1.skel = tt.skel →
          ∃ tt2, Generic.equal fuel tt1 r r = some (true, tt2) ∧ tt2.skel = tt.skel ∧
            ∀ s ∈ S, tt2.type s = tt1.type s)) as bs := by
  induction h with
  | nil => exact ⟨0, List.Forall₂.nil⟩
  | @cons a b as bs hab _ ih =>
    obtain ⟨N2, h2⟩ := ih
    rcases hab with hz | ⟨rfl, r, hr, hwf⟩
    · refine ⟨N2, List.Forall₂.cons (Or.inl hz) h2⟩
    · obtain ⟨N1, h1⟩ := Generic.equal_refl_of_well_formed hwf
      refine ⟨max N1 N2, List.Forall₂.cons (Or.inr ⟨rfl, r, hr, ?_⟩) ?_⟩
      · intro fuel hf
        exact h1 fuel (le_trans (le_max_left _ _) hf)
      · refine List.Forall₂.imp ?_ h2
        intro x y hxy
        rcases hxy with hz | ⟨rfl, r', hr', hc⟩
        · exact Or.inl hz
        · exact Or.inr ⟨rfl, r', hr', fun fuel hf =>
            hc fuel (le_trans (le_max_right _ _) hf)⟩

/-- The comparison of two children that are identical except for replaced
occurrences of the bound variables, made while the provisional links of the
polytype are set (`tta` is the table after the first loop): it returns true for
every large enough fuel and leaves the linked variables as they are. -/
theorem TypeNode.alpha_tree_equal {tt tta : TypeTable} {vs ws tvs : List Ptr}
    (hlink : ∀ a b, (a, b) ∈ vs.zip ws → ∃ tv r n m, TypeVar.deref tt a = some tv ∧
      tv ∈ tvs ∧ TypeVar.representative tt b = some (some r) ∧ tta.type tv = some n ∧
      n.kind = Kind.TypeVar ∧ n.equiv_var = some r ∧ tt.type r = some m ∧
      m.kind = Kind.TypeVar)
    {a b : Ptr} (h : TypeNode.alpha_tree tt vs ws tvs a b) :
    ∃ N, ∀ fuel, N ≤ fuel → ∀ t : TypeTable, t.skel = tt.skel →
      (∀ s ∈ tvs, t.type s = tta.type s) →
      ∃ ta rb t2, Proxy.deref t a = some ta ∧ Proxy.representative t b = some (some rb) ∧
        Generic.equal fuel t ta rb = some (true, t2) ∧ t2.skel = tt.skel ∧
        ∀ s ∈ tvs, t2.type s = t.type s := by
  induction h with
  | bound a b hz =>
    obtain ⟨tv, r, n, m, hda, hin, hrb, hn, hkn, hne, hm0, hmk⟩ := hlink a b hz
    refine ⟨1, ?_⟩
    intro fuel hf t ht hS
    obtain ⟨f, rfl⟩ : ∃ f, fuel = f + 1 := ⟨fuel - 1, by omega⟩
    obtain ⟨_, hpr, _⟩ := TypeVar.deref_of_representative hrb
    obtain ⟨e', hm⟩ := TypeTable.type_of_skel ht hm0
    have hnt : t.type tv = some n := by rw [hS tv hin]; exact hn
    refine ⟨tv, r, t, ?_, ?_, TypeVarNode.equal_of_equiv_var hnt hkn hne hm hmk f, ht,
      fun _ _ => rfl⟩
    · apply Proxy.deref_of_typevar_deref
      rw [TypeVar.deref_congr (TypeTable.link_of_skel ht)]
      exact hda
    · rw [Proxy.type_representative_congr (TypeTable.link_of_skel ht)]
      exact hpr
  | same a b r hr hrb hwf =>
    obtain ⟨N, hN⟩ := Generic.equal_refl_of_well_formed hwf
    refine ⟨N, ?_⟩
    intro fuel hf t ht _
    have hr' : Proxy.representative t a = some (some r) := by
      rw [Proxy.type_representative_congr (TypeTable.link_of_skel ht)]
      exact hr
    have hrb' : Proxy.representative t b = some (some r) := by
      rw [Proxy.type_representative_congr (TypeTable.link_of_skel ht)]
      exact hrb
    obtain ⟨t2, hc, hs2, hS⟩ := hN fuel hf t ht
    exact ⟨r, r, t2, Proxy.type_deref_of_representative hr', hrb', hc, hs2, hS⟩
  | node a b ta rb na nb hda hrb hna hnb hkind hnv hsize hbv hbin _ ih =>
    obtain ⟨N, hN⟩ := List.exists_common_bound
      (fun (xy : Ptr × Ptr) (N : Nat) => ∀ fuel, N ≤ fuel → ∀ t : TypeTable,
        t.skel = tt.skel → (∀ s ∈ tvs, t.type s = tta.type s) →
        ∃ ta rb t2, Proxy.deref t xy.1 = some ta ∧
          Proxy.representative t xy.2 = some (some rb) ∧
          Generic.equal fuel t ta rb = some (true, t2) ∧ t2.skel = tt.skel ∧
          ∀ s ∈ tvs, t2.type s = t.type s)
      (fun _ N M hNM hP fuel hf => hP fuel (le_trans hNM hf))
      (na.elems.zip nb.elems)
      (fun xy hxy => ih xy.1 xy.2 hxy)
    refine ⟨N + 1, ?_⟩
    intro fuel hf t ht hS
    obtain ⟨f, rfl⟩ : ∃ f, fuel = f + 1 := ⟨fuel - 1, by omega⟩
    have hfN : N ≤ f := by omega
    obtain ⟨e1, h1⟩ := TypeTable.type_of_skel ht hna
    obtain ⟨e2, h2⟩ := TypeTable.type_of_skel ht hnb
    have hd : ∀ (u : TypeTable), u.skel = tt.skel → ∀ w ∈ na.bound_vars,
        ∃ tw, TypeVar.deref u w = some tw ∧ tw ∉ tvs := by
      intro u hu w hw
      obtain ⟨tw, _, _, x, y, _⟩ := hbin w hw
      exact ⟨tw, by rw [TypeVar.deref_congr (TypeTable.link_of_skel hu)]; exact x, y⟩
    have hnotS : ∀ (u : TypeTable), u.skel = tt.skel → ∀ s ∈ tvs,
        ∀ v ∈ na.bound_vars, TypeVar.deref u v ≠ some s := by
      intro u hu s hs v hv hc
      obtain ⟨tw, x, y⟩ := hd u hu v hv
      rw [x] at hc
      cases hc
      exact y hs
    obtain ⟨tti, hset⟩ := TypeNode.set_equiv_variables_ok na.bound_vars na.bound_vars t rfl
      (fun w hw => by obtain ⟨tw, x, _⟩ := hd t ht w hw; exact ⟨tw, x⟩)
      (fun w hw => by
        obtain ⟨tw, x, _⟩ := hd t ht w hw
        exact TypeVar.representative_of_deref x)
    obtain ⟨hski, hfri⟩ := TypeNode.set_equiv_variables_frame _ _ _ _ hset
    have hskI : tti.skel = tt.skel := hski.trans ht
    have hbounds : TypeNode.bounds_equal_all tti na.bound_vars na.bound_vars = some true := by
      rw [TypeNode.bounds_equal_all_congr hskI]
      exact TypeNode.bounds_equal_all_refl _ (fun w hw => by
        obtain ⟨tw, nw, reps, x, _, y, z, u⟩ := hbin w hw
        exact ⟨tw, nw, reps, x, y, z, u⟩)
    have hchildren : List.Forall₂ (fun x y => ∀ u : TypeTable,
        (u.skel = tt.skel ∧ ∀ s ∈ tvs, u.type s = tti.type s) →
        ∃ ta rb u2, Proxy.deref u x = some ta ∧
          Proxy.representative u y = some (some rb) ∧
          Generic.equal f u ta rb = some (true, u2) ∧
          (u2.skel = tt.skel ∧ ∀ s ∈ tvs, u2.type s = tti.type s)) na.elems nb.elems := by
      rw [List.forall₂_iff_zip]
      refine ⟨hsize, ?_⟩
      intro x y hxy u hu
      obtain ⟨ta', rb', u2, p1, p2, p3, p4, p5⟩ := hN (x, y) hxy f hfN u hu.1
        (fun s hs => by
          rw [hu.2 s hs, hfri s (hnotS t ht s hs)]
          exact hS s hs)
      exact ⟨ta', rb', u2, p1, p2, p3, p4, fun s hs => (p5 s hs).trans (hu.2 s hs)⟩
    obtain ⟨t2, hel, hsk2, hS2⟩ := TypeNode.elems_equal_ok (Generic.equal f)
      (fun u => u.skel = tt.skel ∧ ∀ s ∈ tvs, u.type s = tti.type s)
      na.elems nb.elems hchildren tti ⟨hskI, fun _ _ => rfl⟩
    obtain ⟨t3, hun⟩ := TypeNode.unset_equiv_variables_ok na.bound_vars t2
      (fun w hw => by obtain ⟨tw, x, _⟩ := hd t2 hsk2 w hw; exact ⟨tw, x⟩)
    obtain ⟨hsk3, hfr3, _⟩ := TypeNode.unset_equiv_variables_frame _ _ _ hun
    refine ⟨ta, rb, t3, ?_, ?_, ?_, hsk3.trans hsk2, ?_⟩
    · rw [Proxy.type_deref_congr (TypeTable.link_of_skel ht)]
      exact hda
    · rw [Proxy.type_representative_congr (TypeTable.link_of_skel ht)]
      exact hrb
    · unfold Generic.equal
      have hk' : ¬ ({ na with equiv_var := e1 } : TypeNode).kind = Kind.TypeVar := hnv
      simp only [h1, hk', if_false]
      unfold TypeNode.equal
      simp [h1, h2, hkind, hsize, ← hbv, hset, hbounds, hel, hun]
    · intro s hs
      rw [hfr3 s (hnotS t2 hsk2 s hs), hS2 s hs, hfri s (hnotS t ht s hs)]

/-- The comparison of two polytypes whose children are identical except that
every occurrence of a bound variable of the first is replaced by the bound
variable of the second at the same index returns, for every large enough fuel,
what the loop over the bounds of the bound variables returns, changing at most
provisional links. -/
theorem TypeNode.equal_alpha_tree_bounds (tt : TypeTable) (P Q : Ptr) (p q : TypeNode)
    (tvs rws : List Ptr)
    (hP : tt.type P = some p) (hQ : tt.type Q = some q)
    (hkind : p.kind = q.kind) (hnv : p.kind ≠ Kind.TypeVar)
    (hsize : p.elems.length = q.elems.length)
    (hnbv : p.bound_vars.length = q.bound_vars.length)
    (htv : p.bound_vars.map (TypeVar.deref tt) = tvs.map some)
    (hrw : q.bound_vars.map (TypeVar.representative tt) = rws.map (fun r => some (some r)))
    (hnd : tvs.Nodup)
    (b : Bool) (hb : TypeNode.bounds_equal_all tt p.bound_vars q.bound_vars = some b)
    (hch : List.Forall₂ (TypeNode.alpha_tree tt p.bound_vars q.bound_vars tvs)
      p.elems q.elems) :
    ∃ N, ∀ fuel, N ≤ fuel →
      ∃ tt', Generic.equal fuel tt P Q = some (b, tt') ∧ tt.frame tt' := by
  -- what the handles of the bound variables read
  have hdv : ∀ v ∈ p.bound_vars, ∃ tv, tv ∈ tvs ∧ TypeVar.deref tt v = some tv := by
    intro v hv
    have : TypeVar.deref tt v ∈ tvs.map some := by
      rw [← htv]
      exact List.mem_map_of_mem _ hv
    obtain ⟨tv, htv', he⟩ := List.mem_map.mp this
    exact ⟨tv, htv', he.symm⟩
  have hrw' : ∀ w ∈ q.bound_vars, ∃ r, r ∈ rws ∧ TypeVar.representative tt w = some (some r) := by
    intro w hw
    have : TypeVar.representative tt w ∈ rws.map (fun r => some (some r)) := by
      rw [← hrw]
      exact List.mem_map_of_mem _ hw
    obtain ⟨r, hr, he⟩ := List.mem_map.mp this
    exact ⟨r, hr, he.symm⟩
  have hndm : (p.bound_vars.map (TypeVar.deref tt)).Nodup := by
    rw [htv]
    exact List.Nodup.map (Option.some_injective _) hnd
  have hdt : ∀ (t : TypeTable), t.skel = tt.skel → ∀ v, TypeVar.deref t v = TypeVar.deref tt v :=
    fun t ht v => TypeVar.deref_congr (TypeTable.link_of_skel ht) v
  -- the first loop
  obtain ⟨tta, hset⟩ := TypeNode.set_equiv_variables_ok p.bound_vars q.bound_vars tt hnbv
    (fun v hv => by obtain ⟨tv, _, a⟩ := hdv v hv; exact ⟨tv, a⟩)
    (fun w hw => by obtain ⟨r, _, a⟩ := hrw' w hw; exact ⟨some r, a⟩)
  obtain ⟨hska, hfra⟩ := TypeNode.set_equiv_variables_frame _ _ _ _ hset
  have hval := TypeNode.set_equiv_variables_value _ _ _ _ hset hndm
  -- the links that the children meet
  have hlink : ∀ a b, (a, b) ∈ p.bound_vars.zip q.bound_vars → ∃ tv r n m,
      TypeVar.deref tt a = some tv ∧ tv ∈ tvs ∧
      TypeVar.representative tt b = some (some r) ∧ tta.type tv = some n ∧
      n.kind = Kind.TypeVar ∧ n.equiv_var = some r ∧ tt.type r = some m ∧
      m.kind = Kind.TypeVar := by
    intro a b hz
    obtain ⟨tv, hin, hda⟩ := hdv a (List.of_mem_zip hz).1
    obtain ⟨r, _, hrb⟩ := hrw' b (List.of_mem_zip hz).2
    obtain ⟨n, hn, hne⟩ := hval a b hz tv (some r) hda hrb
    obtain ⟨_, n0, _, hn0, hk0, _⟩ := TypeVar.deref_eq_some hda
    obtain ⟨e, hn'⟩ := TypeTable.type_of_skel hska hn0
    have hkn : n.kind = Kind.TypeVar := by
      rw [hn] at hn'
      cases hn'
      exact hk0
    obtain ⟨_, _, m0, hm0, hmk⟩ := TypeVar.deref_of_representative hrb
    exact ⟨tv, r, n, m0, hda, hin, hrb, hn, hkn, hne, hm0, hmk⟩
  -- one bound on the fuel for all children
  obtain ⟨N, hN⟩ := List.exists_common_bound
    (fun (xy : Ptr × Ptr) (N : Nat) => ∀ fuel, N ≤ fuel → ∀ t : TypeTable,
      t.skel = tt.skel → (∀ s ∈ tvs, t.type s = tta.type s) →
      ∃ ta rb t2, Proxy.deref t xy.1 = some ta ∧
        Proxy.representative t xy.2 = some (some rb) ∧
        Generic.equal fuel t ta rb = some (true, t2) ∧ t2.skel = tt.skel ∧
        ∀ s ∈ tvs, t2.type s = t.type s)
    (fun _ N M hNM hP fuel hf => hP fuel (le_trans hNM hf))
    (p.elems.zip q.elems)
    (fun xy hxy => TypeNode.alpha_tree_equal hlink ((List.forall₂_iff_zip.mp hch).2 hxy))
  refine ⟨N + 1, ?_⟩
  intro fuel hf
  obtain ⟨f, rfl⟩ : ∃ f, fuel = f + 1 := ⟨fuel - 1, by omega⟩
  have hfN : N ≤ f := by omega
  -- the second loop
  have hbounds : TypeNode.bounds_equal_all tta p.bound_vars q.bound_vars = some b := by
    rw [TypeNode.bounds_equal_all_congr hska]
    exact hb
  cases b with
  | false =>
    obtain ⟨tt3, hun⟩ := TypeNode.unset_equiv_variables_ok p.bound_vars tta
      (fun v hv => by
        obtain ⟨tv, _, a⟩ := hdv v hv
        exact ⟨tv, by rw [hdt tta hska]; exact a⟩)
    have hres : Generic.equal (f + 1) tt P Q = some (false, tt3) := by
      unfold Generic.equal
      simp only [hP, hnv, if_false]
      unfold TypeNode.equal
      simp [hP, hQ, hkind, hsize, hnbv, hset, hbounds, hun]
    exact ⟨tt3, hres, Generic.equal_frame _ _ _ _ _ _ hres⟩
  | true =>
    -- the third loop
    have hchildren : List.Forall₂ (fun x y => ∀ u : TypeTable,
        (u.skel = tt.skel ∧ ∀ s ∈ tvs, u.type s = tta.type s) →
        ∃ ta rb u2, Proxy.deref u x = some ta ∧
          Proxy.representative u y = some (some rb) ∧
          Generic.equal f u ta rb = some (true, u2) ∧
          (u2.skel = tt.skel ∧ ∀ s ∈ tvs, u2.type s = tta.type s)) p.elems q.elems := by
      rw [List.forall₂_iff_zip]
      refine ⟨hsize, ?_⟩
      intro x y hxy u hu
      obtain ⟨ta', rb', u2, p1, p2, p3, p4, p5⟩ := hN (x, y) hxy f hfN u hu.1 hu.2
      exact ⟨ta', rb', u2, p1, p2, p3, p4, fun s hs => (p5 s hs).trans (hu.2 s hs)⟩
    obtain ⟨tt2, hel, hsk2, hS2⟩ := TypeNode.elems_equal_ok (Generic.equal f)
      (fun t => t.skel = tt.skel ∧ ∀ s ∈ tvs, t.type s = tta.type s)
      p.elems q.elems hchildren tta ⟨hska, fun _ _ => rfl⟩
    -- the last loop
    obtain ⟨tt3, hun⟩ := TypeNode.unset_equiv_variables_ok p.bound_vars tt2
      (fun v hv => by
        obtain ⟨tv, _, a⟩ := hdv v hv
        exact ⟨tv, by rw [hdt tt2 hsk2]; exact a⟩)
    have hres : Generic.equal (f + 1) tt P Q = some (true, tt3) := by
      unfold Generic.equal
      simp only [hP, hnv, if_false]
      unfold TypeNode.equal
      simp [hP, hQ, hkind, hsize, hnbv, hset, hbounds, hel, hun]
    exact ⟨tt3, hres, Generic.equal_frame _ _ _ _ _ _ hres⟩

/-- A child that is the i-th bound variable pair or one shared node is a
special case of a child that is identical up to replaced occurrences. -/
theorem TypeNode.alpha_tree_of_alpha_child {tt : TypeTable} {vs ws S : List Ptr} {a b : Ptr}
    (h : TypeNode.alpha_child tt vs ws S a b) : TypeNode.alpha_tree tt vs ws S a b := by
  rcases h with hz | ⟨rfl, r, hr, hwf⟩
  · exact TypeNode.alpha_tree.bound a b hz
  · exact TypeNode.alpha_tree.same a a r hr hr hwf

/-- The comparison of two polytypes whose children differ only in the identity
of the bound variables returns, for every large enough fuel, what the loop over
the bounds of the bound variables returns, changing at most provisional links. -/
theorem TypeNode.equal_alpha_bounds (tt : TypeTable) (P Q : Ptr) (p q : TypeNode)
    (tvs rws : List Ptr)
    (hP : tt.type P = some p) (hQ : tt.type Q = some q)
    (hkind : p.kind = q.kind) (hnv : p.kind ≠ Kind.TypeVar)
    (hsize : p.elems.length = q.elems.length)
    (hnbv : p.bound_vars.length = q.bound_vars.length)
    (htv : p.bound_vars.map (TypeVar.deref tt) = tvs.map some)
    (hrw : q.bound_vars.map (TypeVar.representative tt) = rws.map (fun r => some (some r)))
    (hnd : tvs.Nodup)
    (b : Bool) (hb : TypeNode.bounds_equal_all tt p.bound_vars q.bound_vars = some b)
    (hch : List.Forall₂ (TypeNode.alpha_child tt p.bound_vars q.bound_vars tvs)
      p.elems q.elems) :
    ∃ N, ∀ fuel, N ≤ fuel →
      ∃ tt', Generic.equal fuel tt P Q = some (b, tt') ∧ tt.frame tt' :=
  TypeNode.equal_alpha_tree_bounds tt P Q p q tvs rws hP hQ hkind hnv hsize hnbv htv hrw hnd
    b hb (hch.imp fun _ _ h => TypeNode.alpha_tree_of_alpha_child h)

/-- The comparison of two polytypes whose bound variables carry no bounds and
whose children are identical except for replaced occurrences of the bound
variables returns true, for every large enough fuel, changing at most
provisional links. -/
theorem TypeNode.equal_alpha_tree_core (tt : TypeTable) (P Q : Ptr) (p q : TypeNode)
    (tvs rws : List Ptr)
    (hP : tt.type P = some p) (hQ : tt.type Q = some q)
    (hkind : p.kind = q.kind) (hnv : p.kind ≠ Kind.TypeVar)
    (hsize : p.elems.length = q.elems.length)
    (hnbv : p.bound_vars.length = q.bound_vars.length)
    (htv : p.bound_vars.map (TypeVar.deref tt) = tvs.map some)
    (hrw : q.bound_vars.map (TypeVar.representative tt) = rws.map (fun r => some (some r)))
    (hnd : tvs.Nodup)
    (hnb : ∀ x ∈ tvs ++ rws, (tt.type x).map (fun n => n.bounds) = some [])
    (hch : List.Forall₂ (TypeNode.alpha_tree tt p.bound_vars q.bound_vars tvs)
      p.elems q.elems) :
    ∃ N, ∀ fuel, N ≤ fuel →
      ∃ tt', Generic.equal fuel tt P Q = some (true, tt') ∧ tt.frame tt' := by
  apply TypeNode.equal_alpha_tree_bounds tt P Q p q tvs rws hP hQ hkind hnv hsize hnbv htv hrw hnd
    true ?_ hch
  have hd : ∀ v ∈ p.bound_vars, ∃ tv, tv ∈ tvs ∧ TypeVar.deref tt v = some tv := by
    intro v hv
    have : TypeVar.deref tt v ∈ tvs.map some := by
      rw [← htv]
      exact List.mem_map_of_mem _ hv
    obtain ⟨tv, htv', he⟩ := List.mem_map.mp this
    exact ⟨tv, htv', he.symm⟩
  have hr : ∀ w ∈ q.bound_vars, ∃ r, r ∈ rws ∧ TypeVar.representative tt w = some (some r) := by
    intro w hw
    have : TypeVar.representative tt w ∈ rws.map (fun r => some (some r)) := by
      rw [← hrw]
      exact List.mem_map_of_mem _ hw
    obtain ⟨r, hr, he⟩ := List.mem_map.mp this
    exact ⟨r, hr, he.symm⟩
  apply TypeNode.bounds_equal_all_no_bounds _ _ hnbv
  · intro v hv
    obtain ⟨tv, hin, a⟩ := hd v hv
    exact ⟨tv, a, hnb tv (List.mem_append_left _ hin)⟩
  · intro w hw
    obtain ⟨r, hin, a⟩ := hr w hw
    exact ⟨r, (TypeVar.deref_of_representative a).1, hnb r (List.mem_append_right _ hin)⟩

/-- The comparison of two polytypes that differ only in the identity of their
bound variables returns true, for every large enough fuel, changing at most
provisional links. -/
theorem TypeNode.equal_alpha_core (tt : TypeTable) (P Q : Ptr) (p q : TypeNode)
    (tvs rws : List Ptr)
    (hP : tt.type P = some p) (hQ : tt.type Q = some q)
    (hkind : p.kind = q.kind) (hnv : p.kind ≠ Kind.TypeVar)
    (hsize : p.elems.length = q.elems.length)
    (hnbv : p.bound_vars.length = q.bound_vars.length)
    (htv : p.bound_vars.map (TypeVar.deref tt) = tvs.map some)
    (hrw : q.bound_vars.map (TypeVar.representative tt) = rws.map (fun r => some (some r)))
    (hnd : tvs.Nodup)
    (hnb : ∀ x ∈ tvs ++ rws, (tt.type x).map (fun n => n.bounds) = some [])
    (hch : List.Forall₂ (TypeNode.alpha_child tt p.bound_vars q.bound_vars tvs)
      p.elems q.elems) :
    ∃ N, ∀ fuel, N ≤ fuel →
      ∃ tt', Generic.equal fuel tt P Q = some (true, tt') ∧ tt.frame tt' :=
  TypeNode.equal_alpha_tree_core tt P Q p q tvs rws hP hQ hkind hnv hsize hnbv htv hrw hnd hnb
    (hch.imp fun _ _ h => TypeNode.alpha_tree_of_alpha_child h)

/-- C1: alpha-equivalence of `TypeNode::equal`.  Let `P` and `Q` be unified
polytypes of the same kind with the same number of children and of bound
variables; the bound-variable handles of `P` read pairwise different type
variables `tvs`, those of `Q` are unified with the representatives `rws`, and
none of these variables carries a bound; the children of `P` and `Q` are
identical except that every occurrence of the i-th bound variable of `P`, at
any depth, is replaced by the i-th bound variable of `Q`
(`TypeNode.alpha_tree`).  Then `P.equal(Q)` returns true (for every large
enough fuel), changing at most provisional links. -/
theorem TypeNode_equal_alpha (tt : TypeTable) (P Q : Ptr) (p q : TypeNode)
    (tvs rws : List Ptr)
    (hP : tt.type P = some p) (hQ : tt.type Q = some q)
    (hkind : p.kind = q.kind) (hnv : p.kind ≠ Kind.TypeVar)
    (hsize : p.elems.length = q.elems.length)
    (hnbv : p.bound_vars.length = q.bound_vars.length)
    (htv : p.bound_vars.map (TypeVar.deref tt) = tvs.map some)
    (hrw : q.bound_vars.map (TypeVar.representative tt) = rws.map (fun r => some (some r)))
    (hnd : tvs.Nodup)
    (hnb : ∀ x ∈ tvs ++ rws, (tt.type x).map (fun n => n.bounds) = some [])
    (hch : List.Forall₂ (TypeNode.alpha_tree tt p.bound_vars q.bound_vars tvs)
      p.elems q.elems) :
    ∃ N, ∀ fuel, N ≤ fuel →
      ∃ tt', Generic.equal fuel tt P Q = some (true, tt') ∧ tt.frame tt' :=
  TypeNode.equal_alpha_tree_core tt P Q p q tvs rws hP hQ hkind hnv hsize hnbv htv hrw hnd hnb
    hch

/-- Witness for C1: `fn<A>(A, int)` against `fn<B>(B, int)` in `table_alpha`
(the second child is the identical `int`), `fn<A>(fn(A))` against
`fn<B>(fn(B))` in `table_nested` (the bound variable occurs one level down),
and `g = fn<B>(B)` against `f = fn<A>(A)` in the table reached by
`test_unification2`. -/
theorem TypeNode_equal_alpha_witness :
    (∃ N, ∀ fuel, N ≤ fuel →
      ∃ tt', Generic.equal fuel table_alpha 2 3 = some (true, tt') ∧ table_alpha.frame tt') ∧
    Generic.equal 3 table_alpha 2 3 = some (true, table_alpha) ∧
    (∃ N, ∀ fuel, N ≤ fuel →
      ∃ tt', Generic.equal fuel table_nested 4 5 = some (true, tt') ∧
        table_nested.frame tt') ∧
    Generic.equal 3 table_nested 4 5 = some (true, table_nested) ∧
    Generic.equal 3 table_unification2 3 1 = some (true, table_unification2) :=
  ⟨TypeNode_equal_alpha table_alpha 2 3
      { kind := Kind.Fn, elems := [0, 4], bound_vars := [0], representative := some 2 }
      { kind := Kind.Fn, elems := [1, 4], bound_vars := [1], representative := some 3 }
      [0] [1] (by rfl) (by rfl) (by rfl) (by decide) (by rfl) (by rfl) (by rfl) (by rfl)
      (by decide) (by decide)
      (List.Forall₂.cons (TypeNode.alpha_tree.bound 0 1 (by decide))
        (List.Forall₂.cons
          (TypeNode.alpha_tree.same 4 4 4 (by rfl) (by rfl)
            (TypeTable.well_formed.node 4 { kind := Kind.Primitive 0, representative := some 4 }
              (by rfl) (by decide) (by simp) (by simp) (by simp)))
          List.Forall₂.nil)),
   by decide,
   TypeNode_equal_alpha table_nested 4 5
      { kind := Kind.Fn, elems := [2], bound_vars := [0], representative := some 4 }
      { kind := Kind.Fn, elems := [3], bound_vars := [1], representative := some 5 }
      [0] [1] (by rfl) (by rfl) (by rfl) (by decide) (by rfl) (by rfl) (by rfl) (by rfl)
      (by decide) (by decide)
      (List.Forall₂.cons
        (TypeNode.alpha_tree.node 2 3 2 3
          { kind := Kind.Fn, elems := [0], representative := some 2 }
          { kind := Kind.Fn, elems := [1], representative := some 3 }
          (by rfl) (by rfl) (by rfl) (by rfl) (by rfl) (by decide) (by rfl) (by rfl)
          (by simp)
          (fun x y hxy => by
            have h : (x, y) = (0, 1) := by simpa using hxy
            cases h
            exact TypeNode.alpha_tree.bound 0 1 (by decide)))
        List.Forall₂.nil),
   by decide, by decide⟩

/-! ## Interning under `unify` -/

/-- C2: interning uniqueness under `unify`, on the scenario of
`test_unification2`.  With `f = fn<A>(A)` and `g = fn<B>(B)` built
independently from the distinct fresh variables `A` and `B`, after `unify(f)`
and `unify(g)` both handles have the representative `f`, and `A` and `B` have
the same representative type variable `A`; `g.equal(f)` holds.  This is so for
every fuel from 3 on. -/
theorem unify_interning_unique (k : Nat) :
    ∃ tt A f B g, test_unification2 (k + 3) = some (tt, A, f, B, g) ∧ A ≠ B ∧ f ≠ g ∧
      Proxy.representative tt f = Proxy.representative tt g ∧
      Proxy.representative tt g = some (some f) ∧
      TypeVar.representative tt A = TypeVar.representative tt B ∧
      TypeVar.representative tt B = some (some A) ∧
      Generic.equal 3 tt g f = some (true, tt) :=
  ⟨table_unification2, 0, 1, 2, 3, rfl, by decide, by decide, by decide, by decide,
    by decide, by decide, by decide⟩

/-! ## Failed and repeated `add_bound_var` -/

/-- The two renderings of `add_bound_var` agree: the call succeeds with `tt'`
exactly when it runs to its end and leaves `tt'`. -/
theorem Generic.add_bound_var_exit_eq (tt : TypeTable) (this v : Ptr) :
    Generic.add_bound_var_exit tt this v =
      match Generic.add_bound_var tt this v with
      | some tt' => (true, tt')
      | none => (false, (Generic.add_bound_var_exit tt this v).2) := by
  unfold Generic.add_bound_var_exit Generic.add_bound_var
  cases hd : TypeVar.deref tt v with
  | none => simp
  | some tv =>
    cases hc : TypeVarNode.is_closed tt tv with
    | none => simp [hc]
    | some c =>
      cases c with
      | true => simp [hc]
      | false =>
        cases hb : TypeVarNode.bind tt tv this with
        | none => simp [hc, hb]
        | some tt1 =>
          cases hn : tt1.type this with
          | none => simp [hc, hb, hn]
          | some n => simp [hc, hb, hn]

/-- A call of `add_bound_var` on a node of the table that does not succeed
ends with the table it started from. -/
theorem Generic.add_bound_var_exit_of_fail {tt : TypeTable} {N v : Ptr} {n : TypeNode}
    (hN : tt.type N = some n) (hfail : Generic.add_bound_var tt N v = none) :
    Generic.add_bound_var_exit tt N v = (false, tt) := by
  unfold Generic.add_bound_var at hfail
  unfold Generic.add_bound_var_exit
  cases hd : TypeVar.deref tt v with
  | none => rfl
  | some tv =>
    cases hc : TypeVarNode.is_closed tt tv with
    | none => simp [hc]
    | some c =>
      cases c with
      | true => simp [hc]
      | false =>
        obtain ⟨_, nv, _, hnv, _, _⟩ := TypeVar.deref_eq_some hd
        exfalso
        have h1 : ∃ n1, (tt.setType tv { nv with bound_at := some N }).type N = some n1 := by
          rw [TypeTable.type_setType _ hnv]
          by_cases hc : tv = N
          · exact ⟨{ nv with bound_at := some N }, by simp [hc]⟩
          · exact ⟨n, by simp [hc, hN]⟩
        obtain ⟨n1, h1⟩ := h1
        simp [hd, hc, TypeVarNode.bind, hnv, h1] at hfail

/-- C11: a failed `add_bound_var` is inert.  When `N.add_bound_var(v)` on a
node `N` of the table fails, the call ends with the very table it started
from: `N.bound_vars`, `v.bound_at` and every field of every other node are
what they were. -/
theorem add_bound_var_fail_inert (tt : TypeTable) (N v : Ptr) (n : TypeNode)
    (hN : tt.type N = some n) (hfail : Generic.add_bound_var tt N v = none) :
    Generic.add_bound_var_exit tt N v = (false, tt) ∧
    Generic.bound_vars (Generic.add_bound_var_exit tt N v).2 N = Generic.bound_vars tt N ∧
    TypeVar.bound_at (Generic.add_bound_var_exit tt N v).2 v = TypeVar.bound_at tt v := by
  have h := Generic.add_bound_var_exit_of_fail hN hfail
  rw [h]
  exact ⟨rfl, rfl, rfl⟩

/-- Witness for C11: in `table_double`, `g.add_bound_var(A)` fails (`A` is
bound at `f`) and leaves the table as it was. -/
theorem add_bound_var_fail_inert_witness :
    Generic.add_bound_var_exit table_double 3 0 = (false, table_double) ∧
    Generic.bound_vars (Generic.add_bound_var_exit table_double 3 0).2 3
      = Generic.bound_vars table_double 3 ∧
    TypeVar.bound_at (Generic.add_bound_var_exit table_double 3 0).2 0
      = TypeVar.bound_at table_double 0 :=
  add_bound_var_fail_inert table_double 3 0 { kind := Kind.Fn, elems := [0, 2] }
    (by rfl) (by decide)

/-! ## The single binding site invariant -/

/-- A type variable that is not unified, or is its own representative, is what
its handle reads. -/
theorem TypeVar.deref_self {tt : TypeTable} {v : Ptr} {nv : TypeNode}
    (hv : tt.type v = some nv) (hk : nv.kind = Kind.TypeVar)
    (hr : nv.representative = none ∨ nv.representative = some v) :
    TypeVar.deref tt v = some v := by
  unfold TypeVar.deref
  rcases hr with hr | hr <;> simp [hv, hr, TypeVar.as_TypeVarNode, hk]

/-- The table after a successful `N.add_bound_var(v)` on a type variable `v`
that is its own handle target: `v.bound_at` becomes `N`, `v` is appended to
`N.bound_vars`, nothing else changes. -/
theorem Generic.add_bound_var_type {tt tt' : TypeTable} {N v : Ptr} {nv : TypeNode}
    (hv : tt.type v = some nv) (hd : TypeVar.deref tt v = some v)
    (h : Generic.add_bound_var tt N v = some tt') :
    nv.bound_at = none ∧ ∀ q, tt'.type q = (tt.type q).map (fun x =>
      { x with bound_at := if q = v then some N else x.bound_at,
               bound_vars := if q = N then x.bound_vars ++ [v] else x.bound_vars }) := by
  obtain ⟨tv, nv', n1, hd', hnv', hb, h1, rfl⟩ := Generic.add_bound_var_eq_some h
  rw [hd] at hd'
  cases hd'
  rw [hv] at hnv'
  cases hnv'
  refine ⟨hb, ?_⟩
  intro q
  rw [TypeTable.type_setType _ h1]
  rw [TypeTable.type_setType _ hv] at h1
  by_cases hNq : N = q
  · subst hNq
    by_cases hvN : v = N
    · subst hvN
      simp only [if_true, Option.some.injEq] at h1
      subst h1
      simp [hv]
    · have hNv : ¬ N = v := fun e => hvN e.symm
      simp only [hvN, if_false] at h1
      simp [h1, hNv]
  · have hqN : ¬ q = N := fun e => hNq e.symm
    simp only [hNq, if_false]
    rw [TypeTable.type_setType _ hv]
    by_cases hvq : v = q
    · subst hvq
      simp [hv, hqN]
    · have hqv : ¬ q = v := fun e => hvq e.symm
      simp only [hvq, if_false]
      cases tt.type q with
      | none => rfl
      | some x => simp [hqN, hqv]

/-- A successful `add_bound_var` on a type variable keeps the single binding
site invariant. -/
theorem Generic.add_bound_var_keeps_invariant {tt tt' : TypeTable} {N v : Ptr}
    {nv : TypeNode} (hinv : tt.single_binding_site)
    (hv : tt.type v = some nv) (hk : nv.kind = Kind.TypeVar)
    (h : Generic.add_bound_var tt N v = some tt') : tt'.single_binding_site := by
  obtain ⟨hnd, hiff, hself⟩ := hinv
  have hd := TypeVar.deref_self hv hk (hself v nv hv hk)
  obtain ⟨hb, hty⟩ := Generic.add_bound_var_type hv hd h
  have hnot : ∀ M m, tt.type M = some m → v ∉ m.bound_vars := by
    intro M m hM hc
    obtain ⟨nv', hnv', hb'⟩ := (hiff M m v hM).mp hc
    rw [hv] at hnv'
    cases hnv'
    rw [hb] at hb'
    cases hb'
  refine ⟨?_, ?_, ?_⟩
  · intro M m' hM
    rw [hty M] at hM
    cases hm : tt.type M with
    | none => simp [hm] at hM
    | some m =>
      simp only [hm, Option.map_some', Option.some.injEq] at hM
      subst hM
      by_cases hMN : M = N
      · simp only [hMN, if_true]
        rw [List.nodup_append]
        refine ⟨hnd M m hm, List.nodup_singleton v, ?_⟩
        intro a ha hb'
        rw [List.mem_singleton] at hb'
        subst hb'
        exact hnot M m hm ha
      · simp only [hMN, if_false]
        exact hnd M m hm
  · intro M m' w hM
    rw [hty M] at hM
    cases hm : tt.type M with
    | none => simp [hm] at hM
    | some m =>
      simp only [hm, Option.map_some', Option.some.injEq] at hM
      subst hM
      rw [hty w]
      by_cases hwv : w = v
      · subst hwv
        by_cases hMN : M = N
        · subst hMN
          simp [hv]
        · have hNM : ¬ N = M := fun e => hMN e.symm
          simp [hv, hMN, hNM, hnot M m hm]
      · have e1 : (w ∈ (if M = N then m.bound_vars ++ [v] else m.bound_vars)) ↔
            w ∈ m.bound_vars := by
          by_cases hMN : M = N <;> simp [hMN, hwv]
        simp only [e1, hiff M m w hm]
        cases tt.type w with
        | none => simp
        | some nw => simp [hwv]
  · intro p n' hp hk'
    rw [hty p] at hp
    cases hm : tt.type p with
    | none => simp [hm] at hp
    | some m =>
      simp only [hm, Option.map_some', Option.some.injEq] at hp
      subst hp
      exact hself p m hm hk'

/-- The single binding site invariant holds in every table reached from a table
with no bound variables. -/
theorem Generic.reachable_invariant {tt0 tt : TypeTable} (h0 : tt0.no_bound_vars)
    (h : Generic.reachable tt0 tt) : tt.single_binding_site := by
  induction h with
  | start =>
    refine ⟨?_, ?_, ?_⟩
    · intro N n hN
      rw [(h0 N n hN).1]
      exact List.nodup_nil
    · intro N n v hN
      rw [(h0 N n hN).1]
      constructor
      · intro hc
        cases hc
      · rintro ⟨nv, hnv, hb⟩
        rw [(h0 v nv hnv).2.1] at hb
        cases hb
    · intro p n hp hk
      exact (h0 p n hp).2.2 hk
  | call tt N v n nv _ hN hv hk ih =>
    cases hs : Generic.add_bound_var tt N v with
    | none =>
      rw [Generic.add_bound_var_exit_of_fail hN hs]
      exact ih
    | some tt' =>
      have e := Generic.add_bound_var_exit_eq tt N v
      rw [hs] at e
      rw [e]
      exact Generic.add_bound_var_keeps_invariant ih hv hk hs

/-- C12: single binding site invariant.  In every table reached from a table
with no bound variables by calls of `add_bound_var` (successful or failed), a
type variable is listed in `N.bound_vars` exactly when its `bound_at` is `N`,
it is listed at most once there, and it is listed in the `bound_vars` of at
most one node. -/
theorem add_bound_var_single_binding_site (tt0 tt : TypeTable)
    (h0 : tt0.no_bound_vars) (h : Generic.reachable tt0 tt) :
    (∀ N n v, tt.type N = some n →
      (v ∈ n.bound_vars ↔ ∃ nv, tt.type v = some nv ∧ nv.bound_at = some N)) ∧
    (∀ N n, tt.type N = some n → n.bound_vars.Nodup) ∧
    (∀ N M n m v, tt.type N = some n → tt.type M = some m →
      v ∈ n.bound_vars → v ∈ m.bound_vars → N = M) := by
  obtain ⟨hnd, hiff, _⟩ := Generic.reachable_invariant h0 h
  refine ⟨hiff, hnd, ?_⟩
  intro N M n m v hN hM hvn hvm
  obtain ⟨nv, hnv, hb⟩ := (hiff N n v hN).mp hvn
  obtain ⟨nv', hnv', hb'⟩ := (hiff M m v hM).mp hvm
  rw [hnv] at hnv'
  cases hnv'
  rw [hb] at hb'
  exact Option.some.inj hb'

theorem table_unbound_no_bound_vars : table_unbound.no_bound_vars := by
  intro p n h
  rcases p with _ | _ | _ | p
  · simp only [TypeTable.type, table_unbound, List.getElem?_cons_zero, Option.some.injEq] at h
    subst h
    simp
  · simp only [TypeTable.type, table_unbound, List.getElem?_cons_succ, List.getElem?_cons_zero,
      Option.some.injEq] at h
    subst h
    simp
  · simp only [TypeTable.type, table_unbound, List.getElem?_cons_succ, List.getElem?_cons_zero,
      Option.some.injEq] at h
    subst h
    simp
  · simp [TypeTable.type, table_unbound] at h

/-- Witness for C12: from `table_unbound`, `fn(A, B)` binds `A`, fails to bind
`A` a second time, and the invariant holds in the table reached. -/
theorem add_bound_var_single_binding_site_witness :
    (∀ N n v,
      (Generic.add_bound_var_exit (Generic.add_bound_var_exit table_unbound 2 0).2 2 0).2.type N
        = some n →
      (v ∈ n.bound_vars ↔ ∃ nv,
        (Generic.add_bound_var_exit (Generic.add_bound_var_exit table_unbound 2 0).2 2 0).2.type v
          = some nv ∧ nv.bound_at = some N)) ∧
    (∀ N n,
      (Generic.add_bound_var_exit (Generic.add_bound_var_exit table_unbound 2 0).2 2 0).2.type N
        = some n → n.bound_vars.Nodup) ∧
    (∀ N M n m v,
      (Generic.add_bound_var_exit (Generic.add_bound_var_exit table_unbound 2 0).2 2 0).2.type N
        = some n →
      (Generic.add_bound_var_exit (Generic.add_bound_var_exit table_unbound 2 0).2 2 0).2.type M
        = some m →
      v ∈ n.bound_vars → v ∈ m.bound_vars → N = M) :=
  add_bound_var_single_binding_site table_unbound _ table_unbound_no_bound_vars
    (Generic.reachable.call _ 2 0
      { kind := Kind.Fn, elems := [0, 1], bound_vars := [0] }
      { kind := Kind.TypeVar, bound_at := some 2 }
      (Generic.reachable.call _ 2 0 { kind := Kind.Fn, elems := [0, 1] } { kind := Kind.TypeVar }
        Generic.reachable.start (by rfl) (by rfl) (by rfl))
      (by rfl) (by rfl) (by rfl))

/-! ## Instantiation -/

/-- C13: instantiation arity check.  `N.instantiate(map)` goes through
`Generic::ginstantiate`, which fails when `map.size` differs from
`N.num_bound_vars` and otherwise returns exactly what `N.vspecialize(map)`
returns (for `instantiate`: when that is a node of the table). -/
theorem instantiate_arity_check
    (vspecialize : TypeTable → Ptr → SpecializeMapping → Option Specialized)
    (tt : TypeTable) (N : Ptr) (map : SpecializeMapping) (n : TypeNode)
    (hN : tt.type N = some n) :
    (map.length ≠ n.bound_vars.length →
      Generic.ginstantiate vspecialize tt N map = none ∧
      Generic.instantiate vspecialize tt N map = none) ∧
    (map.length = n.bound_vars.length →
      Generic.ginstantiate vspecialize tt N map = vspecialize tt N map ∧
      ∀ t tt1 m1 nt, vspecialize tt N map = some (t, tt1, m1) → tt1.type t = some nt →
        Generic.instantiate vspecialize tt N map = some (t, tt1, m1)) := by
  constructor
  · intro hne
    have h : Generic.ginstantiate vspecialize tt N map = none := by
      simp [Generic.ginstantiate, hN, hne]
    exact ⟨h, by simp [Generic.instantiate, h]⟩
  · intro he
    have h : Generic.ginstantiate vspecialize tt N map = vspecialize tt N map := by
      simp [Generic.ginstantiate, hN, he]
    refine ⟨h, ?_⟩
    intro t tt1 m1 nt hv ht
    simp [Generic.instantiate, h, hv, ht]

/-- Witness for C13: in `table_alpha`, `fn<A>(A, int)` is instantiated with a
mapping of one entry, and refused with the empty mapping. -/
theorem instantiate_arity_check_witness :
    (([] : SpecializeMapping).length ≠ [(0 : Ptr)].length →
      Generic.ginstantiate (TypeNode.vspecialize (Generic.specialize 3)) table_alpha 2 [] = none ∧
      Generic.instantiate (TypeNode.vspecialize (Generic.specialize 3)) table_alpha 2 [] = none) ∧
    Generic.ginstantiate (TypeNode.vspecialize (Generic.specialize 3)) table_alpha 2 [(0, 4)]
      = TypeNode.vspecialize (Generic.specialize 3) table_alpha 2 [(0, 4)] :=
  ⟨(instantiate_arity_check (TypeNode.vspecialize (Generic.specialize 3)) table_alpha 2 []
      { kind := Kind.Fn, elems := [0, 4], bound_vars := [0], representative := some 2 }
      (by rfl)).1,
   ((instantiate_arity_check (TypeNode.vspecialize (Generic.specialize 3)) table_alpha 2 [(0, 4)]
      { kind := Kind.Fn, elems := [0, 4], bound_vars := [0], representative := some 2 }
      (by rfl)).2 (by rfl)).1⟩

/-- Counterexample to C14: in `table_alpha`, `fn<A>(A, int)` instantiated with
`A ↦ int` returns the fresh node `fn(int, int)` at address 5, which has no
representative when `instantiate` returns. -/
theorem instantiate_unified_counterexample :
    Generic.bound_vars table_alpha 2 = some [0] ∧
    ∃ tt' m', Generic.instantiate (TypeNode.vspecialize (Generic.specialize 3))
        table_alpha 2 [(0, 4)] = some (5, tt', m') ∧
      Proxy.representative tt' 5 = some none := by
  refine ⟨by decide, _, _, rfl, by decide⟩

/-- C14 (amended): `instantiate` does not unify.  For every composite node `N`
and every mapping with `map.size = N.num_bound_vars`, once the children are
specialized, `N.instantiate(map)` returns the fresh node made by `vspecialize`,
and this node has no representative when `instantiate` returns. -/
theorem instantiate_not_unified
    (specialize : TypeTable → Ptr → SpecializeMapping → Option Specialized)
    (tt tt1 : TypeTable) (N : Ptr) (map m1 : SpecializeMapping) (n : TypeNode)
    (xs : List Ptr)
    (hN : tt.type N = some n) (hcomp : n.elems ≠ [])
    (hsize : map.length = n.bound_vars.length)
    (hel : TypeNode.specialize_elems specialize tt map n.elems = some (xs, tt1, m1)) :
    Generic.instantiate (TypeNode.vspecialize specialize) tt N map =
      some (tt1.types.length,
        { tt1 with types := tt1.types ++ [{ kind := n.kind, elems := xs }] }, m1) ∧
    Proxy.representative
      { tt1 with types := tt1.types ++ [{ kind := n.kind, elems := xs }] }
      tt1.types.length = some none := by
  have hr : Proxy.representative
      { tt1 with types := tt1.types ++ [{ kind := n.kind, elems := xs }] }
      tt1.types.length = some none := by
    simp [Proxy.representative, TypeTable.type]
  refine ⟨?_, hr⟩
  have hv : TypeNode.vspecialize specialize tt N map =
      some (tt1.types.length,
        { tt1 with types := tt1.types ++ [{ kind := n.kind, elems := xs }] }, m1) := by
    simp [TypeNode.vspecialize, hN, hcomp, hel]
  have ht : ({ tt1 with types := tt1.types ++ [{ kind := n.kind, elems := xs }] } :
      TypeTable).type tt1.types.length = some { kind := n.kind, elems := xs } := by
    simp [TypeTable.type]
  simp [Generic.instantiate, Generic.ginstantiate, hN, hsize, hv, ht]

/-- Witness for C14 (amended): `fn<A>(A, int)` of `table_alpha` instantiated
with `A ↦ int`. -/
theorem instantiate_not_unified_witness :
    Generic.instantiate (TypeNode.vspecialize (Generic.specialize 3)) table_alpha 2 [(0, 4)] =
      some (5, { table_alpha with
        types := table_alpha.types ++ [{ kind := Kind.Fn, elems := [4, 4] }] }, [(0, 4)]) ∧
    Proxy.representative
      { table_alpha with types := table_alpha.types ++ [{ kind := Kind.Fn, elems := [4, 4] }] }
      5 = some none :=
  instantiate_not_unified (Generic.specialize 3) table_alpha table_alpha 2 [(0, 4)] [(0, 4)]
    { kind := Kind.Fn, elems := [0, 4], bound_vars := [0], representative := some 2 }
    [4, 4] (by rfl) (by decide) (by rfl) (by rfl)

/-! ## Memoization of `gspecialize` -/

/-- C19: specialization is memoized through the mapping.  When the mapping has
an entry for `N`, `N.specialize(map)` returns that entry and leaves the table
and the mapping as they are, whatever `clone` and `vspecialize` would do:
neither they nor `add_bound_var` are called. -/
theorem gspecialize_memoized
    (clone : TypeTable → Ptr → SpecializeMapping → Option (TypeTable × SpecializeMapping))
    (vspecialize : TypeTable → Ptr → SpecializeMapping → Option Specialized)
    (tt : TypeTable) (N x : Ptr) (map : SpecializeMapping)
    (h : map.find N = some x) :
    Generic.gspecialize clone vspecialize tt N map = some (x, tt, map) ∧
    Generic.gspecialize (fun _ _ _ => none) (fun _ _ _ => none) tt N map = some (x, tt, map) := by
  constructor <;> simp [Generic.gspecialize, h]

/-- Witness for C19: with `A ↦ int` in the mapping, specializing `A` in
`table_alpha` returns `int`. -/
theorem gspecialize_memoized_witness :
    Generic.gspecialize TypeVarNode.clone (TypeNode.vspecialize (Generic.specialize 3))
        table_alpha 0 [(0, 4)] = some (4, table_alpha, [(0, 4)]) ∧
    Generic.gspecialize (fun _ _ _ => none) (fun _ _ _ => none) table_alpha 0 [(0, 4)]
      = some (4, table_alpha, [(0, 4)]) :=
  gspecialize_memoized TypeVarNode.clone (TypeNode.vspecialize (Generic.specialize 3))
    table_alpha 0 4 [(0, 4)] (by rfl)

/-! ## The hash of a trait instance -/

/-- Counterexample to C17: in `table_traits`, `S<int>` and `S<bool>` differ in
their actual but have the same hash, whatever the hash of traits is. -/
theorem TraitInstanceNode_hash_counterexample :
    (table_traits.inst 0).map (fun n => n.var_instances) = some [0] ∧
    (table_traits.inst 3).map (fun n => n.var_instances) = some [1] ∧
    ∀ trait_hash : Ptr → Nat,
      TraitInstanceNode.hash trait_hash table_traits 0 =
        TraitInstanceNode.hash trait_hash table_traits 3 := by
  refine ⟨by rfl, by rfl, ?_⟩
  intro trait_hash
  rfl

/-- C17 (amended): the hash of a trait instance is the hash of its trait alone;
the actual type arguments do not enter it, so two instances of the same trait
have the same hash whatever their actuals. -/
theorem TraitInstanceNode_hash_trait_only (trait_hash : Ptr → Nat) (tt : TypeTable)
    (a b : Ptr) (ta tb : TraitInstanceNode)
    (ha : tt.inst a = some ta) (hb : tt.inst b = some tb) (ht : ta.trait = tb.trait) :
    TraitInstanceNode.hash trait_hash tt a = some (trait_hash ta.trait) ∧
    TraitInstanceNode.hash trait_hash tt a = TraitInstanceNode.hash trait_hash tt b := by
  simp [TraitInstanceNode.hash, ha, hb, ht]

/-- Witness for C17 (amended): `S<int>` and `S<bool>` of `table_traits`, with
the identity as hash of traits. -/
theorem TraitInstanceNode_hash_trait_only_witness :
    TraitInstanceNode.hash (fun t => t) table_traits 0 = some 0 ∧
    TraitInstanceNode.hash (fun t => t) table_traits 0 =
      TraitInstanceNode.hash (fun t => t) table_traits 3 :=
  TraitInstanceNode_hash_trait_only (fun t => t) table_traits 0 3
    { trait := 0, var_instances := [0], representative := some 0 }
    { trait := 0, var_instances := [1], representative := some 3 }
    (by rfl) (by rfl) (by rfl)

/-! ## Rigidity of free type variables inside function types -/

/-- Counterexample to C15: for the distinct free variables `A` and `B`,
`fn(A).equal(fn(B))` returns false, in `table_rigid` (everything unified) and
in `table_rigid_fresh` (nothing unified, the null representative of `B` is
passed to `A.equal`). -/
theorem fntype_free_equal_counterexample :
    TypeVar.bound_at table_rigid 0 = some none ∧
    TypeVar.bound_at table_rigid 1 = some none ∧
    Generic.equal 3 table_rigid 2 3 = some (false, table_rigid) ∧
    TypeVar.bound_at table_rigid_fresh 0 = some none ∧
    TypeVar.bound_at table_rigid_fresh 1 = some none ∧
    Generic.equal 3 table_rigid_fresh 2 3 = some (false, table_rigid_fresh) := by
  refine ⟨by decide, by decide, by decide, by decide, by decide, by decide⟩

/-- C15 (amended): free type variables stay rigid inside function types.  For
`f = fntype([A])` and `g = fntype([B])` over distinct free type variables with
no provisional link, `f.equal(g)` returns false before any binding and leaves
the table as it is, when `B` is unified and also when it is not (the null
representative of `B` is then passed to `A.equal`, which returns false). -/
theorem fntype_free_vars_unequal (tt : TypeTable) (f g a b ta : Ptr)
    (nf ng na : TypeNode)
    (hf : tt.type f = some nf) (hg : tt.type g = some ng)
    (hfk : nf.kind = Kind.Fn) (hgk : ng.kind = Kind.Fn)
    (hfe : nf.elems = [a]) (hge : ng.elems = [b])
    (hfb : nf.bound_vars = []) (hgb : ng.bound_vars = [])
    (hda : Proxy.deref tt a = some ta) (hta : tt.type ta = some na)
    (hna : na.kind = Kind.TypeVar) (hfree : na.bound_at = none)
    (hea : na.equiv_var = none) :
    (∀ rb nb, Proxy.representative tt b = some (some rb) → ta ≠ rb →
      tt.type rb = some nb → nb.kind = Kind.TypeVar → nb.equiv_var = none →
      ∀ fuel, Generic.equal (fuel + 2) tt f g = some (false, tt)) ∧
    (Proxy.representative tt b = some none →
      ∀ fuel, Generic.equal (fuel + 1) tt f g = some (false, tt)) := by
  have hkf : ¬ nf.kind = Kind.TypeVar := by rw [hfk]; decide
  constructor
  · intro rb nb hrb hne htb hnbk heb fuel
    have hch : Generic.equal (fuel + 1) tt ta rb = some (false, tt) := by
      unfold Generic.equal
      simp only [hta, hna, if_true]
      unfold TypeVarNode.equal
      simp [hne, hta, htb, hnbk, hea, heb, hfree]
    unfold Generic.equal
    simp only [hf, hkf, if_false]
    unfold TypeNode.equal
    simp [hf, hg, hfk, hgk, hfe, hge, hfb, hgb, TypeNode.set_equiv_variables,
      TypeNode.bounds_equal_all, TypeNode.elems_equal, hda, hrb, hch,
      TypeNode.unset_equiv_variables]
  · intro hrb fuel
    unfold Generic.equal
    simp only [hf, hkf, if_false]
    unfold TypeNode.equal
    simp [hf, hg, hfk, hgk, hfe, hge, hfb, hgb, TypeNode.set_equiv_variables,
      TypeNode.bounds_equal_all, TypeNode.elems_equal, hda, hrb, Generic.equal_null, hta,
      hna, TypeNode.unset_equiv_variables]

/-- Witness for C15 (amended): `fn(A)` against `fn(B)` in `table_rigid`, where
`B` is unified, and in `table_rigid_fresh`, where it is not. -/
theorem fntype_free_vars_unequal_witness :
    Proxy.representative table_rigid 1 = some (some 1) ∧
    Generic.equal 2 table_rigid 2 3 = some (false, table_rigid) ∧
    Proxy.representative table_rigid_fresh 1 = some none ∧
    Generic.equal 1 table_rigid_fresh 2 3 = some (false, table_rigid_fresh) :=
  ⟨by rfl,
   (fntype_free_vars_unequal table_rigid 2 3 0 1 0
      { kind := Kind.Fn, elems := [0], representative := some 2 }
      { kind := Kind.Fn, elems := [1], representative := some 3 }
      { kind := Kind.TypeVar, representative := some 0 }
      (by rfl) (by rfl) (by rfl) (by rfl) (by rfl) (by rfl) (by rfl) (by rfl) (by rfl)
      (by rfl) (by rfl) (by rfl) (by rfl)).1 1 { kind := Kind.TypeVar, representative := some 1 }
      (by rfl) (by decide) (by rfl) (by rfl) (by rfl) 0,
   by rfl,
   (fntype_free_vars_unequal table_rigid_fresh 2 3 0 1 0
      { kind := Kind.Fn, elems := [0] }
      { kind := Kind.Fn, elems := [1] }
      { kind := Kind.TypeVar }
      (by rfl) (by rfl) (by rfl) (by rfl) (by rfl) (by rfl) (by rfl) (by rfl) (by rfl)
      (by rfl) (by rfl) (by rfl) (by rfl)).2 (by rfl) 0⟩

/-! ## The order of the binders -/

/-- The comparison of a type variable whose provisional link points elsewhere
with another type variable that is not linked back: false, table untouched. -/
theorem TypeVarNode.equal_of_equiv_var_ne {tt : TypeTable} {tv rw x : Ptr} {n m : TypeNode}
    (hn : tt.type tv = some n) (hk : n.kind = Kind.TypeVar) (he : n.equiv_var = some x)
    (hx : x ≠ rw) (hne : tv ≠ rw)
    (hm : tt.type rw = some m) (hmk : m.kind = Kind.TypeVar) (hme : m.equiv_var ≠ some tv)
    (f : Nat) :
    Generic.equal (f + 1) tt tv rw = some (false, tt) := by
  unfold Generic.equal
  simp only [hn, hk, if_true]
  unfold TypeVarNode.equal
  simp [hne, hn, hm, hmk, he, hx, hme]

/-- The comparison of `P = fn<A, B>(A, B)` with a node over `(C, D)` whose
binders are listed `D` then `C` returns false at the first child. -/
theorem TypeNode.equal_swapped_binders (tt : TypeTable) (P Q' a b c d ra rb rc rd : Ptr)
    (p q' : TypeNode) (nc : TypeNode)
    (hP : tt.type P = some p) (hQ' : tt.type Q' = some q')
    (hpk : p.kind ≠ Kind.TypeVar) (hkq' : p.kind = q'.kind)
    (hpe : p.elems = [a, b]) (hpb : p.bound_vars = [a, b])
    (hqe' : q'.elems = [c, d]) (hqb' : q'.bound_vars = [d, c])
    (hra : TypeVar.representative tt a = some (some ra))
    (hrb : TypeVar.representative tt b = some (some rb))
    (hrc : TypeVar.representative tt c = some (some rc))
    (hrd : TypeVar.representative tt d = some (some rd))
    (hnd : [ra, rb, rc, rd].Nodup)
    (hnb : ∀ x ∈ [ra, rb, rc, rd], (tt.type x).map (fun n => n.bounds) = some [])
    (hnc : tt.type rc = some nc) (hce : nc.equiv_var = none) (f : Nat) :
    ∃ tt', Generic.equal (f + 2) tt P Q' = some (false, tt') := by
  obtain ⟨hda, _, na0, hna0, hnak⟩ := TypeVar.deref_of_representative hra
  obtain ⟨hdb, _, _, _, _⟩ := TypeVar.deref_of_representative hrb
  obtain ⟨hdc, hpc, nc0, hnc0, hnck⟩ := TypeVar.deref_of_representative hrc
  obtain ⟨hdd, _, _, _, _⟩ := TypeVar.deref_of_representative hrd
  simp only [List.nodup_cons, List.mem_cons, List.mem_singleton, not_or, List.not_mem_nil,
    not_false_eq_true, List.nodup_nil, and_true] at hnd
  obtain ⟨⟨hab, hac, had⟩, ⟨hbc, hbd⟩, hcd⟩ := hnd
  rw [hnc] at hnc0
  cases hnc0
  -- the first loop
  obtain ⟨tt1, hset⟩ := TypeNode.set_equiv_variables_ok [a, b] [d, c] tt rfl
    (by
      intro v hv
      simp only [List.mem_cons, List.mem_singleton, List.not_mem_nil, or_false] at hv
      rcases hv with rfl | rfl
      · exact ⟨ra, hda⟩
      · exact ⟨rb, hdb⟩)
    (by
      intro w hw
      simp only [List.mem_cons, List.mem_singleton, List.not_mem_nil, or_false] at hw
      rcases hw with rfl | rfl
      · exact ⟨_, hrd⟩
      · exact ⟨_, hrc⟩)
  obtain ⟨hsk, hfr⟩ := TypeNode.set_equiv_variables_frame _ _ _ _ hset
  have hndm : (([a, b] : List Ptr).map (TypeVar.deref tt)).Nodup := by
    simp [hda, hdb, hab]
  obtain ⟨n1, hn1, hn1e⟩ := TypeNode.set_equiv_variables_value _ _ _ _ hset hndm a d
    (by simp) ra (some rd) hda hrd
  have hn1k : n1.kind = Kind.TypeVar := by
    obtain ⟨e, he⟩ := TypeTable.type_of_skel hsk hna0
    rw [hn1] at he
    cases he
    exact hnak
  have hc1 : tt1.type rc = some nc := by
    rw [hfr rc]
    · exact hnc
    · intro v hv hc
      simp only [List.mem_cons, List.mem_singleton, List.not_mem_nil, or_false] at hv
      rcases hv with rfl | rfl
      · rw [hda] at hc
        exact hac (Option.some.inj hc)
      · rw [hdb] at hc
        exact hbc (Option.some.inj hc)
  have hcall := TypeVarNode.equal_of_equiv_var_ne hn1 hn1k hn1e (Ne.symm hcd) hac hc1 hnck
    (by rw [hce]; simp) f
  -- the second loop
  have hbounds : TypeNode.bounds_equal_all tt1 [a, b] [d, c] = some true := by
    rw [TypeNode.bounds_equal_all_congr hsk]
    apply TypeNode.bounds_equal_all_no_bounds [a, b] [d, c] (by rfl)
    · intro v hv
      simp only [List.mem_cons, List.mem_singleton, List.not_mem_nil, or_false] at hv
      rcases hv with rfl | rfl
      · exact ⟨ra, hda, hnb ra (by simp)⟩
      · exact ⟨rb, hdb, hnb rb (by simp)⟩
    · intro w hw
      simp only [List.mem_cons, List.mem_singleton, List.not_mem_nil, or_false] at hw
      rcases hw with rfl | rfl
      · exact ⟨rd, hdd, hnb rd (by simp)⟩
      · exact ⟨rc, hdc, hnb rc (by simp)⟩
  -- the third loop stops at the first child
  have hlink := TypeTable.link_of_skel hsk
  have hel : TypeNode.elems_equal (Generic.equal (f + 1)) tt1 [a, b] [c, d] =
      some (false, tt1) := by
    have h1 : Proxy.deref tt1 a = some ra := by
      rw [Proxy.type_deref_congr hlink]
      exact Proxy.deref_of_typevar_deref hda
    have h2 : Proxy.representative tt1 c = some (some rc) := by
      rw [Proxy.type_representative_congr hlink]
      exact hpc
    simp [TypeNode.elems_equal, h1, h2, hcall]
  -- the last loop
  obtain ⟨tt3, hun⟩ := TypeNode.unset_equiv_variables_ok [a, b] tt1
    (by
      intro v hv
      simp only [List.mem_cons, List.mem_singleton, List.not_mem_nil, or_false] at hv
      rcases hv with rfl | rfl
      · exact ⟨ra, by rw [TypeVar.deref_congr hlink]; exact hda⟩
      · exact ⟨rb, by rw [TypeVar.deref_congr hlink]; exact hdb⟩)
  refine ⟨tt3, ?_⟩
  unfold Generic.equal
  simp only [hP, hpk, if_false]
  unfold TypeNode.equal
  simp [hP, hQ', hkq', hpe, hpb, hqe', hqb', hset, hbounds, hel, hun]

/-- Counterexample to C16: in `table_binders`, `P = fn<A, B>(A, B)` equals
`Q = fn<C, D>(C, D)` but not `Q'`, which is `Q` with the binders in the order
`D`, `C`. -/
theorem binder_order_counterexample :
    Generic.bound_vars table_binders 5 = some [2, 3] ∧
    Generic.bound_vars table_binders 6 = some [3, 2] ∧
    (table_binders.type 5).map (fun n => (n.kind, n.elems)) =
      (table_binders.type 6).map (fun n => (n.kind, n.elems)) ∧
    Generic.equal 3 table_binders 4 5 = some (true, table_binders) ∧
    Generic.equal 3 table_binders 4 6 = some (false, table_binders) := by
  refine ⟨by decide, by decide, by decide, by decide, by decide⟩

/-- C16 (amended): the order of the binders matters for equality, bound
variables are paired by position.  For `P` over the children `(A, B)` with the
binders `A, B`, and nodes `Q`, `Q'` over the children `(C, D)` (four unified
variables with different representatives and no bounds): `P.equal(Q)` returns
true when the binders of `Q` are `C, D`, and `P.equal(Q')` returns false when
the binders of `Q'` are `D, C`. -/
theorem binder_order_matters (tt : TypeTable) (P Q Q' a b c d ra rb rc rd : Ptr)
    (p q q' nc : TypeNode)
    (hP : tt.type P = some p) (hQ : tt.type Q = some q) (hQ' : tt.type Q' = some q')
    (hpk : p.kind ≠ Kind.TypeVar) (hkq : p.kind = q.kind) (hkq' : p.kind = q'.kind)
    (hpe : p.elems = [a, b]) (hpb : p.bound_vars = [a, b])
    (hqe : q.elems = [c, d]) (hqb : q.bound_vars = [c, d])
    (hqe' : q'.elems = [c, d]) (hqb' : q'.bound_vars = [d, c])
    (hra : TypeVar.representative tt a = some (some ra))
    (hrb : TypeVar.representative tt b = some (some rb))
    (hrc : TypeVar.representative tt c = some (some rc))
    (hrd : TypeVar.representative tt d = some (some rd))
    (hnd : [ra, rb, rc, rd].Nodup)
    (hnb : ∀ x ∈ [ra, rb, rc, rd], (tt.type x).map (fun n => n.bounds) = some [])
    (hnc : tt.type rc = some nc) (hce : nc.equiv_var = none) :
    ∃ N, ∀ fuel, N ≤ fuel →
      (∃ tt', Generic.equal fuel tt P Q = some (true, tt')) ∧
      (∃ tt', Generic.equal fuel tt P Q' = some (false, tt')) := by
  have hda := (TypeVar.deref_of_representative hra).1
  have hdb := (TypeVar.deref_of_representative hrb).1
  have hab : ra ≠ rb := by
    intro e
    simp [e] at hnd
  obtain ⟨N, hN⟩ := TypeNode.equal_alpha_core tt P Q p q [ra, rb] [rc, rd] hP hQ hkq hpk
    (by rw [hpe, hqe]; rfl) (by rw [hpb, hqb]; rfl)
    (by rw [hpb]; simp [hda, hdb])
    (by rw [hqb]; simp [hrc, hrd])
    (by simp [hab])
    (by
      intro x hx
      apply hnb x
      simp only [List.cons_append, List.nil_append] at hx
      exact hx)
    (by
      rw [hpe, hqe, hpb, hqb]
      exact List.Forall₂.cons (Or.inl (by simp))
        (List.Forall₂.cons (Or.inl (by simp)) List.Forall₂.nil))
  refine ⟨max N 2, ?_⟩
  intro fuel hf
  obtain ⟨tt', h1, _⟩ := hN fuel (le_trans (le_max_left _ _) hf)
  refine ⟨⟨tt', h1⟩, ?_⟩
  obtain ⟨f, rfl⟩ : ∃ f, fuel = f + 2 := ⟨fuel - 2, by
    have := le_trans (le_max_right N 2) hf
    omega⟩
  exact TypeNode.equal_swapped_binders tt P Q' a b c d ra rb rc rd p q' nc hP hQ' hpk hkq'
    hpe hpb hqe' hqb' hra hrb hrc hrd hnd hnb hnc hce f

/-- Witness for C16 (amended): `P`, `Q` and `Q'` of `table_binders`. -/
theorem binder_order_matters_witness :
    ∃ N, ∀ fuel, N ≤ fuel →
      (∃ tt', Generic.equal fuel table_binders 4 5 = some (true, tt')) ∧
      (∃ tt', Generic.equal fuel table_binders 4 6 = some (false, tt')) :=
  binder_order_matters table_binders 4 5 6 0 1 2 3 0 1 2 3
    { kind := Kind.Fn, elems := [0, 1], bound_vars := [0, 1] }
    { kind := Kind.Fn, elems := [2, 3], bound_vars := [2, 3] }
    { kind := Kind.Fn, elems := [2, 3], bound_vars := [3, 2] }
    { kind := Kind.TypeVar, representative := some 2, bound_at := some 5 }
    (by rfl) (by rfl) (by rfl) (by decide) (by rfl) (by rfl) (by rfl) (by rfl) (by rfl)
    (by rfl) (by rfl) (by rfl) (by rfl) (by rfl) (by rfl) (by rfl) (by decide) (by decide)
    (by rfl) (by rfl)

/-! ## `verify_instantiation` -/

/-- The loop over the bounds of one variable succeeds exactly when every bound
is implemented, and keeps the invariant of the collaborators. -/
theorem Generic.verify_bounds_iff
    {specialize : TypeTable → Ptr → SpecializeMapping → Option Specialized}
    {unify : TypeTable → Ptr → Option TypeTable}
    {implements : TypeTable → Ptr → Ptr → Option Bool}
    {map : SpecializeMapping} {ok : Ptr → Ptr → Bool} {Inv : TypeTable → Prop}
    (hstep : ∀ tt inst T, Inv tt → ∃ sb tt1 m1 tt2, specialize tt T map = some (sb, tt1, m1) ∧
      unify tt1 sb = some tt2 ∧ implements tt2 inst sb = some (ok inst T) ∧ Inv tt2)
    (inst : Ptr) :
    ∀ (bs : List Ptr) (tt : TypeTable), Inv tt →
      ((∀ T ∈ bs, ok inst T = true) →
        ∃ tt', Generic.verify_bounds specialize unify implements map inst tt bs = some tt' ∧
          Inv tt') ∧
      (∀ tt', Generic.verify_bounds specialize unify implements map inst tt bs = some tt' →
        ∀ T ∈ bs, ok inst T = true) := by
  intro bs
  induction bs with
  | nil =>
    intro tt hi
    exact ⟨fun _ => ⟨tt, by simp [Generic.verify_bounds], hi⟩, fun _ _ T hT => by simp at hT⟩
  | cons T bs ih =>
    intro tt hi
    obtain ⟨sb, tt1, m1, tt2, h1, h2, h3, hi2⟩ := hstep tt inst T hi
    obtain ⟨ih1, ih2⟩ := ih tt2 hi2
    constructor
    · intro hall
      obtain ⟨tt', h', hi'⟩ := ih1 (fun T' hT' => hall T' (List.mem_cons_of_mem _ hT'))
      refine ⟨tt', ?_, hi'⟩
      have hT := hall T (List.mem_cons_self _ _)
      simp [Generic.verify_bounds, h1, h2, h3, hT, h']
    · intro tt' h T' hT'
      simp only [Generic.verify_bounds, h1, h2, h3] at h
      cases hok : ok inst T with
      | false => simp [hok] at h
      | true =>
        simp only [hok] at h
        rcases List.mem_cons.mp hT' with rfl | hT'
        · exact hok
        · exact ih2 tt' h T' hT'

/-- The loop over the bound variables succeeds exactly when every bound
variable has an entry whose type implements all of its bounds. -/
theorem Generic.verify_bound_vars_iff
    {specialize : TypeTable → Ptr → SpecializeMapping → Option Specialized}
    {unify : TypeTable → Ptr → Option TypeTable}
    {implements : TypeTable → Ptr → Ptr → Option Bool}
    {map : SpecializeMapping} {ok : Ptr → Ptr → Bool} {Inv : TypeTable → Prop}
    {tt0 : TypeTable} {all : List Ptr}
    (hstep : ∀ tt inst T, Inv tt → ∃ sb tt1 m1 tt2, specialize tt T map = some (sb, tt1, m1) ∧
      unify tt1 sb = some tt2 ∧ implements tt2 inst sb = some (ok inst T) ∧ Inv tt2)
    (hread : ∀ tt, Inv tt → ∀ v ∈ all, TypeVar.deref tt v = TypeVar.deref tt0 v ∧
      ∀ tv, TypeVar.deref tt0 v = some tv →
        (tt.type tv).map (fun n => n.bounds) = (tt0.type tv).map (fun n => n.bounds)) :
    ∀ (vs : List Ptr) (tt : TypeTable), (∀ v ∈ vs, v ∈ all) → Inv tt →
      ((∃ tt', Generic.verify_bound_vars specialize unify implements map tt vs = some tt') ↔
        ∀ v ∈ vs, ∃ tv inst bs, TypeVar.deref tt0 v = some tv ∧ map.find tv = some inst ∧
          (tt0.type tv).map (fun n => n.bounds) = some bs ∧ ∀ T ∈ bs, ok inst T = true) := by
  intro vs
  induction vs with
  | nil =>
    intro tt _ _
    simp [Generic.verify_bound_vars]
  | cons v vs ih =>
    intro tt hsub hi
    have hv := hsub v (List.mem_cons_self _ _)
    have hsub' : ∀ x ∈ vs, x ∈ all := fun x hx => hsub x (List.mem_cons_of_mem _ hx)
    obtain ⟨hd, hb⟩ := hread tt hi v hv
    constructor
    · rintro ⟨tt', h⟩
      simp only [Generic.verify_bound_vars, hd] at h
      cases hd0 : TypeVar.deref tt0 v with
      | none => simp [hd0] at h
      | some tv =>
        simp only [hd0] at h
        have hb' := hb tv hd0
        cases hf : map.find tv with
        | none => simp [hf] at h
        | some inst =>
          cases hn : tt.type tv with
          | none => simp [hf, hn] at h
          | some n =>
            simp only [hf, hn] at h
            cases hvb : Generic.verify_bounds specialize unify implements map inst tt n.bounds with
            | none => simp [hvb] at h
            | some tt1 =>
              simp only [hvb] at h
              obtain ⟨b1, b2⟩ := Generic.verify_bounds_iff hstep inst n.bounds tt hi
              have hall := b2 tt1 hvb
              obtain ⟨tt1', hvb', hi1⟩ := b1 hall
              rw [hvb] at hvb'
              cases hvb'
              have hrest := (ih tt1 hsub' hi1).mp ⟨tt', h⟩
              intro w hw
              rcases List.mem_cons.mp hw with rfl | hw
              · refine ⟨tv, inst, n.bounds, hd0, hf, ?_, hall⟩
                rw [← hb', hn]
                rfl
              · exact hrest w hw
    · intro hall
      obtain ⟨tv, inst, bs, hd0, hf, hbs, hok⟩ := hall v (List.mem_cons_self _ _)
      have hb' := hb tv hd0
      rw [hbs] at hb'
      cases hn : tt.type tv with
      | none => simp [hn] at hb'
      | some n =>
        simp only [hn, Option.map_some', Option.some.injEq] at hb'
        obtain ⟨b1, _⟩ := Generic.verify_bounds_iff hstep inst n.bounds tt hi
        obtain ⟨tt1, hvb, hi1⟩ := b1 (by rw [hb']; exact hok)
        obtain ⟨tt', h'⟩ := (ih tt1 hsub' hi1).mpr
          (fun w hw => hall w (List.mem_cons_of_mem _ hw))
        refine ⟨tt', ?_⟩
        simp [Generic.verify_bound_vars, hd, hd0, hf, hn, hvb, h']

/-- C20: bound checking of an instantiation.  The collaborators (specializing
a bound under a copy of the mapping, `unify`, `implements`) are any functions
that always return, whose verdict `ok inst T` says whether the type `inst`
implements the specialized and unified bound `T`, and that leave the bound
variables of `N` and their bounds readable.  Then `verify_instantiation(map)`
succeeds exactly when `map.size = N.num_bound_vars`, the mapping has an entry
for every bound variable of `N`, and that entry implements every bound of the
variable; otherwise it fails. -/
theorem verify_instantiation_iff
    (specialize : TypeTable → Ptr → SpecializeMapping → Option Specialized)
    (unify : TypeTable → Ptr → Option TypeTable)
    (implements : TypeTable → Ptr → Ptr → Option Bool)
    (ok : Ptr → Ptr → Bool) (Inv : TypeTable → Prop)
    (tt0 : TypeTable) (N : Ptr) (map : SpecializeMapping) (n : TypeNode)
    (hN : tt0.type N = some n) (hinv : Inv tt0)
    (hstep : ∀ tt inst T, Inv tt → ∃ sb tt1 m1 tt2, specialize tt T map = some (sb, tt1, m1) ∧
      unify tt1 sb = some tt2 ∧ implements tt2 inst sb = some (ok inst T) ∧ Inv tt2)
    (hread : ∀ tt, Inv tt → ∀ v ∈ n.bound_vars, TypeVar.deref tt v = TypeVar.deref tt0 v ∧
      ∀ tv, TypeVar.deref tt0 v = some tv →
        (tt.type tv).map (fun n => n.bounds) = (tt0.type tv).map (fun n => n.bounds)) :
    ((∃ tt', Generic.verify_instantiation specialize unify implements tt0 N map = some tt') ↔
      (map.length = n.bound_vars.length ∧
        ∀ v ∈ n.bound_vars, ∃ tv inst bs, TypeVar.deref tt0 v = some tv ∧
          map.find tv = some inst ∧ (tt0.type tv).map (fun n => n.bounds) = some bs ∧
          ∀ T ∈ bs, ok inst T = true)) ∧
    (¬ (map.length = n.bound_vars.length ∧
        ∀ v ∈ n.bound_vars, ∃ tv inst bs, TypeVar.deref tt0 v = some tv ∧
          map.find tv = some inst ∧ (tt0.type tv).map (fun n => n.bounds) = some bs ∧
          ∀ T ∈ bs, ok inst T = true) →
      Generic.verify_instantiation specialize unify implements tt0 N map = none) := by
  have hiff : (∃ tt', Generic.verify_instantiation specialize unify implements tt0 N map
      = some tt') ↔
      (map.length = n.bound_vars.length ∧
        ∀ v ∈ n.bound_vars, ∃ tv inst bs, TypeVar.deref tt0 v = some tv ∧
          map.find tv = some inst ∧ (tt0.type tv).map (fun n => n.bounds) = some bs ∧
          ∀ T ∈ bs, ok inst T = true) := by
    unfold Generic.verify_instantiation
    simp only [hN]
    by_cases hl : map.length = n.bound_vars.length
    · simp only [hl, if_true, true_and]
      exact Generic.verify_bound_vars_iff hstep hread n.bound_vars tt0 (fun _ h => h) hinv
    · simp [hl]
  refine ⟨hiff, ?_⟩
  intro hnot
  cases h : Generic.verify_instantiation specialize unify implements tt0 N map with
  | none => rfl
  | some tt' => exact absurd (hiff.mp ⟨tt', h⟩) hnot

/-- Witness for C20: in `table_verify`, `fn<C>(C)` with `C ↦ int`, where `int`
implements every trait, the bounds are specialized to themselves and `unify`
leaves the table alone. -/
theorem verify_instantiation_iff_witness :
    ((∃ tt', Generic.verify_instantiation (fun tt T m => some (T, tt, m)) (fun tt _ => some tt)
        (fun _ inst _ => some (decide (inst = 0))) table_verify 2 [(1, 0)] = some tt') ↔
      (([(1, 0)] : SpecializeMapping).length = [(1 : Ptr)].length ∧
        ∀ v ∈ [(1 : Ptr)], ∃ tv inst bs, TypeVar.deref table_verify v = some tv ∧
          SpecializeMapping.find [(1, 0)] tv = some inst ∧
          (table_verify.type tv).map (fun n => n.bounds) = some bs ∧
          ∀ T ∈ bs, (fun (inst : Ptr) (_ : Ptr) => decide (inst = 0)) inst T = true)) ∧
    Generic.verify_instantiation (fun tt T m => some (T, tt, m)) (fun tt _ => some tt)
        (fun _ inst _ => some (decide (inst = 0))) table_verify 2 [(1, 0)] = some table_verify ∧
    Generic.verify_instantiation (fun tt T m => some (T, tt, m)) (fun tt _ => some tt)
        (fun _ inst _ => some (decide (inst = 0))) table_verify 2 [(1, 2)] = none :=
  ⟨(verify_instantiation_iff (fun tt T m => some (T, tt, m)) (fun tt _ => some tt)
      (fun _ inst _ => some (decide (inst = 0))) (fun inst _ => decide (inst = 0))
      (fun tt => tt = table_verify) table_verify 2 [(1, 0)]
      { kind := Kind.Fn, elems := [1], bound_vars := [1] } (by rfl) rfl
      (fun tt inst T h => ⟨T, tt, [(1, 0)], tt, rfl, rfl, rfl, h⟩)
      (fun tt h v _ => by subst h; exact ⟨rfl, fun _ _ => rfl⟩)).1,
   by decide, by decide⟩

/-! ## Specialization clones the binders -/

theorem SpecializeMapping.find_assign_self (m : SpecializeMapping) (k x : Ptr) :
    (m.assign k x).find k = some x := by
  induction m with
  | nil => simp [SpecializeMapping.assign, SpecializeMapping.find]
  | cons e rest ih =>
    obtain ⟨k', y⟩ := e
    by_cases hk : k' = k
    · simp [SpecializeMapping.assign, SpecializeMapping.find, hk]
    · simp [SpecializeMapping.assign, SpecializeMapping.find, hk, ih]

theorem SpecializeMapping.find_assign_ne (m : SpecializeMapping) {k k' : Ptr} (x : Ptr)
    (h : k ≠ k') : (m.assign k x).find k' = m.find k' := by
  induction m with
  | nil => simp [SpecializeMapping.assign, SpecializeMapping.find, h]
  | cons e rest ih =>
    obtain ⟨k0, y⟩ := e
    by_cases hk : k0 = k
    · subst hk
      simp [SpecializeMapping.assign, SpecializeMapping.find, h]
    · by_cases hk' : k0 = k'
      · subst hk'
        simp [SpecializeMapping.assign, SpecializeMapping.find, hk]
      · simp [SpecializeMapping.assign, SpecializeMapping.find, hk, hk', ih]

theorem TypeTable.type_lt {tt : TypeTable} {p : Ptr} {x : TypeNode} (h : tt.type p = some x) :
    p < tt.types.length := by
  unfold TypeTable.type at h
  by_contra hc
  rw [List.getElem?_eq_none (Nat.le_of_not_lt hc)] at h
  cases h

theorem TypeTable.type_length (tt : TypeTable) : tt.type tt.types.length = none := by
  unfold TypeTable.type
  exact List.getElem?_eq_none (Nat.le_refl _)

theorem TypeTable.type_append_old (tt : TypeTable) (nd : TypeNode) {p : Ptr} {x : TypeNode}
    (h : tt.type p = some x) :
    ({ tt with types := tt.types ++ [nd] } : TypeTable).type p = some x := by
  have hlt := TypeTable.type_lt h
  unfold TypeTable.type at h ⊢
  simp only
  rw [List.getElem?_append_left hlt]
  exact h

theorem TypeTable.type_append_new (tt : TypeTable) (nd : TypeNode) :
    ({ tt with types := tt.types ++ [nd] } : TypeTable).type tt.types.length = some nd := by
  simp [TypeTable.type]

/-- Reading a unified type variable handle survives any change of the table
that keeps the existing nodes. -/
theorem TypeVar.representative_mono {tt tt' : TypeTable}
    (h : ∀ p x, tt.type p = some x → tt'.type p = some x) {v r : Ptr}
    (hr : TypeVar.representative tt v = some (some r)) :
    TypeVar.representative tt' v = some (some r) := by
  unfold TypeVar.representative at hr ⊢
  cases hn : tt.type v with
  | none => simp [hn] at hr
  | some n =>
    simp only [hn] at hr
    simp only [h v n hn]
    cases hrep : n.representative with
    | none => simp [hrep] at hr
    | some x =>
      simp only [hrep, Option.map_eq_some', Option.some.injEq] at hr ⊢
      obtain ⟨y, hy, rfl⟩ := hr
      obtain ⟨rfl, m, hm, hk⟩ := TypeVar.as_TypeVarNode_eq_some hy
      exact ⟨y, by simp [TypeVar.as_TypeVarNode, h y m hm, hk], rfl⟩

/-- The first loop of `gspecialize` with the modelled `clone`: every bound
variable gets a fresh, free, not unified clone recorded in the mapping; the
nodes and the entries that existed are kept. -/
theorem Generic.clone_bound_vars_spec :
    ∀ (vs rs : List Ptr) (tt : TypeTable) (m : SpecializeMapping),
      List.Forall₂ (fun v r => TypeVar.representative tt v = some (some r)) vs rs →
      rs.Nodup → (∀ r ∈ rs, m.find r = none) →
      ∃ tt1 m1 cs, Generic.clone_bound_vars TypeVarNode.clone tt m vs = some (tt1, m1) ∧
        (∀ p x, tt.type p = some x → tt1.type p = some x) ∧
        (∀ k x, m.find k = some x → m1.find k = some x) ∧
        List.Forall₂ (fun r c => m1.find r = some c) rs cs ∧ cs.Nodup ∧
        ∀ c ∈ cs, tt.type c = none ∧ ∃ nc, tt1.type c = some nc ∧
          nc.kind = Kind.TypeVar ∧ nc.representative = none ∧ nc.bound_at = none := by
  intro vs
  induction vs with
  | nil =>
    intro rs tt m h _ _
    cases h
    exact ⟨tt, m, [], by simp [Generic.clone_bound_vars], fun _ _ h => h, fun _ _ h => h,
      List.Forall₂.nil, List.nodup_nil, fun _ hc => by simp at hc⟩
  | cons v vs ih =>
    intro rs tt m h hnd hm
    cases h with
    | @cons _ r _ rs hvr hrest =>
    obtain ⟨hdr, -, nr, hnr, -⟩ := TypeVar.deref_of_representative hvr
    have hrn : r ∉ rs := (List.nodup_cons.mp hnd).1
    have hmr : m.find r = none := hm r (List.mem_cons_self _ _)
    have hold : ∀ p x, tt.type p = some x →
        ({ tt with types := tt.types ++
          [{ kind := Kind.TypeVar, bounds := nr.bounds }] } : TypeTable).type p = some x :=
      fun p x hp => TypeTable.type_append_old tt _ hp
    obtain ⟨tt1, m1, cs, hrun, hkeep, hent, hcs, hcnd, hfresh⟩ :=
      ih rs ({ tt with types := tt.types ++ [{ kind := Kind.TypeVar, bounds := nr.bounds }] })
        (m.assign r tt.types.length)
        (hrest.imp fun _ _ h => TypeVar.representative_mono hold h)
        (List.nodup_cons.mp hnd).2
        (fun r' hr' => by
          have hne : r ≠ r' := fun h => hrn (by rw [h]; exact hr')
          rw [SpecializeMapping.find_assign_ne m _ hne]
          exact hm r' (List.mem_cons_of_mem _ hr'))
    have hnew := TypeTable.type_append_new tt { kind := Kind.TypeVar, bounds := nr.bounds }
    refine ⟨tt1, m1, tt.types.length :: cs, ?_, ?_, ?_, ?_, ?_, ?_⟩
    · simp [Generic.clone_bound_vars, hvr, SpecializeMapping.contains, hmr, hdr,
        TypeVarNode.clone, hnr, hrun]
    · exact fun p x hp => hkeep p x (hold p x hp)
    · intro k x hk
      apply hent
      rw [SpecializeMapping.find_assign_ne m _ (fun h => by rw [← h, hmr] at hk; cases hk)]
      exact hk
    · exact List.Forall₂.cons (hent _ _ (SpecializeMapping.find_assign_self m r _)) hcs
    · refine List.nodup_cons.mpr ⟨fun hin => ?_, hcnd⟩
      rw [(hfresh _ hin).1] at hnew
      cases hnew
    · intro c hc
      rcases List.mem_cons.mp hc with rfl | hc
      · exact ⟨TypeTable.type_length tt, _, hkeep _ _ hnew, rfl, rfl, rfl⟩
      · refine ⟨?_, (hfresh c hc).2⟩
        cases hx : tt.type c with
        | none => rfl
        | some x =>
          have h1 := (hfresh c hc).1
          rw [hold c x hx] at h1
          cases h1

theorem TypeNode.bind_steps_compose (x : TypeNode) (q c t : Ptr) (cs : List Ptr) :
    (fun y : TypeNode =>
        { y with bound_at := if q ∈ cs then some t else y.bound_at,
                 bound_vars := if q = t then y.bound_vars ++ cs else y.bound_vars })
      ((fun y : TypeNode =>
        { y with bound_at := if q = c then some t else y.bound_at,
                 bound_vars := if q = t then y.bound_vars ++ [c] else y.bound_vars }) x) =
      { x with bound_at := if q ∈ c :: cs then some t else x.bound_at,
               bound_vars := if q = t then x.bound_vars ++ c :: cs else x.bound_vars } := by
  simp only [List.mem_cons]
  split_ifs <;> simp_all

/-- The second loop of `gspecialize`: when the clones recorded for the bound
variables are distinct free type variables, the loop completes, appends the
clones in order to the bound variables of `t`, binds each of them at `t` and
changes nothing else. -/
theorem Generic.bind_clones_spec (m : SpecializeMapping) (t : Ptr) :
    ∀ (vs cs : List Ptr) (tt : TypeTable),
      List.Forall₂ (fun v c => ∃ r, TypeVar.representative tt v = some (some r) ∧
        m.find r = some c) vs cs →
      cs.Nodup →
      (∀ c ∈ cs, ∃ nc, tt.type c = some nc ∧ nc.kind = Kind.TypeVar ∧
        nc.representative = none ∧ nc.bound_at = none) →
      (∃ nt, tt.type t = some nt) →
      ∃ tt3, Generic.bind_clones m t tt vs = some tt3 ∧
        ∀ q, tt3.type q = (tt.type q).map (fun x =>
          { x with bound_at := if q ∈ cs then some t else x.bound_at,
                   bound_vars := if q = t then x.bound_vars ++ cs else x.bound_vars }) := by
  intro vs
  induction vs with
  | nil =>
    intro cs tt h _ _ _
    cases h
    refine ⟨tt, by simp [Generic.bind_clones], fun q => ?_⟩
    cases tt.type q <;> simp
  | cons v vs ih =>
    intro cs tt h hnd hfree ht
    cases h with
    | @cons _ c _ cs hvc hrest =>
    obtain ⟨r, hvr, hmr⟩ := hvc
    obtain ⟨nc, hnc, hck, hcr, hcb⟩ := hfree c (List.mem_cons_self _ _)
    obtain ⟨nt, hnt⟩ := ht
    have hdc : TypeVar.deref tt c = some c := TypeVar.deref_self hnc hck (Or.inl hcr)
    obtain ⟨n1, -, hadd⟩ := Generic.add_bound_var_of_free hdc hnc hcb hnt
    obtain ⟨-, hty⟩ := Generic.add_bound_var_type hnc hdc hadd
    generalize (tt.setType c { nc with bound_at := some t }).setType t
      { n1 with bound_vars := n1.bound_vars ++ [c] } = tt1 at hadd hty
    have hlink : ∀ p, (tt1.type p).map TypeNode.link = (tt.type p).map TypeNode.link := by
      intro p
      rw [hty p]
      cases tt.type p <;> simp [TypeNode.link]
    have hcn : c ∉ cs := (List.nodup_cons.mp hnd).1
    obtain ⟨tt3, hrun, hres⟩ := ih cs tt1
      (hrest.imp fun a b ⟨r', h1, h2⟩ =>
        ⟨r', by rw [TypeVar.representative_congr hlink]; exact h1, h2⟩)
      (List.nodup_cons.mp hnd).2
      (fun c' hc' => by
        obtain ⟨nc', h1, h2, h3, h4⟩ := hfree c' (List.mem_cons_of_mem _ hc')
        have hne : c' ≠ c := fun h => hcn (by rw [← h]; exact hc')
        have h5 := hty c'
        rw [h1, Option.map_some'] at h5
        exact ⟨_, h5, h2, h3, by simp [hne, h4]⟩)
      (by rw [hty t, hnt, Option.map_some']; exact ⟨_, rfl⟩)
    refine ⟨tt3, ?_, fun q => ?_⟩
    · simp [Generic.bind_clones, hvr, hmr, TypeVar.as_TypeVarNode, hnc, hck, hadd, hrun]
    · rw [hres q, hty q]
      cases tt.type q with
      | none => rfl
      | some x =>
        simp only [Option.map_some']
        exact congrArg some (TypeNode.bind_steps_compose x q c t cs)

/-- Counterexample to C18: in `table_fresh_binder` the node `f = fn<A>(A, int)`
has the bound variable `A`, and the empty mapping contains neither `f` nor `A`,
but `A` is not unified, so the second loop of `gspecialize` finds no entry for
`A.representative()` and `f.specialize(map)` returns no node. -/
theorem gspecialize_fresh_binder_counterexample :
    Generic.bound_vars table_fresh_binder 2 = some [0] ∧
    SpecializeMapping.find [] 2 = none ∧ SpecializeMapping.find [] 0 = none ∧
    TypeVar.representative table_fresh_binder 0 = some none ∧
    Generic.specialize 3 table_fresh_binder 2 [] = none ∧
    ∀ k, Generic.specialize (k + 3) table_fresh_binder 2 [] = none := by
  refine ⟨by decide, by decide, by decide, by decide, by rfl, fun k => by rfl⟩

/-- C18 (amended): specialization clones the binders of a node whose bound
variables are unified.  Let `N` have the bound variables `v_1..v_n` with
pairwise distinct representatives `r_1..r_n`, let the mapping contain neither
`N` nor any `r_i`, and let `vspecialize`, called after the first loop, return
a node without bound variables and keep the existing nodes and entries.  Then
`N.gspecialize(map)` returns a node `t` and a mapping holding a clone `c_i` for
every `r_i`; the bound variables of `t` are exactly `c_1..c_n` in the original
binder order, each is bound at `t`, there are as many as `N` has binders, and
each is a node that did not exist before, so none is a binder of `N`. -/
theorem gspecialize_clones_binders
    (vspecialize : TypeTable → Ptr → SpecializeMapping → Option Specialized)
    (tt : TypeTable) (N : Ptr) (map : SpecializeMapping) (n : TypeNode) (rs : List Ptr)
    (hN : tt.type N = some n) (hmN : map.find N = none)
    (hrs : List.Forall₂ (fun v r => TypeVar.representative tt v = some (some r))
      n.bound_vars rs)
    (hnd : rs.Nodup) (hmv : ∀ r ∈ rs, map.find r = none)
    (hvs : ∀ tt1 m1,
      Generic.clone_bound_vars TypeVarNode.clone tt map n.bound_vars = some (tt1, m1) →
      ∃ t tt2 m2 nt, vspecialize tt1 N m1 = some (t, tt2, m2) ∧
        (∀ p x, tt1.type p = some x → tt2.type p = some x) ∧
        (∀ k x, m1.find k = some x → m2.find k = some x) ∧
        tt2.type t = some nt ∧ nt.bound_vars = []) :
    ∃ t tt3 m2 cs,
      Generic.gspecialize TypeVarNode.clone vspecialize tt N map = some (t, tt3, m2) ∧
      List.Forall₂ (fun r c => m2.find r = some c) rs cs ∧
      Generic.bound_vars tt3 t = some cs ∧
      (∀ c ∈ cs, TypeVar.bound_at tt3 c = some (some t)) ∧
      cs.length = n.bound_vars.length ∧
      (∀ c ∈ cs, c ∉ n.bound_vars) ∧
      ∀ c ∈ cs, tt.type c = none := by
  obtain ⟨tt1, m1, cs, hclone, hkeep1, -, hcs1, hcnd, hfresh⟩ :=
    Generic.clone_bound_vars_spec n.bound_vars rs tt map hrs hnd hmv
  obtain ⟨t, tt2, m2, nt, hv, hkeep2, hent2, hnt, hntb⟩ := hvs tt1 m1 hclone
  have hkeep : ∀ p x, tt.type p = some x → tt2.type p = some x :=
    fun p x hp => hkeep2 p x (hkeep1 p x hp)
  have hcs2 : List.Forall₂ (fun r c => m2.find r = some c) rs cs :=
    hcs1.imp fun _ _ h => hent2 _ _ h
  have hvc : List.Forall₂ (fun v c => ∃ r, TypeVar.representative tt2 v = some (some r) ∧
      m2.find r = some c) n.bound_vars cs := by
    have aux : ∀ vs rs cs,
        List.Forall₂ (fun v r => TypeVar.representative tt v = some (some r)) vs rs →
        List.Forall₂ (fun r c => m2.find r = some c) rs cs →
        List.Forall₂ (fun v c => ∃ r, TypeVar.representative tt2 v = some (some r) ∧
          m2.find r = some c) vs cs := by
      intro vs rs cs h1
      induction h1 generalizing cs with
      | nil =>
        intro h2
        cases h2
        exact List.Forall₂.nil
      | @cons v r vs rs hvr _ ih =>
        intro h2
        cases h2 with
        | @cons _ c _ cs hrc hrest =>
          exact List.Forall₂.cons ⟨r, TypeVar.representative_mono hkeep hvr, hrc⟩
            (ih cs hrest)
    exact aux _ _ _ hrs hcs2
  obtain ⟨tt3, hbind, hres⟩ := Generic.bind_clones_spec m2 t n.bound_vars cs tt2 hvc hcnd
    (fun c hc => by
      obtain ⟨-, nc, h1, h2, h3, h4⟩ := hfresh c hc
      exact ⟨nc, hkeep2 c nc h1, h2, h3, h4⟩)
    ⟨nt, hnt⟩
  refine ⟨t, tt3, m2, cs, ?_, hcs2, ?_, ?_, ?_, ?_, fun c hc => (hfresh c hc).1⟩
  · simp [Generic.gspecialize, hmN, hN, hclone, hv, hkeep N n hN, hbind]
  · simp [Generic.bound_vars, hres t, hnt, hntb]
  · intro c hc
    obtain ⟨-, nc, h1, h2, h3, -⟩ := hfresh c hc
    have h5 := hres c
    rw [hkeep2 c nc h1, Option.map_some'] at h5
    have hd : TypeVar.deref tt3 c = some c := TypeVar.deref_self h5 h2 (Or.inl h3)
    simp [TypeVar.bound_at, hd, h5, hc]
  · rw [← hcs2.length_eq, hrs.length_eq]
  · intro c hc hin
    have aux : ∀ vs rs,
        List.Forall₂ (fun v r => TypeVar.representative tt v = some (some r)) vs rs →
        c ∈ vs → ∃ r, TypeVar.representative tt c = some (some r) := by
      intro vs rs h1
      induction h1 with
      | nil => intro h; cases h
      | @cons v r vs rs hvr _ ih =>
        intro h
        rcases List.mem_cons.mp h with rfl | h
        · exact ⟨r, hvr⟩
        · exact ih h
    obtain ⟨r, hr⟩ := aux _ _ hrs hin
    have hx : tt.type c ≠ none := by
      intro h0
      simp [TypeVar.representative, h0] at hr
    exact hx (hfresh c hc).1

theorem gspecialize_clones_binders_witness :
    table_alpha.type 2 =
      some { kind := Kind.Fn, elems := [0, 4], bound_vars := [0], representative := some 2 } ∧
    ∃ t tt3 m2 cs,
      Generic.gspecialize TypeVarNode.clone (TypeNode.vspecialize (Generic.specialize 3))
        table_alpha 2 [] = some (t, tt3, m2) ∧
      List.Forall₂ (fun r c => m2.find r = some c) [0] cs ∧
      Generic.bound_vars tt3 t = some cs ∧
      (∀ c ∈ cs, TypeVar.bound_at tt3 c = some (some t)) ∧
      cs.length = [0].length ∧
      (∀ c ∈ cs, c ∉ [0]) ∧
      ∀ c ∈ cs, table_alpha.type c = none :=
  ⟨by rfl,
   gspecialize_clones_binders (TypeNode.vspecialize (Generic.specialize 3)) table_alpha 2 []
    { kind := Kind.Fn, elems := [0, 4], bound_vars := [0], representative := some 2 } [0]
    (by rfl) (by rfl) (List.Forall₂.cons (by rfl) List.Forall₂.nil) (by decide)
    (fun r hr => by
      rcases List.mem_singleton.mp hr with rfl
      rfl)
    (fun tt1 m1 h => by
      have h' : some (({ table_alpha with types := table_alpha.types ++
          [{ kind := Kind.TypeVar }] } : TypeTable), ([(0, 5)] : SpecializeMapping)) =
          some (tt1, m1) := h
      cases h'
      refine ⟨6, _, _, _, rfl, ?_, fun _ _ h => h, rfl, rfl⟩
      intro p x hp
      exact TypeTable.type_append_old _ _ hp)⟩

/-! ## Equality in the presence of cyclic bounds -/

theorem Sym2Decl.find_assign_same (m : Sym2Decl) (k : Symbol) (x : Option Ptr) :
    (m.assign k x).find k = some x := by
  induction m with
  | nil => simp [Sym2Decl.assign, Sym2Decl.find]
  | cons e rest ih =>
    obtain ⟨k', y⟩ := e
    by_cases hk : k' = k
    · simp [Sym2Decl.assign, Sym2Decl.find, hk]
    · simp [Sym2Decl.assign, Sym2Decl.find, hk, ih]

theorem Sym2Decl.find_assign_other (m : Sym2Decl) {k k' : Symbol} (x : Option Ptr)
    (h : k ≠ k') : (m.assign k x).find k' = m.find k' := by
  induction m with
  | nil => simp [Sym2Decl.assign, Sym2Decl.find, h]
  | cons e rest ih =>
    obtain ⟨k0, y⟩ := e
    by_cases hk : k0 = k
    · subst hk
      simp [Sym2Decl.assign, Sym2Decl.find, h]
    · by_cases hk' : k0 = k'
      · subst hk'
        simp [Sym2Decl.assign, Sym2Decl.find, hk]
      · simp [Sym2Decl.assign, Sym2Decl.find, hk, hk', ih]

theorem Sema.decl_lt {s : Sema} {d : Ptr} {n : Decl} (h : s.decl d = some n) :
    d < s.decls.length := by
  unfold Sema.decl at h
  by_contra hc
  rw [List.getElem?_eq_none (Nat.le_of_not_lt hc)] at h
  cases h

/-- What `insert` does when the guard finds no clash. -/
theorem Sema.insert_of_no_clash {s : Sema} {d : Ptr} {n : Decl} (hd : s.decl d = some n)
    (hc : s.clash n.symbol = some none) :
    s.insert d = some { s with
      decls := s.decls.set d { n with shadows := s.lookup n.symbol, depth := s.depth },
      decl_stack := s.decl_stack ++ [d],
      sym2decl := s.sym2decl.assign n.symbol (some d) } := by
  simp [Sema.insert, hd, hc]

/-- C22: `Sema::insert` maps the symbol to the declaration.  When the symbol
of the declaration `d` has no definition at the current depth (`clash` returns
0), `insert(d)` completes, and afterwards `lookup(d.symbol)` and
`clash(d.symbol)` return `d`, `d.depth` is the current depth, and `d.shadows`
is what `lookup(d.symbol)` returned before the call. -/
theorem insert_maps_symbol (s : Sema) (d : Ptr) (n : Decl)
    (hd : s.decl d = some n) (hc : s.clash n.symbol = some none) :
    ∃ s', s.insert d = some s' ∧
      s'.lookup n.symbol = some d ∧
      s'.clash n.symbol = some (some d) ∧
      s'.depth = s.depth ∧
      s'.decl d = some { n with shadows := s.lookup n.symbol, depth := s.depth } := by
  refine ⟨_, Sema.insert_of_no_clash hd hc, ?_, ?_, rfl, ?_⟩
  · simp [Sema.lookup, Sym2Decl.find_assign_same]
  · simp [Sema.clash, Sym2Decl.find_assign_same, Sema.decl, Sema.decl_lt hd, Sema.depth]
  · simp [Sema.decl, Sema.decl_lt hd]

/-- Witness for C22: after `push_scope()` the second declaration of the symbol
7 does not clash with `x` of the outer scope; it is inserted at depth 1 and
shadows `x`. -/
theorem insert_maps_symbol_witness :
    sema_global.push_scope.clash 7 = some none ∧
    sema_global.push_scope.lookup 7 = some 0 ∧
    ∃ s', sema_global.push_scope.insert 1 = some s' ∧
      s'.lookup 7 = some 1 ∧
      s'.clash 7 = some (some 1) ∧
      s'.depth = 1 ∧
      s'.decl 1 = some { symbol := 7, shadows := some 0, depth := 1 } :=
  ⟨by decide, by decide,
   insert_maps_symbol sema_global.push_scope 1 { symbol := 7 } (by decide) (by decide)⟩

/-- What `insert` does when the guard finds a clash: both `error` calls clear
`result_` and the call returns; nothing is inserted and no assertion is
reached. -/
theorem Sema.insert_of_clash {s : Sema} {d other : Ptr} {n : Decl} (hd : s.decl d = some n)
    (hc : s.clash n.symbol = some (some other)) :
    s.insert d = some { s with result := false } := by
  have ho : ∃ m, s.decl other = some m := by
    unfold Sema.clash at hc
    split at hc
    · cases hc
    · cases hc
    · rename_i x hx
      cases hm : s.decl x with
      | none => simp [hm] at hc
      | some m =>
        simp only [hm, Option.map_some', Option.some.injEq] at hc
        split at hc
        · cases hc
          exact ⟨m, hm⟩
        · cases hc
  obtain ⟨m, hm⟩ := ho
  have hm' : ({ s with result := false } : Sema).decl other = some m := hm
  simp [Sema.insert, hd, hc, Sema.error, hm']

/-- C23, the code at the failing input: in `sema_global` the symbol 7 is
defined at the current depth, and `insert` of a second declaration of the
symbol 7 returns normally, with `result_` cleared and nothing inserted; no
assertion is raised. -/
theorem insert_redefinition_returns :
    sema_global.clash 7 = some (some 0) ∧
    sema_global.insert 1 = some { sema_global with result := false } :=
  ⟨by decide, by decide⟩

/-! ## Kind and arity -/

/-- C24: kind and arity are necessary for equality.  For a node `a` that is
not a type variable and a node `b`: when `a.equal(b)` returns true, `a` and `b`
have the same kind, the same number of children and the same number of bound
variables; when one of the three differs, `a.equal(b)` returns false and the
table is untouched, so no `equiv_var` is set. -/
theorem equal_requires_kind_and_arity (tt : TypeTable) (a b : Ptr) (na nb : TypeNode)
    (ha : tt.type a = some na) (hb : tt.type b = some nb) (hk : na.kind ≠ Kind.TypeVar) :
    (∀ fuel tt', Generic.equal fuel tt a b = some (true, tt') →
      na.kind = nb.kind ∧ na.elems.length = nb.elems.length ∧
        na.bound_vars.length = nb.bound_vars.length) ∧
    (¬ (na.kind = nb.kind ∧ na.elems.length = nb.elems.length ∧
        na.bound_vars.length = nb.bound_vars.length) →
      ∀ fuel, Generic.equal (fuel + 1) tt a b = some (false, tt)) := by
  constructor
  · intro fuel tt' h
    cases fuel with
    | zero => simp [Generic.equal] at h
    | succ f =>
      by_contra hc
      unfold Generic.equal at h
      simp only [ha, hk, if_false] at h
      unfold TypeNode.equal at h
      simp [ha, hb, hc] at h
  · intro hc fuel
    unfold Generic.equal
    simp only [ha, hk, if_false]
    unfold TypeNode.equal
    simp [ha, hb, hc]

/-- Witness for C24: in `table_alpha`, `fn<A>(A, int)` against `fn<B>(B, int)`
returns true, and against `int` (another kind, no children, no bound variable)
returns false. -/
theorem equal_requires_kind_and_arity_witness :
    Generic.equal 3 table_alpha 2 3 = some (true, table_alpha) ∧
    (∀ fuel tt', Generic.equal fuel table_alpha 2 3 = some (true, tt') →
      Kind.Fn = Kind.Fn ∧ [0, 4].length = [1, 4].length ∧ [0].length = [1].length) ∧
    ∀ fuel, Generic.equal (fuel + 1) table_alpha 2 4 = some (false, table_alpha) :=
  ⟨by rfl,
   (equal_requires_kind_and_arity table_alpha 2 3
      { kind := Kind.Fn, elems := [0, 4], bound_vars := [0], representative := some 2 }
      { kind := Kind.Fn, elems := [1, 4], bound_vars := [1], representative := some 3 }
      (by rfl) (by rfl) (by decide)).1,
   (equal_requires_kind_and_arity table_alpha 2 4
      { kind := Kind.Fn, elems := [0, 4], bound_vars := [0], representative := some 2 }
      { kind := Kind.Primitive 0, representative := some 4 }
      (by rfl) (by rfl) (by decide)).2 (by decide)⟩

/-! ## Bound type variables outside a provisional link -/

/-- The position loop of `TypeVarNode::equal`: when `this` is first found at
index `i` of its binder list, the loop answers whether the `i`-th bound
variable of the other binder is represented by `t`. -/
theorem TypeVarNode.find_position_at (tt : TypeTable) (this t : Ptr) :
    ∀ (vs ws : List Ptr) (i : Nat) (v w : Ptr),
      vs[i]? = some v → ws[i]? = some w →
      TypeVar.representative tt v = some (some this) →
      (∀ j u, j < i → vs[j]? = some u →
        ∃ r, TypeVar.representative tt u = some r ∧ r ≠ some this) →
      TypeVarNode.find_position tt this t vs ws =
        (TypeVar.representative tt w).map fun r2 => decide (r2 = some t) := by
  intro vs
  induction vs with
  | nil => intro ws i v w hv; simp at hv
  | cons x vs ih =>
    intro ws i v w hv hw hva hfirst
    cases ws with
    | nil => simp at hw
    | cons y ws =>
      cases i with
      | zero =>
        simp only [List.getElem?_cons_zero, Option.some.injEq] at hv hw
        subst hv
        subst hw
        simp [TypeVarNode.find_position, hva]
      | succ i =>
        simp only [List.getElem?_cons_succ] at hv hw
        obtain ⟨r, hr, hne⟩ := hfirst 0 x (Nat.succ_pos _) (by simp)
        have hrec := ih ws i v w hv hw hva
          (fun j u hj hu => hfirst (j + 1) u (Nat.succ_lt_succ hj) (by simpa using hu))
        simp [TypeVarNode.find_position, hr, hne, hrec]

/-- C25: equality of bound type variables outside a provisional link.  Let `a`
(bound at `P`) and `b` (bound at `Q`) be distinct type variables without
`equiv_var`, `a` being first found as the representative of the bound variable
of `P` at index `i`.  Then `a.equal(b)` returns what `P.equal(Q)` returns when
`P` and `Q` have the same number of bound variables and `b` is the
representative of the bound variable of `Q` at index `i`, and false otherwise;
so it returns true exactly when these two conditions hold and `P.equal(Q)`
returns true. -/
theorem TypeVarNode_equal_bound (tt : TypeTable) (a b P Q : Ptr) (na nb p q : TypeNode)
    (i : Nat) (v : Ptr)
    (hab : a ≠ b) (ha : tt.type a = some na) (hb : tt.type b = some nb)
    (hka : na.kind = Kind.TypeVar) (hkb : nb.kind = Kind.TypeVar)
    (hea : na.equiv_var = none) (heb : nb.equiv_var = none)
    (hba : na.bound_at = some P) (hbb : nb.bound_at = some Q)
    (hP : tt.type P = some p) (hQ : tt.type Q = some q)
    (hv : p.bound_vars[i]? = some v)
    (hva : TypeVar.representative tt v = some (some a))
    (hfirst : ∀ j u, j < i → p.bound_vars[j]? = some u →
      ∃ r, TypeVar.representative tt u = some r ∧ r ≠ some a)
    (hread : ∀ w, q.bound_vars[i]? = some w → ∃ r, TypeVar.representative tt w = some r)
    (fuel : Nat) :
    ((p.bound_vars.length = q.bound_vars.length ∧
        ∃ w, q.bound_vars[i]? = some w ∧ TypeVar.representative tt w = some (some b)) →
      Generic.equal (fuel + 1) tt a b = Generic.equal fuel tt P Q) ∧
    (¬ (p.bound_vars.length = q.bound_vars.length ∧
        ∃ w, q.bound_vars[i]? = some w ∧ TypeVar.representative tt w = some (some b)) →
      Generic.equal (fuel + 1) tt a b = some (false, tt)) ∧
    ((∃ tt', Generic.equal (fuel + 1) tt a b = some (true, tt')) ↔
      (p.bound_vars.length = q.bound_vars.length ∧
        (∃ w, q.bound_vars[i]? = some w ∧ TypeVar.representative tt w = some (some b)) ∧
        ∃ tt', Generic.equal fuel tt P Q = some (true, tt'))) := by
  have hi : i < p.bound_vars.length := by
    by_contra hc
    rw [List.getElem?_eq_none (Nat.le_of_not_lt hc)] at hv
    cases hv
  have hstep : Generic.equal (fuel + 1) tt a b =
      match (if p.bound_vars.length = q.bound_vars.length then
          TypeVarNode.find_position tt a b p.bound_vars q.bound_vars
        else some false) with
      | some true => Generic.equal fuel tt P Q
      | some false => some (false, tt)
      | none => none := by
    have hpos : 0 < p.bound_vars.length := Nat.lt_of_le_of_lt (Nat.zero_le _) hi
    conv_lhs => unfold Generic.equal
    simp only [ha, hka, if_true]
    unfold TypeVarNode.equal
    simp [hab, ha, hb, hkb, hea, heb, hba, hbb, hP, hQ, hpos]
  have h1 : (p.bound_vars.length = q.bound_vars.length ∧
        ∃ w, q.bound_vars[i]? = some w ∧ TypeVar.representative tt w = some (some b)) →
      Generic.equal (fuel + 1) tt a b = Generic.equal fuel tt P Q := by
    rintro ⟨hl, w, hw, hwb⟩
    rw [hstep, if_pos hl, TypeVarNode.find_position_at tt a b _ _ i v w hv hw hva hfirst, hwb]
    simp
  have h2 : ¬ (p.bound_vars.length = q.bound_vars.length ∧
        ∃ w, q.bound_vars[i]? = some w ∧ TypeVar.representative tt w = some (some b)) →
      Generic.equal (fuel + 1) tt a b = some (false, tt) := by
    intro hc
    rw [hstep]
    by_cases hl : p.bound_vars.length = q.bound_vars.length
    · have hiq : i < q.bound_vars.length := hl ▸ hi
      have hw : q.bound_vars[i]? = some (q.bound_vars[i]) := List.getElem?_eq_getElem hiq
      obtain ⟨r, hr⟩ := hread _ hw
      have hne : r ≠ some b := fun h => hc ⟨hl, _, hw, by rw [hr, h]⟩
      rw [if_pos hl, TypeVarNode.find_position_at tt a b _ _ i v _ hv hw hva hfirst, hr]
      simp [hne]
    · rw [if_neg hl]
  refine ⟨h1, h2, ?_⟩
  constructor
  · rintro ⟨tt', h⟩
    by_cases hc : p.bound_vars.length = q.bound_vars.length ∧
        ∃ w, q.bound_vars[i]? = some w ∧ TypeVar.representative tt w = some (some b)
    · rw [h1 hc] at h
      exact ⟨hc.1, hc.2, tt', h⟩
    · rw [h2 hc] at h
      simp at h
  · rintro ⟨hl, hw, tt', h⟩
    exact ⟨tt', by rw [h1 ⟨hl, hw⟩]; exact h⟩

/-- Witness for C25: in `table_alpha`, `A` (bound at `f`) against `B` (bound at
`g`) returns what `f.equal(g)` returns, which is true; in `table_binders`, `A`
(first binder of `P`) against `D` (second binder of `Q`) returns false. -/
theorem TypeVarNode_equal_bound_witness :
    Generic.equal 4 table_alpha 0 1 = Generic.equal 3 table_alpha 2 3 ∧
    Generic.equal 4 table_alpha 0 1 = some (true, table_alpha) ∧
    Generic.equal 4 table_binders 0 3 = some (false, table_binders) :=
  ⟨(TypeVarNode_equal_bound table_alpha 0 1 2 3
      { kind := Kind.TypeVar, bound_at := some 2, representative := some 0 }
      { kind := Kind.TypeVar, bound_at := some 3, representative := some 1 }
      { kind := Kind.Fn, elems := [0, 4], bound_vars := [0], representative := some 2 }
      { kind := Kind.Fn, elems := [1, 4], bound_vars := [1], representative := some 3 }
      0 0 (by decide) (by rfl) (by rfl) (by rfl) (by rfl) (by rfl) (by rfl) (by rfl) (by rfl)
      (by rfl) (by rfl) (by rfl) (by rfl)
      (fun j u hj => absurd hj (Nat.not_lt_zero j))
      (fun w hw => by
        have e : some 1 = some w := hw
        cases e
        exact ⟨some 1, by rfl⟩)
      3).1 ⟨by rfl, 1, by rfl, by rfl⟩,
   by rfl,
   (TypeVarNode_equal_bound table_binders 0 3 4 5
      { kind := Kind.TypeVar, representative := some 0, bound_at := some 4 }
      { kind := Kind.TypeVar, representative := some 3, bound_at := some 5 }
      { kind := Kind.Fn, elems := [0, 1], bound_vars := [0, 1] }
      { kind := Kind.Fn, elems := [2, 3], bound_vars := [2, 3] }
      0 0 (by decide) (by rfl) (by rfl) (by rfl) (by rfl) (by rfl) (by rfl) (by rfl) (by rfl)
      (by rfl) (by rfl) (by rfl) (by rfl)
      (fun j u hj => absurd hj (Nat.not_lt_zero j))
      (fun w hw => by
        have e : some 2 = some w := hw
        cases e
        exact ⟨some 2, by rfl⟩)
      3).2.1 (by
        rintro ⟨-, w, hw, hr⟩
        have e : some 2 = some w := hw
        cases e
        have e2 : some (some 2) = some (some 3) := hr
        cases e2)⟩

/-! ## The provisional links do not leak -/

/-- C26: the provisional alpha-equivalence links do not leak.  When no type
variable has `equiv_var` set before a call of `TypeNode::equal`, none has it
set when the call returns, whatever the result: the table is the one the call
started from. -/
theorem equal_links_do_not_leak (fuel : Nat) (tt tt' : TypeTable) (a b : Ptr) (r : Bool)
    (hr : tt.at_rest) (h : TypeNode.equal (Generic.equal fuel) tt a b = some (r, tt')) :
    tt'.at_rest ∧ tt' = tt := by
  have hf : tt.frame tt' :=
    TypeNode.equal_frame_node (Generic.equal_frame fuel) tt tt' a b r h
  have he := TypeTable.eq_of_frame_at_rest hr hf
  rw [he]
  exact ⟨hr, rfl⟩

/-- Witness for C26: a comparison that returns true (`table_alpha`), one that
fails at the bounds of the bound variables (`table_bound_mismatch`) and one
that fails at the second child (`table_binders`, `P` against `Q'`), each after
the links were set. -/
theorem equal_links_do_not_leak_witness :
    (∃ tt', TypeNode.equal (Generic.equal 2) table_alpha 2 3 = some (true, tt') ∧
      tt'.at_rest ∧ tt' = table_alpha) ∧
    (∃ tt', TypeNode.equal (Generic.equal 2) table_bound_mismatch 2 3 = some (false, tt') ∧
      tt'.at_rest ∧ tt' = table_bound_mismatch) ∧
    (∃ tt', TypeNode.equal (Generic.equal 2) table_binders 4 6 = some (false, tt') ∧
      tt'.at_rest ∧ tt' = table_binders) :=
  ⟨⟨_, by rfl, equal_links_do_not_leak 2 table_alpha _ 2 3 true (by decide) (by rfl)⟩,
   ⟨_, by rfl,
     equal_links_do_not_leak 2 table_bound_mismatch _ 2 3 false (by decide) (by rfl)⟩,
   ⟨_, by rfl, equal_links_do_not_leak 2 table_binders _ 4 6 false (by decide) (by rfl)⟩⟩

/-! ## The hash respects structural equality -/

theorem TypeNode.hash_of_skel (hash_value : Kind → Nat) (hash_combine : Nat → Nat → Nat)
    {tt tt0 : TypeTable} (hs : tt0.skel = tt.skel) {p : Ptr} {n0 : TypeNode}
    (h0 : tt0.type p = some n0) (fuel : Nat) :
    TypeNode.hash hash_value hash_combine (fuel + 1) tt p =
      TypeNode.hash_elems hash_combine (TypeNode.hash hash_value hash_combine fuel tt) tt
        (hash_combine (hash_combine (hash_value n0.kind) n0.elems.length)
          n0.bound_vars.length) n0.elems := by
  obtain ⟨e, he⟩ := TypeTable.type_of_skel hs.symm h0
  conv_lhs => unfold TypeNode.hash
  simp [he]

/-- Children that compare equal one by one hash to the same value, from the
same seed. -/
theorem TypeNode.hash_elems_of_equal (hash_value : Kind → Nat)
    (hash_combine : Nat → Nat → Nat) (tt : TypeTable) (f : Nat)
    (ih : ∀ tt0 a b tt', tt0.skel = tt.skel → Generic.equal f tt0 a b = some (true, tt') →
      ∃ h, TypeNode.hash hash_value hash_combine f tt a = some h ∧
        TypeNode.hash hash_value hash_combine f tt b = some h) :
    ∀ (as bs : List Ptr) (tt1 tt2 : TypeTable) (seed : Nat),
      tt1.skel = tt.skel → as.length = bs.length →
      TypeNode.elems_equal (Generic.equal f) tt1 as bs = some (true, tt2) →
      ∃ h, TypeNode.hash_elems hash_combine (TypeNode.hash hash_value hash_combine f tt) tt
          seed as = some h ∧
        TypeNode.hash_elems hash_combine (TypeNode.hash hash_value hash_combine f tt) tt
          seed bs = some h := by
  intro as
  induction as with
  | nil =>
    intro bs tt1 tt2 seed _ hl _
    cases bs with
    | nil => exact ⟨seed, rfl, rfl⟩
    | cons b bs => simp at hl
  | cons a as iha =>
    intro bs tt1 tt2 seed hs hl h
    cases bs with
    | nil => simp at hl
    | cons b bs =>
      unfold TypeNode.elems_equal at h
      split at h
      · rename_i ta orb hda hrb
        split at h
        · rename_i tt1' hc
          cases orb with
          | none => exact absurd (Generic.equal_null_eq_some hc).1 (by simp)
          | some rb =>
          simp only at hc
          obtain ⟨x, hx1, hx2⟩ := ih tt1 ta rb tt1' hs hc
          have hs' : tt1'.skel = tt.skel :=
            (Generic.equal_frame f tt1 ta rb true tt1' hc).1.trans hs
          obtain ⟨y, hy1, hy2⟩ := iha bs tt1' tt2 (hash_combine seed x) hs'
            (by simpa using hl) h
          have hda' : Proxy.deref tt a = some ta := by
            rw [← Proxy.type_deref_congr (TypeTable.link_of_skel hs)]
            exact hda
          have hrb' : Proxy.representative tt b = some (some rb) := by
            rw [← Proxy.type_representative_congr (TypeTable.link_of_skel hs)]
            exact hrb
          have hdb' : Proxy.deref tt b = some rb := Proxy.type_deref_of_representative hrb'
          refine ⟨y, ?_, ?_⟩
          · simp [TypeNode.hash_elems, hda', hx1, hy1]
          · simp [TypeNode.hash_elems, hdb', hx2, hy2]
        · simp at h
        · cases h
      · cases h

/-- A type variable without children and bound variables hashes to the hash of
its kind combined with two zeros. -/
theorem TypeNode.hash_typevar (hash_value : Kind → Nat) (hash_combine : Nat → Nat → Nat)
    {tt tt0 : TypeTable} (hleaf : tt.typevars_are_leaves) (hs : tt0.skel = tt.skel)
    {p : Ptr} {n0 : TypeNode} (h0 : tt0.type p = some n0) (hk : n0.kind = Kind.TypeVar)
    (fuel : Nat) :
    TypeNode.hash hash_value hash_combine (fuel + 1) tt p =
      some (hash_combine (hash_combine (hash_value Kind.TypeVar) 0) 0) := by
  obtain ⟨e, he⟩ := TypeTable.type_of_skel hs.symm h0
  obtain ⟨h1, h2⟩ := hleaf p _ he hk
  simp only at h1 h2
  rw [TypeNode.hash_of_skel hash_value hash_combine hs h0 fuel, h1, h2, hk]
  simp [TypeNode.hash_elems]

/-- When `TypeVarNode::equal` returns true, the other node is the receiver
itself or a type variable. -/
theorem TypeVarNode.equal_true_kind
    {call : TypeTable → Ptr → Ptr → Option (Bool × TypeTable)}
    {tt tt' : TypeTable} {a b : Ptr}
    (h : TypeVarNode.equal call tt a b = some (true, tt')) :
    a = b ∨ ∃ nb, tt.type b = some nb ∧ nb.kind = Kind.TypeVar := by
  unfold TypeVarNode.equal at h
  split at h
  · rename_i hab
    exact Or.inl hab
  · split at h
    · rename_i o t ho ht
      split at h
      · rename_i hk
        exact Or.inr ⟨o, ho, hk⟩
      · simp at h
    · cases h

/-- Nodes that compare equal have the same hash, in tables whose type
variables are leaves. -/
theorem Generic.hash_of_equal (hash_value : Kind → Nat) (hash_combine : Nat → Nat → Nat)
    (tt : TypeTable) (hleaf : tt.typevars_are_leaves) :
    ∀ (fuel : Nat) (tt0 : TypeTable) (a b : Ptr) (tt' : TypeTable),
      tt0.skel = tt.skel → Generic.equal fuel tt0 a b = some (true, tt') →
      ∃ h, TypeNode.hash hash_value hash_combine fuel tt a = some h ∧
        TypeNode.hash hash_value hash_combine fuel tt b = some h := by
  intro fuel
  induction fuel with
  | zero =>
    intro tt0 a b tt' _ h
    simp [Generic.equal] at h
  | succ f ih =>
    intro tt0 a b tt' hs h
    unfold Generic.equal at h
    split at h
    · rename_i n0 h0
      split at h
      · rename_i hk
        have hha := TypeNode.hash_typevar hash_value hash_combine hleaf hs h0 hk f
        rcases TypeVarNode.equal_true_kind h with rfl | ⟨nb, hb, hkb⟩
        · exact ⟨_, hha, hha⟩
        · exact ⟨_, hha, TypeNode.hash_typevar hash_value hash_combine hleaf hs hb hkb f⟩
      · unfold TypeNode.equal at h
        split at h
        · rename_i t o ht ho
          split at h
          · rename_i hcond
            simp only [Option.bind_eq_bind, Option.bind_eq_some] at h
            obtain ⟨tt1, hset, res, _, ⟨r2, tt2⟩, hel, tt3, _, hfin⟩ := h
            simp only [Option.some.injEq, Prod.mk.injEq] at hfin
            obtain ⟨hr2, _⟩ := hfin
            have hr2' : r2 = true := hr2
            subst hr2'
            have hs1 : tt1.skel = tt.skel :=
              (TypeNode.set_equiv_variables_frame _ _ _ _ hset).1.trans hs
            split at hel
            · obtain ⟨x, hx1, hx2⟩ := TypeNode.hash_elems_of_equal hash_value hash_combine
                tt f ih t.elems o.elems tt1 tt2
                (hash_combine (hash_combine (hash_value t.kind) t.elems.length)
                  t.bound_vars.length) hs1 hcond.2.1 hel
              refine ⟨x, ?_, ?_⟩
              · rw [TypeNode.hash_of_skel hash_value hash_combine hs ht f]
                exact hx1
              · rw [TypeNode.hash_of_skel hash_value hash_combine hs ho f,
                  ← hcond.1, ← hcond.2.1, ← hcond.2.2]
                exact hx2
            · simp at hel
          · simp at h
        · cases h
    · cases h

/-- Counterexample to C27: `table_binder_var` is reached by three calls of
`add_bound_var` and is at rest; there `f = fn<A>(A)` and `g = fn<B>(B)` compare
equal, and so do `A` and `B`, but `A` binds a type variable and `B` does not:
the hashes of `A` and `B` differ in the number of bound variables that is
combined last, and so do the hashes of `f` and `g` (here with `hash_value`
constant and `hash_combine seed h = 31 * seed + h`). -/
theorem hash_respects_equal_counterexample :
    ((Generic.add_bound_var table_binder_var_start 1 0).bind fun t1 =>
      (Generic.add_bound_var t1 3 1).bind fun t2 => Generic.add_bound_var t2 4 2) =
        some table_binder_var ∧
    table_binder_var.at_rest ∧
    Generic.equal 3 table_binder_var 3 4 = some (true, table_binder_var) ∧
    Generic.equal 4 table_binder_var 1 2 = some (true, table_binder_var) ∧
    TypeNode.hash (fun _ => 1) (fun s h => 31 * s + h) 3 table_binder_var 3 = some 31745 ∧
    TypeNode.hash (fun _ => 1) (fun s h => 31 * s + h) 3 table_binder_var 4 = some 31744 ∧
    (∀ (hash_value : Kind → Nat) (hash_combine : Nat → Nat → Nat),
      TypeNode.hash hash_value hash_combine 4 table_binder_var 1 =
        some (hash_combine (hash_combine (hash_value Kind.TypeVar) 0) 1) ∧
      TypeNode.hash hash_value hash_combine 4 table_binder_var 2 =
        some (hash_combine (hash_combine (hash_value Kind.TypeVar) 0) 0)) := by
  refine ⟨by decide, by decide, by rfl, by rfl, by rfl, by rfl, fun _ _ => ⟨by rfl, by rfl⟩⟩

/-- C27 (amended): the hash respects structural equality in tables whose type
variables are leaves (no children, no bound variables of their own).  In such
a table, when `a.equal(b)` returns true, `TypeNode::hash` returns on `a` and on
`b`, and it returns the same value, whatever `hash_value` and `hash_combine`
are. -/
theorem hash_respects_equal (hash_value : Kind → Nat) (hash_combine : Nat → Nat → Nat)
    (tt tt' : TypeTable) (a b : Ptr) (fuel : Nat)
    (hleaf : tt.typevars_are_leaves)
    (h : Generic.equal fuel tt a b = some (true, tt')) :
    ∃ x, TypeNode.hash hash_value hash_combine fuel tt a = some x ∧
      TypeNode.hash hash_value hash_combine fuel tt b = some x :=
  Generic.hash_of_equal hash_value hash_combine tt hleaf fuel tt a b tt' rfl h

theorem TypeTable.typevars_are_leaves_of_forall {tt : TypeTable}
    (h : ∀ n ∈ tt.types, n.kind = Kind.TypeVar → n.elems = [] ∧ n.bound_vars = []) :
    tt.typevars_are_leaves := by
  intro p n hn hk
  exact h n (List.getElem?_mem hn) hk

/-- Witness for C27: in `table_alpha`, `fn<A>(A, int)` and `fn<B>(B, int)`
compare equal and have the same hash, here with `hash_value` constant and
`hash_combine seed h = 31 * seed + h`. -/
theorem hash_respects_equal_witness :
    Generic.equal 3 table_alpha 2 3 = some (true, table_alpha) ∧
    TypeNode.hash (fun _ => 1) (fun s h => 31 * s + h) 3 table_alpha 2 = some 1014816 ∧
    ∃ x, TypeNode.hash (fun _ => 1) (fun s h => 31 * s + h) 3 table_alpha 2 = some x ∧
      TypeNode.hash (fun _ => 1) (fun s h => 31 * s + h) 3 table_alpha 3 = some x :=
  ⟨by rfl, by rfl,
   hash_respects_equal (fun _ => 1) (fun s h => 31 * s + h) table_alpha table_alpha 2 3 3
    (TypeTable.typevars_are_leaves_of_forall (by decide)) (by rfl)⟩

/-! ## Mixed bound and free type variables -/

/-- C28, the code at the failing input: in `table_double`, `A` is bound at
`f = fn<A>(A)` and `B` is free, neither has `equiv_var` set; `A.equal(B)` reads
`t->bound_at()->num_bound_vars()` through the null `bound_at` of `B` and does
not return, whatever the fuel, while `B.equal(A)` returns false. -/
theorem TypeVarNode_equal_mixed_fails :
    TypeVar.bound_at table_double 0 = some (some 1) ∧
    TypeVar.bound_at table_double 2 = some none ∧
    (∀ fuel, Generic.equal fuel table_double 0 2 = none) ∧
    ∀ fuel, Generic.equal (fuel + 1) table_double 2 0 = some (false, table_double) := by
  refine ⟨by decide, by decide, fun fuel => ?_, fun fuel => by rfl⟩
  cases fuel <;> rfl

/-! ## `unify_bound_vars` -/

/-- C29: `unify_bound_vars(other_vars)` always returns; it returns true exactly
when the node has no bound variables and `other_vars` is empty, and for a node
with at least one bound variable it returns false, whatever `other_vars` is,
also when it has the same length. -/
theorem unify_bound_vars_iff (tt : TypeTable) (N : Ptr) (n : TypeNode)
    (other_vars : List Ptr) (hN : tt.type N = some n) :
    (∃ r, Generic.unify_bound_vars tt N other_vars = some r) ∧
    (Generic.unify_bound_vars tt N other_vars = some true ↔
      n.bound_vars = [] ∧ other_vars = []) ∧
    (n.bound_vars ≠ [] → Generic.unify_bound_vars tt N other_vars = some false) := by
  have hu : Generic.unify_bound_vars tt N other_vars =
      some (if n.bound_vars.length = other_vars.length then !(!n.bound_vars.isEmpty)
        else false) := by
    simp only [Generic.unify_bound_vars, Generic.num_bound_vars, Generic.is_generic, hN,
      Option.map_some']
    split <;> rfl
  rw [hu]
  refine ⟨⟨_, rfl⟩, ?_, ?_⟩
  · cases hb : n.bound_vars with
    | nil =>
      cases other_vars with
      | nil => simp
      | cons w ws => simp
    | cons v vs => simp
  · intro hne
    cases hb : n.bound_vars with
    | nil => exact absurd hb hne
    | cons v vs => simp

/-- Witness for C29: in `table_alpha`, `int` with no variables returns true,
`int` with one variable returns false, and `fn<A>(A, int)` returns false also
for a list of one variable. -/
theorem unify_bound_vars_iff_witness :
    Generic.unify_bound_vars table_alpha 4 [] = some true ∧
    Generic.unify_bound_vars table_alpha 4 [1] = some false ∧
    Generic.unify_bound_vars table_alpha 2 [1] = some false ∧
    (Generic.bound_vars table_alpha 2 = some [0]) :=
  ⟨((unify_bound_vars_iff table_alpha 4 { kind := Kind.Primitive 0, representative := some 4 }
      [] (by rfl)).2.1).2 ⟨rfl, rfl⟩,
   by rfl,
   (unify_bound_vars_iff table_alpha 2
      { kind := Kind.Fn, elems := [0, 4], bound_vars := [0], representative := some 2 }
      [1] (by rfl)).2.2 (by decide),
   by rfl⟩

/-! ## Scope round trip -/

theorem Sema.lookup_eq_join (s : Sema) (x : Symbol) :
    s.lookup x = (s.sym2decl.find x).join := by
  unfold Sema.lookup
  cases s.sym2decl.find x <;> rfl

/-- The loop of `pop_scope`: when every declaration above the level shadows
what `G` says about its symbol, and every other symbol already means what `G`
says, then after the loop every symbol means what `G` says. -/
theorem Sema.pop_restore_spec (decls : List Decl) (G : Symbol → Option Ptr) :
    ∀ (new : List Ptr) (m : Sym2Decl),
      (∀ d ∈ new, ∃ n, decls[d]? = some n ∧ n.shadows = G n.symbol) →
      (∀ x, (∀ d ∈ new, ∀ n, decls[d]? = some n → n.symbol ≠ x) → (m.find x).join = G x) →
      ∃ m', Sema.pop_restore decls m new = some m' ∧ ∀ x, (m'.find x).join = G x := by
  intro new
  induction new with
  | nil =>
    intro m _ h
    exact ⟨m, rfl, fun x => h x (fun d hd => by simp at hd)⟩
  | cons d ds ih =>
    intro m hnew hrest
    obtain ⟨n, hn, hsh⟩ := hnew d (List.mem_cons_self _ _)
    obtain ⟨m', hm', hall⟩ := ih (m.assign n.symbol n.shadows)
      (fun d' hd' => hnew d' (List.mem_cons_of_mem _ hd'))
      (fun x hx => by
        by_cases hc : n.symbol = x
        · subst hc
          rw [Sym2Decl.find_assign_same, Option.join, hsh]
          rfl
        · rw [Sym2Decl.find_assign_other _ _ hc]
          apply hrest
          intro d' hd' n' hn'
          rcases List.mem_cons.mp hd' with rfl | hd'
          · rw [hn] at hn'
            cases hn'
            exact hc
          · exact hx d' hd' n' hn')
    exact ⟨m', by simp [Sema.pop_restore, hn, hm'], hall⟩

theorem Sema.clash_of_lookup {st : Sema} {x : Symbol} {e : Ptr} {m : Decl}
    (hl : st.lookup x = some e) (hm : st.decl e = some m) :
    st.clash x = some (if m.depth = st.depth then some e else none) := by
  unfold Sema.lookup at hl
  unfold Sema.clash
  cases hf : st.sym2decl.find x with
  | none => simp [hf] at hl
  | some v =>
    simp only [hf] at hl
    subst hl
    simp [hm]

theorem Sema.clash_total {st : Sema}
    (hv : ∀ x e, st.lookup x = some e → ∃ m, st.decl e = some m) (x : Symbol) :
    ∃ c, st.clash x = some c := by
  cases hl : st.lookup x with
  | none =>
    refine ⟨none, ?_⟩
    unfold Sema.lookup at hl
    unfold Sema.clash
    cases hf : st.sym2decl.find x with
    | none => rfl
    | some v =>
      simp only [hf] at hl
      subst hl
      rfl
  | some e =>
    obtain ⟨m, hm⟩ := hv x e hl
    exact ⟨_, Sema.clash_of_lookup hl hm⟩

/-- One call of `insert` keeps the invariant of the open scope, whether the
declaration is inserted or rejected. -/
theorem Sema.insert_keeps_scope_inv {s st : Sema} {new : List Ptr}
    (hinv : Sema.scope_inv s st new) {d : Ptr} (hd : ∃ n, s.decl d = some n) :
    ∃ st' new', st.insert d = some st' ∧ Sema.scope_inv s st' new' := by
  obtain ⟨h1, h2, h3, h4, h5, h6⟩ := hinv
  obtain ⟨n0, hn0⟩ := hd
  have hex : ∃ n, st.decl d = some n ∧ n.symbol = n0.symbol := by
    have := h3 d
    rw [hn0] at this
    cases hsd : st.decl d with
    | none => simp [hsd] at this
    | some n => exact ⟨n, rfl, by simpa [hsd] using this⟩
  obtain ⟨n, hn, hsym⟩ := hex
  obtain ⟨c, hc⟩ := Sema.clash_total h6 n.symbol
  cases c with
  | some other =>
    exact ⟨_, new, Sema.insert_of_clash hn hc, h1, h2, h3, h4, h5, h6⟩
  | none =>
    have hK : ∀ d0 ∈ new, (s.decl d0).map Decl.symbol ≠ some n.symbol := by
      intro d0 hd0 heq
      obtain ⟨n', hn', -, hdep, hlk⟩ := h4 d0 hd0
      have hs' : n'.symbol = n.symbol := by
        have := h3 d0
        rw [hn', heq] at this
        simpa using this
      rw [hs'] at hlk
      rw [Sema.clash_of_lookup hlk hn', if_pos hdep] at hc
      cases hc
    have hlt : d < st.decls.length := Sema.decl_lt hn
    refine ⟨_, new ++ [d], Sema.insert_of_no_clash hn hc, ?_⟩
    have hdd : ∀ (x : Decl), ({ st with
        decls := st.decls.set d x,
        decl_stack := st.decl_stack ++ [d],
        sym2decl := st.sym2decl.assign n.symbol (some d) } : Sema).decl d = some x := by
      intro x
      simp [Sema.decl, hlt]
    have hdo : ∀ (x : Decl) (p : Ptr), p ≠ d → ({ st with
        decls := st.decls.set d x,
        decl_stack := st.decl_stack ++ [d],
        sym2decl := st.sym2decl.assign n.symbol (some d) } : Sema).decl p = st.decl p := by
      intro x p hp
      simp [Sema.decl, List.getElem?_set_ne (Ne.symm hp)]
    have hls : ∀ (x : Decl), ({ st with
        decls := st.decls.set d x,
        decl_stack := st.decl_stack ++ [d],
        sym2decl := st.sym2decl.assign n.symbol (some d) } : Sema).lookup n.symbol =
          some d := by
      intro x
      simp [Sema.lookup, Sym2Decl.find_assign_same]
    have hlo : ∀ (x : Decl) (y : Symbol), y ≠ n.symbol → ({ st with
        decls := st.decls.set d x,
        decl_stack := st.decl_stack ++ [d],
        sym2decl := st.sym2decl.assign n.symbol (some d) } : Sema).lookup y =
          st.lookup y := by
      intro x y hy
      simp [Sema.lookup, Sym2Decl.find_assign_other _ _ (Ne.symm hy)]
    have hlook : st.lookup n.symbol = s.lookup n.symbol := h5 n.symbol hK
    refine ⟨h1, ?_, ?_, ?_, ?_, ?_⟩
    · show st.decl_stack ++ [d] = s.decl_stack ++ (new ++ [d])
      rw [h2, List.append_assoc]
    · intro p
      by_cases hp : p = d
      · subst hp
        rw [hdd, ← h3 p, hn]
        rfl
      · rw [hdo _ p hp]
        exact h3 p
    · intro d' hd'
      rcases List.mem_append.mp hd' with hin | hin
      · obtain ⟨n', hn', hsh, hdep, hlk⟩ := h4 d' hin
        have hne : d' ≠ d := by
          intro he
          subst he
          exact hK d' hin (by rw [hn0, hsym]; rfl)
        have hsne : n'.symbol ≠ n.symbol := by
          intro he
          apply hK d' hin
          rw [← h3 d', hn', ← he]
          rfl
        exact ⟨n', by rw [hdo _ d' hne]; exact hn', hsh, hdep,
          by rw [hlo _ _ hsne]; exact hlk⟩
      · rw [List.mem_singleton] at hin
        subst hin
        exact ⟨_, hdd _, hlook, rfl, hls _⟩
    · intro x hx
      have hxs : x ≠ n.symbol := by
        intro he
        apply hx d (List.mem_append_right _ (List.mem_singleton_self d))
        rw [hn0, he, hsym]
        rfl
      rw [hlo _ _ hxs]
      exact h5 x (fun d0 hd0 => hx d0 (List.mem_append_left _ hd0))
    · intro x e hl
      by_cases hxs : x = n.symbol
      · subst hxs
        rw [hls] at hl
        cases hl
        exact ⟨_, hdd _⟩
      · rw [hlo _ _ hxs] at hl
        obtain ⟨m, hm⟩ := h6 x e hl
        by_cases he : e = d
        · subst he
          exact ⟨_, hdd _⟩
        · exact ⟨m, by rw [hdo _ e he]; exact hm⟩

theorem Sema.insert_all_keeps_scope_inv (s : Sema) :
    ∀ (ds : List Ptr) (st : Sema) (new : List Ptr), Sema.scope_inv s st new →
      (∀ d ∈ ds, ∃ n, s.decl d = some n) →
      ∃ st' new', st.insert_all ds = some st' ∧ Sema.scope_inv s st' new' := by
  intro ds
  induction ds with
  | nil =>
    intro st new hinv _
    exact ⟨st, new, rfl, hinv⟩
  | cons d ds ih =>
    intro st new hinv hds
    obtain ⟨st1, new1, hins, hinv1⟩ :=
      Sema.insert_keeps_scope_inv hinv (hds d (List.mem_cons_self _ _))
    obtain ⟨st', new', hall, hinv'⟩ := ih st1 new1 hinv1
      (fun d' hd' => hds d' (List.mem_cons_of_mem _ hd'))
    exact ⟨st', new', by simp [Sema.insert_all, hins, hall], hinv'⟩

/-- C30: scope round trip.  From a state `s` whose mapped declarations exist,
`push_scope()`, any sequence of `insert` calls on declarations of the program
(each is inserted or rejected as a redefinition), and `pop_scope()` all
complete, and afterwards `lookup` returns for every symbol what it returned in
`s`, and `depth()`, the levels and the declaration stack (so also its length)
are those of `s`. -/
theorem scope_round_trip (s : Sema) (ds : List Ptr)
    (hvalid : ∀ x e, s.lookup x = some e → ∃ m, s.decl e = some m)
    (hds : ∀ d ∈ ds, ∃ n, s.decl d = some n) :
    ∃ st st', s.push_scope.insert_all ds = some st ∧ st.pop_scope = some st' ∧
      (∀ x, st'.lookup x = s.lookup x) ∧
      st'.depth = s.depth ∧
      st'.decl_stack.length = s.decl_stack.length ∧
      st'.decl_stack = s.decl_stack ∧ st'.levels = s.levels := by
  have h0 : Sema.scope_inv s s.push_scope [] :=
    ⟨rfl, by simp [Sema.push_scope], fun _ => rfl, fun d hd => by simp at hd,
      fun _ _ => rfl, hvalid⟩
  obtain ⟨st, new, hall, h1, h2, h3, h4, h5, h6⟩ :=
    Sema.insert_all_keeps_scope_inv s ds s.push_scope [] h0 hds
  obtain ⟨m', hm', hfin⟩ := Sema.pop_restore_spec st.decls s.lookup new st.sym2decl
    (fun d hd => by
      obtain ⟨n, hn, hsh, -, -⟩ := h4 d hd
      exact ⟨n, hn, hsh⟩)
    (fun x hx => by
      rw [← Sema.lookup_eq_join]
      apply h5
      intro d hd heq
      obtain ⟨n, hn, -⟩ := h4 d hd
      have := h3 d
      rw [hn, heq] at this
      exact hx d hd n hn (by simpa using this))
  have hlast : st.levels.getLast? = some s.decl_stack.length := by
    rw [h1]
    simp
  have hdrop : st.decl_stack.drop s.decl_stack.length = new := by
    rw [h2]
    simp
  have htake : st.decl_stack.take s.decl_stack.length = s.decl_stack := by
    rw [h2]
    simp
  have hle : s.decl_stack.length ≤ st.decl_stack.length := by
    rw [h2]
    simp
  have hdl : st.levels.dropLast = s.levels := by
    rw [h1]
    simp
  refine ⟨st, { st with sym2decl := m', decl_stack := s.decl_stack, levels := s.levels },
    hall, ?_, ?_, rfl, rfl, rfl, rfl⟩
  · simp [Sema.pop_scope, hlast, hle, hdrop, hm', htake, hdl]
  · intro x
    rw [Sema.lookup_eq_join]
    exact hfin x

/-- Witness for C30: from `sema_global`, where the symbol 7 means `x` and the
symbol 8 nothing, a new scope in which a second declaration of 7 and a
declaration of 8 are inserted changes both meanings, and `pop_scope()` brings
them back. -/
theorem scope_round_trip_witness :
    sema_global.lookup 7 = some 0 ∧ sema_global.lookup 8 = none ∧
    (sema_global.push_scope.insert_all [1, 2]).map (fun st => (st.lookup 7, st.lookup 8)) =
      some (some 1, some 2) ∧
    ∃ st st', sema_global.push_scope.insert_all [1, 2] = some st ∧
      st.pop_scope = some st' ∧
      (∀ x, st'.lookup x = sema_global.lookup x) ∧
      st'.depth = sema_global.depth ∧
      st'.decl_stack.length = sema_global.decl_stack.length ∧
      st'.decl_stack = sema_global.decl_stack ∧ st'.levels = sema_global.levels :=
  ⟨by decide, by decide, by decide,
   scope_round_trip sema_global [1, 2]
    (fun x e h => by
      have he : e = 0 := by
        by_cases hx : 7 = x
        · subst hx
          have h' : some 0 = some e := h
          cases h'
          rfl
        · simp [Sema.lookup, sema_global, Sym2Decl.find, hx] at h
      subst he
      exact ⟨_, rfl⟩)
    (fun d hd => by
      have hd' : d = 1 ∨ d = 2 := by simpa using hd
      rcases hd' with rfl | rfl <;> exact ⟨_, rfl⟩)⟩

end Impala
